import Mathlib

/-!
Verification of the archive extraction/creation engine of astrbot-launcher
(the modules archive/path.rs, archive/extract.rs, archive/links.rs,
archive/tar_gz.rs, archive/zip_ops.rs and the tar packer in archive.rs).

The shallow embedding models:
  * raw archive-entry paths as lists of characters (Rust str, byte-for-byte
    for the ASCII checks the code performs),
  * filesystem paths as lists of path segments (the component view of a
    Rust PathBuf); an MPath carries an absolute flag mirroring has_root,
  * the filesystem as an association list from absolute canonical-space
    keys to nodes (directory, regular file with byte content, or symbolic
    link with its stored target), together with the set of paths on which
    a set-permissions call would fail (modelling the platform condition
    that makes fs set_permissions return an error),
  * canonicalization (Rust fs canonicalize) as component-wise resolution
    that follows symbolic links with a hop budget of 40, mirroring the
    Linux SYMLOOP_MAX bound; exhausting the budget is the ELOOP error,
    which is not a not-found error,
  * extraction drivers as folds over the entry list, threading the
    filesystem, the set of already written files and the queued symlinks
    exactly as the Rust loops do.

Pure functions keep their Rust names.  Functions whose Rust name ends in
a word the development avoids are renamed with a note at the definition.
-/

deriving instance DecidableEq for Except

namespace Launcher

/-! ## Basic path types -/

/-- A path segment, as a list of characters. -/
abbrev Seg := List Char

/-- A raw Rust string, as a list of characters. -/
abbrev RStr := List Char

/-- An absolute filesystem location in canonical component form. -/
abbrev Key := List Seg

/-- Characters of a Lean string literal, used to write concrete inputs. -/
def str (s : String) : List Char := s.data

def dotSeg : Seg := ['.']

def dotdotSeg : Seg := ['.', '.']

/-- The component view of a Rust PathBuf: a has-root flag and the list of
components (which may still contain dot and dot-dot components). -/
structure MPath where
  abs : Bool
  segs : List Seg
deriving DecidableEq

/-! ## String algorithms of archive/path.rs -/

/-- normalize_entry_path: replace every backslash by a forward slash. -/
def normalize_entry_path (p : RStr) : RStr :=
  p.map (fun c => if c = '\\' then '/' else c)

/-- Rust str split on the slash character, keeping empty pieces, exactly
like the split iterator used by parse_entry_rel_path. -/
def splitSlash : RStr → List Seg
  | [] => [[]]
  | c :: rest =>
    if c = '/' then [] :: splitSlash rest
    else
      match splitSlash rest with
      | s :: ss => (c :: s) :: ss
      | [] => [[c]]

/-- Join segments with slashes; inverse of splitSlash on slash-free
segments, and the display form of a relative PathBuf. -/
def joinSlash : List Seg → RStr
  | [] => []
  | [s] => s
  | s :: rest => s ++ '/' :: joinSlash rest

/-- has_windows_drive_prefix from archive/path.rs (renamed): the first
byte is an ASCII letter and the second byte is a colon. -/
def has_windows_drive_pfx (p : RStr) : Bool :=
  match p with
  | c0 :: c1 :: _ => c0.isAlpha && c1 = ':'
  | _ => false

/-- first_segment: the piece before the first slash. -/
def first_segment (p : RStr) : Option Seg :=
  (splitSlash p).head?

/-- The loop body of parse_entry_rel_path: drop empty and dot segments,
reject on a dot-dot segment, keep the rest in order. -/
def collectSegs : List Seg → Option (List Seg)
  | [] => some []
  | s :: rest =>
    if s = [] ∨ s = dotSeg then collectSegs rest
    else if s = dotdotSeg then none
    else (collectSegs rest).map (s :: ·)

/-- parse_entry_rel_path from archive/path.rs: convert an archive entry
path to a relative segment list, rejecting empty or traversal paths. -/
def parse_entry_rel_path (raw : RStr) : Option (List Seg) :=
  match first_segment (normalize_entry_path raw) with
  | none => none
  | some first =>
    if first = [] ∨ has_windows_drive_pfx (normalize_entry_path raw) then none
    else
      match collectSegs (splitSlash (normalize_entry_path raw)) with
      | none => none
      | some rel => if rel = [] then none else some rel

/-- The component view of a raw string turned into a Path: absolute when
it starts with a slash; components are the non-empty slash-separated
pieces (dot and dot-dot are kept as components). -/
def pathOfString (t : RStr) : MPath :=
  ⟨t.head? = some '/', (splitSlash t).filter (· ≠ [])⟩

/-! ## The top-directory detector of archive/path.rs -/

/-- The accumulator threaded through scan_common_top_dir. -/
structure TopScan where
  candidate : Option Seg
  sawNested : Bool
  valid : Bool
deriving DecidableEq

def initTopScan : TopScan := ⟨none, false, true⟩

/-- The candidate bookkeeping at the end of scan_common_top_dir. -/
def scanCand (first : Seg) (st : TopScan) : TopScan :=
  match st.candidate with
  | none => { st with candidate := some first }
  | some existing => if existing = first then st else { st with valid := false }

/-- scan_common_top_dir: one step of the top-directory scan over one
entry path string. -/
def scan_common_top_dir (path : RStr) (st : TopScan) : TopScan :=
  if !st.valid then st
  else
    match first_segment (normalize_entry_path path) with
    | none => { st with valid := false }
    | some first =>
      if first = [] then { st with valid := false }
      else
        scanCand first
          (if (normalize_entry_path path).contains '/' then { st with sawNested := true }
           else st)

/-- finalize_common_top_dir: strip only when the scan stayed valid and
some entry was nested. -/
def finalize_common_top_dir (st : TopScan) : Option Seg :=
  if st.valid && st.sawNested then st.candidate else none

/-- The scan loop of detect_common_top_dir (and of the first pass of
extract_tar_gz_flat): parse each raw path, scan the display form of the
parsed relative path, skip unparseable entries. -/
def scanFold (st : TopScan) (raws : List RStr) : TopScan :=
  raws.foldl
    (fun st raw =>
      match parse_entry_rel_path raw with
      | some rel => scan_common_top_dir (joinSlash rel) st
      | none => st)
    st

/-- detect_common_top_dir from archive/path.rs. -/
def detect_common_top_dir (raws : List RStr) : Option Seg :=
  finalize_common_top_dir (scanFold initTopScan raws)

/-- strip_common_top_dir from archive/path.rs: strip the detected top
segment, skipping the entry that is the top directory itself. -/
def strip_common_top_dir (relative : List Seg) (top : Option Seg) : Option (List Seg) :=
  match top with
  | none => some relative
  | some t =>
    match relative with
    | [] => none
    | h :: rest => if h = t then (if rest = [] then none else some rest) else none

/-! ## Filesystem model -/

/-- A filesystem node: directory, regular file with its bytes, or a
symbolic link storing its target path. -/
inductive FNode
  | dir
  | file (content : List Nat)
  | symlink (target : MPath)
deriving DecidableEq

/-- The filesystem: bindings from absolute keys to nodes, plus the set of
paths on which a set-permissions call fails (the platform condition that
makes fs set_permissions return an error). -/
structure Fs where
  entries : List (Key × FNode)
  chmodFail : List Key
deriving DecidableEq

def lookupKey : List (Key × FNode) → Key → Option FNode
  | [], _ => none
  | (k, n) :: rest, q => if k = q then some n else lookupKey rest q

/-- The node stored at a key; the root always exists as a directory. -/
def Fs.node (fs : Fs) (k : Key) : Option FNode :=
  if k = [] then some .dir else lookupKey fs.entries k

def setEntries : List (Key × FNode) → Key → FNode → List (Key × FNode)
  | [], q, n => [(q, n)]
  | (k, m) :: rest, q, n => if k = q then (q, n) :: rest else (k, m) :: setEntries rest q n

/-- Store a node at a key, replacing any earlier binding in place. -/
def Fs.set (fs : Fs) (k : Key) (n : FNode) : Fs :=
  { fs with entries := setEntries fs.entries k n }

/-- Canonicalization errors: not-found is the only one the longest-prefix
walk recovers from; every other kind (ELOOP, not-a-directory) is fatal. -/
inductive CErr
  | notFound
  | other
deriving DecidableEq

/-- Errors of the extraction engine, one constructor per source error
site. -/
inductive XErr
  | unsafePath
  | canonFail
  | reachedRoot
  | traversalEscape
  | rootEscape
  | unsupportedType
  | missingLinkTarget
  | emptyLinkTarget
  | absoluteLinkTarget
  | windowsLinkTarget
  | noParent
  | brokenHardLink
  | hardLinkFailed
  | symlinkExists
  | dirConflict
  | fileConflict
  | sizeMismatch
  | permDenied
deriving DecidableEq

/-- The result of walking plain components until a symbolic link is hit:
either a final outcome, or a pending link target to expand. -/
inductive WalkRes
  | done (r : Except CErr Key)
  | expand (base : Key) (t : MPath) (rest : List Seg)

/-- One symlink-free stretch of the resolution walk: consume dot and
dot-dot against the resolved base, descend through directories, stop at
a missing node (not-found), below a regular file (not-a-directory), or
at a symbolic link (to be expanded by the caller). -/
def walkStep (fs : Fs) (base : Key) : List Seg → WalkRes
  | [] => .done (.ok base)
  | s :: rest =>
    if s = dotSeg then walkStep fs base rest
    else if s = dotdotSeg then walkStep fs base.dropLast rest
    else
      match fs.node (base ++ [s]) with
      | none => .done (.error .notFound)
      | some .dir => walkStep fs (base ++ [s]) rest
      | some (.file _) => .done (if rest = [] then .ok (base ++ [s]) else .error .other)
      | some (.symlink t) => .expand base t rest

/-- Component-wise path resolution following symbolic links, the model of
what the kernel does for Rust fs canonicalize.  The base is an already
resolved absolute location; the remaining segments may contain dot and
dot-dot components (for example, produced by symlink targets).  The fuel
bounds the number of symlink hops, mirroring the SYMLOOP_MAX limit of 40;
running out of fuel is the ELOOP error, which is not not-found. -/
def resolvePath (fs : Fs) (fuel : Nat) (base : Key) (segs : List Seg) : Except CErr Key :=
  match walkStep fs base segs with
  | .done r => r
  | .expand base' t rest =>
    match fuel with
    | 0 => .error .other
    | fuel' + 1 => resolvePath fs fuel' (if t.abs then [] else base') (t.segs ++ rest)

/-- Rust fs canonicalize of an absolute path (given by its components,
already free of a root marker). -/
def canonKey (fs : Fs) (k : Key) : Except CErr Key :=
  resolvePath fs 40 [] k

/-- The textual normalization loop at the top of
canonicalize_longest_prefix: push normal components, skip dot, pop on
dot-dot; popping an empty relative path is the parent-traversal error,
while an absolute path saturates at the root. -/
def normComps (abs : Bool) (acc : List Seg) : List Seg → Except XErr (List Seg)
  | [] => .ok acc
  | s :: rest =>
    if s = dotSeg then normComps abs acc rest
    else if s = dotdotSeg then
      match acc with
      | [] => if abs then normComps abs [] rest else .error .traversalEscape
      | _ => normComps abs acc.dropLast rest
    else normComps abs (acc ++ [s]) rest

/-- The retry loop of canonicalize_longest_prefix, on the reversed
current path so that popping the last component is structural:
canonicalize; on not-found move the last component into the pending
suffix and retry; on success re-append the pending suffix. -/
def clpRev (fs : Fs) : List Seg → List Seg → Except XErr Key
  | [], suffix =>
    (match canonKey fs (([] : List Seg).reverse) with
    | .ok c => .ok (c ++ suffix)
    | .error .other => .error .canonFail
    | .error .notFound => .error .reachedRoot)
  | c0 :: cs, suffix =>
    match canonKey fs ((c0 :: cs).reverse) with
    | .ok c => .ok (c ++ suffix)
    | .error .other => .error .canonFail
    | .error .notFound => clpRev fs cs (c0 :: suffix)

/-- The retry loop of canonicalize_longest_prefix. -/
def clpLoop (fs : Fs) (current : Key) (suffix : List Seg) : Except XErr Key :=
  clpRev fs current.reverse suffix

/-- canonicalize_longest_prefix from archive/path.rs.  The candidates the
extractor passes here are always absolute; a relative input is resolved
as if the working directory were the root. -/
def canonicalize_longest_pfx (fs : Fs) (p : MPath) : Except XErr Key :=
  match normComps p.abs [] p.segs with
  | .error e => .error e
  | .ok n => clpLoop fs n []

/-- The candidate built inside resolve_within_dir: an absolute mapper
output is taken as is, a relative one is joined onto the canonical base. -/
def candidate_for (cb : Key) (p : MPath) : MPath :=
  if p.abs then p else ⟨true, cb ++ p.segs⟩

/-- resolve_within_dir from archive/path.rs: canonicalize the base,
canonicalize the longest existing candidate portion, and fail unless the
result stays under the canonical base. -/
def resolve_within_dir (fs : Fs) (base_dir : Key) (path : MPath) : Except XErr Key :=
  match canonKey fs base_dir with
  | .error _ => .error .canonFail
  | .ok canonical_base =>
    match canonicalize_longest_pfx fs (candidate_for canonical_base path) with
    | .error e => .error e
    | .ok canonical_candidate =>
      if canonical_base.isPrefixOf canonical_candidate then .ok canonical_candidate
      else .error .rootEscape

/-- validate_rel_link_target from archive/path.rs, on the raw target
string: reject empty, absolute, and Windows-drive targets.  (On the unix
component model no literal path carries a Windows prefix component, so
the check reduces to the byte test on the string form.) -/
def validate_rel_link_target (t : RStr) : Option XErr :=
  if t = [] then some .emptyLinkTarget
  else if (pathOfString t).abs then some .absoluteLinkTarget
  else if has_windows_drive_pfx t then some .windowsLinkTarget
  else none

/-! ## Entry writing (archive/extract.rs) -/

/-- Whether a stat of the key reports a directory (following links). -/
def statIsDir (fs : Fs) (k : Key) : Bool :=
  match canonKey fs k with
  | .ok q => fs.node q = some .dir
  | .error _ => false

/-- One create_dir step: ok on an existing directory (also through a
symlink that resolves to a directory), error on a file. -/
def mkdirOne (fs : Fs) (k : Key) : Fs × Option XErr :=
  match fs.node k with
  | none => (fs.set k .dir, none)
  | some .dir => (fs, none)
  | some (.file _) => (fs, some .dirConflict)
  | some (.symlink _) => if statIsDir fs k then (fs, none) else (fs, some .dirConflict)

def cdaAux (fs : Fs) (base : Key) : List Seg → Fs × Option XErr
  | [] => (fs, none)
  | s :: rest =>
    match mkdirOne fs (base ++ [s]) with
    | (fs', none) => cdaAux fs' (base ++ [s]) rest
    | (fs', some e) => (fs', some e)

/-- fs create_dir_all: create every missing ancestor in order. -/
def create_dir_all (fs : Fs) (k : Key) : Fs × Option XErr :=
  cdaAux fs [] k

/-- fs File create followed by io copy of the whole content stream:
create or truncate the file at the key.  A final symbolic link is
followed (create through the link), a directory is the conflict error.
Hard chains behind the final link are folded into the conflict error;
the extractor only ever writes at freshly resolved keys, where the final
node is never a link. -/
def fileCreateWrite (fs : Fs) (k : Key) (content : List Nat) : Fs × Option XErr :=
  match fs.node k with
  | none => (fs.set k (.file content), none)
  | some (.file _) => (fs.set k (.file content), none)
  | some .dir => (fs, some .fileConflict)
  | some (.symlink t) =>
    match canonicalize_longest_pfx fs (candidate_for k.dropLast t) with
    | .error _ => (fs, some .fileConflict)
    | .ok q =>
      match fs.node q with
      | some .dir => (fs, some .fileConflict)
      | some (.symlink _) => (fs, some .fileConflict)
      | _ => (fs.set q (.file content), none)

/-- set_unix_permissions from archive/extract.rs: with a mode present,
the call fails exactly on the paths in chmodFail, and the error is
returned to the caller. -/
def set_unix_permissions (fs : Fs) (k : Key) (mode : Option Nat) : Option XErr :=
  match mode with
  | none => none
  | some _ => if k ∈ fs.chmodFail then some .permDenied else none

/-- write_entry from archive/extract.rs: directories are created (with
ancestors) and never size-checked; files get their ancestors created,
are created or truncated, receive the copied bytes, fail on a declared
size mismatch, and then have their permissions applied, any permission
error being returned. -/
def write_entry (fs : Fs) (out_path : Key) (is_dir : Bool) (content : List Nat)
    (unix_mode : Option Nat) (declared_size : Option Nat) : Fs × Option XErr :=
  if is_dir then create_dir_all fs out_path
  else
    match (if out_path = [] then (fs, none) else create_dir_all fs out_path.dropLast) with
    | (fs1, some e) => (fs1, some e)
    | (fs1, none) =>
      match fileCreateWrite fs1 out_path content with
      | (fs2, some e) => (fs2, some e)
      | (fs2, none) =>
        match declared_size with
        | some expected =>
          if content.length ≠ expected then (fs2, some .sizeMismatch)
          else
            match set_unix_permissions fs2 out_path unix_mode with
            | some e => (fs2, some e)
            | none => (fs2, none)
        | none =>
          match set_unix_permissions fs2 out_path unix_mode with
          | some e => (fs2, some e)
          | none => (fs2, none)

/-! ## Link handling (archive/links.rs) -/

/-- Join a path onto a resolved parent location; an absolute path
replaces the parent, as PathBuf join does. -/
def joinPath (parent : Key) (t : MPath) : MPath :=
  if t.abs then t else ⟨true, parent ++ t.segs⟩

structure QueuedSymlink where
  out_path : Key
  target : MPath
  resolved_target : Key
deriving DecidableEq

/-- resolve_relative_symlink_target: resolve the target against the
parent of the link, constrained to the destination root. -/
def resolve_relative_symlink_target (fs : Fs) (out_path : Key) (t : MPath)
    (dest_dir : Key) : Except XErr Key :=
  match out_path with
  | [] => .error .noParent
  | _ => resolve_within_dir fs dest_dir (joinPath out_path.dropLast t)

/-- queue_symlink from archive/links.rs: validate the raw target, then
pre-resolve it; creation is deferred. -/
def queue_symlink (fs : Fs) (out_path : Key) (targetRaw : RStr) (dest_dir : Key) :
    Except XErr QueuedSymlink :=
  match validate_rel_link_target targetRaw with
  | some e => .error e
  | none =>
    match resolve_relative_symlink_target fs out_path (pathOfString targetRaw) dest_dir with
    | .error e => .error e
    | .ok rt => .ok ⟨out_path, pathOfString targetRaw, rt⟩

/-- The unix symlink call: fails when the link path already exists. -/
def create_symlink (fs : Fs) (target : MPath) (link_path : Key) : Fs × Option XErr :=
  match fs.node link_path with
  | none => (fs.set link_path (.symlink target), none)
  | some _ => (fs, some .symlinkExists)

/-- create_queued_symlinks from archive/links.rs (unix branch: the
probed target kind is not needed to create the link). -/
def create_queued_symlinks (fs : Fs) : List QueuedSymlink → Fs × Option XErr
  | [] => (fs, none)
  | item :: rest =>
    match item.out_path with
    | [] => (fs, some .noParent)
    | _ =>
      match create_dir_all fs item.out_path.dropLast with
      | (fs1, some e) => (fs1, some e)
      | (fs1, none) =>
        match create_symlink fs1 item.target item.out_path with
        | (fs2, some e) => (fs2, some e)
        | (fs2, none) => create_queued_symlinks fs2 rest

/-- fs hard_link with the copy fallback.  Inode aliasing is modelled as
a byte copy (the behaviour of the code's own fallback path); the target
must be an existing regular file and the link path must not be a
directory. -/
def create_hard_link (fs : Fs) (target : Key) (link_path : Key) : Fs × Option XErr :=
  match fs.node target with
  | some (.file c) =>
    match fs.node link_path with
    | none => (fs.set link_path (.file c), none)
    | some (.file _) => (fs.set link_path (.file c), none)
    | some _ => (fs, some .hardLinkFailed)
  | _ => (fs, some .hardLinkFailed)

/-- create_hard_link_entry from archive/links.rs. -/
def create_hard_link_entry (fs : Fs) (out_path : Key) (resolved_target : Key) :
    Fs × Option XErr :=
  match out_path with
  | [] => (fs, some .noParent)
  | _ =>
    match create_dir_all fs out_path.dropLast with
    | (fs1, some e) => (fs1, some e)
    | (fs1, none) => create_hard_link fs1 resolved_target out_path

/-! ## The tar.gz driver (archive/tar_gz.rs) -/

inductive EKind
  | dir
  | file
  | symlink
  | hardlink
  | other
deriving DecidableEq

/-- A tar entry as the driver sees it: raw path, mapped entry type, the
bytes the content stream yields, the header mode, the header size field,
and the link-name field. -/
structure TEntry where
  raw : RStr
  kind : EKind
  content : List Nat
  unix_mode : Option Nat
  size : Nat
  target : Option RStr
deriving DecidableEq

/-- The caller-supplied destination mapper. -/
abbrev Mapper := RStr → Option MPath

structure TarState where
  fs : Fs
  extracted : List Key
  pending : List QueuedSymlink

/-- The mapped candidate resolution of the hard-link branch: when the
mapper routes the raw target somewhere, that place is resolved (a
resolution failure aborts); a skipped target contributes no candidate. -/
def hard_link_candidates (fs : Fs) (dest_dir : Key) (m : Mapper) (t : RStr) :
    Except XErr (List Key) :=
  match m t with
  | some mapped =>
    match resolve_within_dir fs dest_dir mapped with
    | .error er => .error er
    | .ok c => .ok [c]
  | none => .ok []

/-- The body of the entry loop of extract_tar_gz_mapped. -/
def tar_process_entry (dest_dir : Key) (m : Mapper) (st : TarState) (e : TEntry) :
    TarState × Option XErr :=
  if parse_entry_rel_path e.raw = none then (st, some .unsafePath)
  else
    match m e.raw with
    | none => (st, none)
    | some out =>
      match resolve_within_dir st.fs dest_dir out with
      | .error er => (st, some er)
      | .ok resolved_out =>
        match e.kind with
        | .symlink =>
          match e.target with
          | none => (st, some .missingLinkTarget)
          | some t =>
            match queue_symlink st.fs resolved_out t dest_dir with
            | .error er => (st, some er)
            | .ok q => ({ st with pending := st.pending ++ [q] }, none)
        | .hardlink =>
          match e.target with
          | none => (st, some .missingLinkTarget)
          | some t =>
            match validate_rel_link_target t with
            | some er => (st, some er)
            | none =>
              match hard_link_candidates st.fs dest_dir m t with
              | .error er => (st, some er)
              | .ok cs0 =>
                match resolved_out with
                | [] => (st, some .noParent)
                | _ =>
                  match resolve_within_dir st.fs dest_dir
                      (joinPath resolved_out.dropLast (pathOfString t)) with
                  | .error er => (st, some er)
                  | .ok c2 =>
                    match (cs0 ++ [c2]).find? (fun c => st.extracted.contains c) with
                    | none => (st, some .brokenHardLink)
                    | some rt =>
                      match create_hard_link_entry st.fs resolved_out rt with
                      | (fs', some er) => ({ st with fs := fs' }, some er)
                      | (fs', none) =>
                        ({ st with fs := fs', extracted := st.extracted ++ [resolved_out] }, none)
        | .other => (st, some .unsupportedType)
        | .dir =>
          match write_entry st.fs resolved_out true e.content e.unix_mode none with
          | (fs', er) => ({ st with fs := fs' }, er)
        | .file =>
          match write_entry st.fs resolved_out false e.content e.unix_mode (some e.size) with
          | (fs', some er) => ({ st with fs := fs' }, some er)
          | (fs', none) =>
            ({ st with fs := fs', extracted := st.extracted ++ [resolved_out] }, none)

def tarLoop (dest_dir : Key) (m : Mapper) (st : TarState) :
    List TEntry → TarState × Option XErr
  | [] => (st, none)
  | e :: rest =>
    match tar_process_entry dest_dir m st e with
    | (st', none) => tarLoop dest_dir m st' rest
    | (st', some er) => (st', some er)

/-- extract_tar_gz_mapped from archive/tar_gz.rs: ensure the destination
exists, run the entry loop, then materialize the queued symlinks. -/
def extract_tar_gz_mapped (fs : Fs) (dest_dir : Key) (m : Mapper)
    (entries : List TEntry) : Fs × Option XErr :=
  match create_dir_all fs dest_dir with
  | (fs1, some e) => (fs1, some e)
  | (fs1, none) =>
    match tarLoop dest_dir m ⟨fs1, [], []⟩ entries with
    | (st, some e) => (st.fs, some e)
    | (st, none) => create_queued_symlinks st.fs st.pending

/-- The mapper of the flat extraction modes: parse, strip the detected
top directory, and place the rest under the destination root. -/
def flatMapper (dest_dir : Key) (top : Option Seg) : Mapper := fun raw =>
  match parse_entry_rel_path raw with
  | none => none
  | some relative =>
    match strip_common_top_dir relative top with
    | none => none
    | some stripped => some ⟨true, dest_dir ++ stripped⟩

/-- extract_tar_gz_flat from archive/tar_gz.rs: the first pass scans
every entry path for the shared top directory, the second pass is the
mapped extraction with the stripping mapper. -/
def extract_tar_gz_flat (fs : Fs) (dest_dir : Key) (entries : List TEntry) :
    Fs × Option XErr :=
  extract_tar_gz_mapped fs dest_dir
    (flatMapper dest_dir (detect_common_top_dir (entries.map (·.raw)))) entries

/-! ## The zip driver (archive/zip_ops.rs) -/

/-- A zip entry as the driver sees it: symlinks are flagged through the
external attributes and carry their target as the entry content;
directories are flagged; size is the uncompressed size field. -/
structure ZEntry where
  raw : RStr
  isSymlink : Bool
  isDir : Bool
  content : List Nat
  unix_mode : Option Nat
  size : Nat
deriving DecidableEq

structure ZipState where
  fs : Fs
  pending : List QueuedSymlink

/-- Byte-wise reading of the content as text (read_to_string); it agrees
with UTF-8 on the ASCII targets that occur here. -/
def bytesToChars (bs : List Nat) : RStr :=
  bs.map Char.ofNat

/-- The body of the entry loop of extract_zip_mapped. -/
def zip_process_entry (dest_dir : Key) (m : Mapper) (st : ZipState) (e : ZEntry) :
    ZipState × Option XErr :=
  if parse_entry_rel_path e.raw = none then (st, some .unsafePath)
  else
    match m e.raw with
    | none => (st, none)
    | some out =>
      match resolve_within_dir st.fs dest_dir out with
      | .error er => (st, some er)
      | .ok resolved_out =>
        if e.isSymlink then
          match queue_symlink st.fs resolved_out (bytesToChars e.content) dest_dir with
          | .error er => (st, some er)
          | .ok q => ({ st with pending := st.pending ++ [q] }, none)
        else
          match write_entry st.fs resolved_out e.isDir e.content e.unix_mode
              (if e.isDir then none else some e.size) with
          | (fs', er) => ({ st with fs := fs' }, er)

def zipLoop (dest_dir : Key) (m : Mapper) (st : ZipState) :
    List ZEntry → ZipState × Option XErr
  | [] => (st, none)
  | e :: rest =>
    match zip_process_entry dest_dir m st e with
    | (st', none) => zipLoop dest_dir m st' rest
    | (st', some er) => (st', some er)

/-- extract_zip_mapped from archive/zip_ops.rs. -/
def extract_zip_mapped (fs : Fs) (dest_dir : Key) (m : Mapper)
    (entries : List ZEntry) : Fs × Option XErr :=
  match create_dir_all fs dest_dir with
  | (fs1, some e) => (fs1, some e)
  | (fs1, none) =>
    match zipLoop dest_dir m ⟨fs1, []⟩ entries with
    | (st, some e) => (st.fs, some e)
    | (st, none) => create_queued_symlinks st.fs st.pending

/-- extract_zip_flat from archive/zip_ops.rs. -/
def extract_zip_flat (fs : Fs) (dest_dir : Key) (entries : List ZEntry) :
    Fs × Option XErr :=
  extract_zip_mapped fs dest_dir
    (flatMapper dest_dir (detect_common_top_dir (entries.map (·.raw)))) entries

/-! ## Packing a directory tree (archive.rs append_dir_to_tar and
zip_ops.rs append_dir_tree_to_zip) -/

/-- A link-free directory tree: files carry content bytes and a mode. -/
inductive FTree
  | node (files : List (Seg × List Nat × Nat)) (dirs : List (Seg × FTree))

inductive PItem
  | pdir
  | pfile (content : List Nat) (mode : Nat)
deriving DecidableEq

mutual

/-- The walk order of the directory walker: the strict descendants of
the root, each directory before its own contents.  The walker's order
within one directory is platform dependent; this is one representative
of it. -/
def walkTree : FTree → List (List Seg × PItem)
  | .node files dirs =>
    files.map (fun f => ([f.1], PItem.pfile f.2.1 f.2.2)) ++ walkDirList dirs

def walkDirList : List (Seg × FTree) → List (List Seg × PItem)
  | [] => []
  | (n, t) :: rest =>
    ([n], PItem.pdir) :: ((walkTree t).map (fun p => (n :: p.1, p.2)) ++ walkDirList rest)

end

/-- append_dir_tree_to_zip: every file is streamed in under the given
path, every directory (except the root) gets an explicit directory
entry; the zip library appends a trailing slash to directory names, and
the file options carry one uniform mode. -/
def append_dir_tree_to_zip (pfx : Seg) (omode : Option Nat) (t : FTree) : List ZEntry :=
  (walkTree t).map (fun p =>
    match p.2 with
    | .pdir =>
      { raw := joinSlash (pfx :: p.1) ++ ['/'], isSymlink := false, isDir := true,
        content := [], unix_mode := omode, size := 0 }
    | .pfile c _ =>
      { raw := joinSlash (pfx :: p.1), isSymlink := false, isDir := false,
        content := c, unix_mode := omode, size := c.length })

/-- append_dir_to_tar from archive.rs: files keep their path and mode,
directories get a zero-size header with mode 0755. -/
def append_dir_to_tar (pfx : Seg) (t : FTree) : List TEntry :=
  (walkTree t).map (fun p =>
    match p.2 with
    | .pdir =>
      { raw := joinSlash (pfx :: p.1), kind := .dir, content := [],
        unix_mode := some 493, size := 0, target := none }
    | .pfile c fmode =>
      { raw := joinSlash (pfx :: p.1), kind := .file, content := c,
        unix_mode := some fmode, size := c.length, target := none })

/-- The single-entry pack step of append_dir_tree_to_zip. -/
def packZipItem (pfx : Seg) (omode : Option Nat) (p : List Seg × PItem) : ZEntry :=
  match p.2 with
  | .pdir =>
    { raw := joinSlash (pfx :: p.1) ++ ['/'], isSymlink := false, isDir := true,
      content := [], unix_mode := omode, size := 0 }
  | .pfile c _ =>
    { raw := joinSlash (pfx :: p.1), isSymlink := false, isDir := false,
      content := c, unix_mode := omode, size := c.length }

/-- The single-entry pack step of append_dir_to_tar. -/
def packTarItem (pfx : Seg) (p : List Seg × PItem) : TEntry :=
  match p.2 with
  | .pdir =>
    { raw := joinSlash (pfx :: p.1), kind := .dir, content := [],
      unix_mode := some 493, size := 0, target := none }
  | .pfile c fmode =>
    { raw := joinSlash (pfx :: p.1), kind := .file, content := c,
      unix_mode := some fmode, size := c.length, target := none }

/-- Walk items re-rooted at a tree position. -/
def shiftItems (pos : List Seg) (l : List (List Seg × PItem)) : List (List Seg × PItem) :=
  l.map (fun p => (pos ++ p.1, p.2))

/-- The node a tree mandates at a relative path: one of its files with
the stored bytes, one of its directories, or nothing. -/
def treeNodeAt : FTree → List Seg → Option FNode
  | _, [] => none
  | .node files dirs, [x] =>
    (match files.find? (fun f => f.1 == x) with
    | some f => some (.file f.2.1)
    | none =>
      match dirs.find? (fun d => d.1 == x) with
      | some _ => some .dir
      | none => none)
  | .node _ dirs, x :: rest =>
    match dirs.find? (fun d => d.1 == x) with
    | some d => treeNodeAt d.2 rest
    | none => none

/-- The node mandated below one directory list. -/
def dirListNodeAt : List (Seg × FTree) → List Seg → Option FNode
  | _, [] => none
  | ds, [x] =>
    (match ds.find? (fun d => d.1 == x) with
    | some _ => some .dir
    | none => none)
  | ds, x :: rest =>
    match ds.find? (fun d => d.1 == x) with
    | some d => treeNodeAt d.2 rest
    | none => none

/-- The node mandated by the file list of a single directory. -/
def fileListNodeAt (files : List (Seg × List Nat × Nat)) : List Seg → Option FNode
  | [x] =>
    (match files.find? (fun f => f.1 == x) with
    | some f => some (.file f.2.1)
    | none => none)
  | _ => none

/-- The file stored in the tree at a relative path, if any. -/
def treeFile : FTree → List Seg → Option (List Nat)
  | _, [] => none
  | .node files _, [n] => (files.find? (fun f => f.1 == n)).map (fun f => f.2.1)
  | .node _ dirs, n :: rest =>
    match dirs.find? (fun d => d.1 == n) with
    | some d => treeFile d.2 rest
    | none => none

def listNodupB : List Seg → Bool
  | [] => true
  | s :: rest => !rest.contains s && listNodupB rest

/-- A name a real directory entry can have: non-empty, not a dot name,
no slash; the backslash exclusion is the extra condition of the amended
round-trip statement. -/
def validSegB (s : Seg) : Bool :=
  s != [] && s != dotSeg && s != dotdotSeg && !s.contains '/'

def segNoBackslash (s : Seg) : Bool :=
  !s.contains '\\'

mutual

/-- Well-formedness of a tree as a real on-disk directory: valid sibling
names without duplicates, recursively. -/
def wfTreeB : FTree → Bool
  | .node files dirs =>
    files.all (fun f => validSegB f.1) &&
    dirs.all (fun d => validSegB d.1) &&
    listNodupB (files.map (·.1) ++ dirs.map (·.1)) &&
    wfDirListB dirs

def wfDirListB : List (Seg × FTree) → Bool
  | [] => true
  | (_, t) :: rest => wfTreeB t && wfDirListB rest

end

mutual

/-- All names of the tree avoid backslashes (the hypothesis the amended
round-trip claim adds). -/
def treeNoBackslashB : FTree → Bool
  | .node files dirs =>
    files.all (fun f => segNoBackslash f.1) &&
    dirs.all (fun d => segNoBackslash d.1) &&
    dirListNoBackslashB dirs

def dirListNoBackslashB : List (Seg × FTree) → Bool
  | [] => true
  | (_, t) :: rest => treeNoBackslashB t && dirListNoBackslashB rest

end

/-! ## The claim-side and spec-side statements -/

/-- The unsafe raw paths named by the abort property: a dot-dot segment,
a leading slash, or a drive-letter start. -/
def unsafe_entry_path (r : RStr) : Prop :=
  dotdotSeg ∈ splitSlash (normalize_entry_path r) ∨
    r.head? = some '/' ∨
    has_windows_drive_pfx (normalize_entry_path r)

instance (r : RStr) : Decidable (unsafe_entry_path r) := by
  unfold unsafe_entry_path
  infer_instance

/-- The normalization algorithm exactly as the claim words it: replace
backslashes, split on slashes, drop empty and dot segments, reject on a
dot-dot segment or a drive-letter start, reject an empty result.  (For
comparison with parse_entry_rel_path; the claim's wording has no
rejection of a leading slash.) -/
def parse_entry_rel_path_claim (raw : RStr) : Option (List Seg) :=
  if has_windows_drive_pfx (normalize_entry_path raw) then none
  else if dotdotSeg ∈ splitSlash (normalize_entry_path raw) then none
  else if (splitSlash (normalize_entry_path raw)).filter (fun s => s != [] && s != dotSeg) = []
    then none
  else some ((splitSlash (normalize_entry_path raw)).filter (fun s => s != [] && s != dotSeg))

/-- The amended algorithm: as the claim words it, plus the rejection of
a path whose first raw segment is empty (a leading separator, that is an
absolute path). -/
def parse_entry_rel_path_claim_amended (raw : RStr) : Option (List Seg) :=
  if first_segment (normalize_entry_path raw) = some [] then none
  else parse_entry_rel_path_claim raw

/-! ## Derived predicates used by the statements -/

/-- The regular-file content stored at a key, if any. -/
def fileAt (fs : Fs) (k : Key) : Option (List Nat) :=
  match fs.node k with
  | some (.file c) => some c
  | _ => none

/-- Whether a single segment looks like a drive-letter start once it
heads a slash-joined path. -/
def segDriveB (s : Seg) : Bool :=
  match s with
  | c0 :: c1 :: _ => c0.isAlpha && c1 = ':'
  | _ => false

def isSymNode : FNode → Bool
  | .symlink _ => true
  | _ => false

/-- A segment that is not a dot or dot-dot component. -/
def plainSeg (s : Seg) : Prop :=
  s ≠ dotSeg ∧ s ≠ dotdotSeg

instance (s : Seg) : Decidable (plainSeg s) := by
  unfold plainSeg
  infer_instance

def plainKey (k : Key) : Prop :=
  ∀ s ∈ k, plainSeg s

instance (k : Key) : Decidable (plainKey k) := by
  unfold plainKey
  infer_instance

/-- A filesystem without symbolic links. -/
def Fs.symFree (fs : Fs) : Prop :=
  ∀ kn ∈ fs.entries, isSymNode kn.2 = false

instance (fs : Fs) : Decidable fs.symFree := by
  unfold Fs.symFree
  infer_instance

/-- Well-formedness of the filesystem as a real tree: every binding has
a non-empty key and every proper non-empty ancestor of a binding is a
directory. -/
def Fs.wfFs (fs : Fs) : Prop :=
  ∀ kn ∈ fs.entries, kn.1 ≠ [] ∧
    ∀ i, i < kn.1.length → 0 < i → fs.node (kn.1.take i) = some FNode.dir

instance (fs : Fs) : Decidable fs.wfFs := by
  unfold Fs.wfFs
  infer_instance

/-- No existing proper ancestor of the key is a regular file (the
condition under which a symlink-free canonicalization walk cannot hit
the not-a-directory error). -/
def noFileBlock (fs : Fs) (n : Key) : Prop :=
  ∀ y c, y <+: n → y ≠ n → fs.node y ≠ some (FNode.file c)

/-- The directory position of the tree at a non-empty relative path. -/
def treeDirAt : FTree → List Seg → Bool
  | _, [] => false
  | .node _ dirs, [n] => (dirs.find? (fun d => d.1 == n)).isSome
  | .node _ dirs, n :: rest =>
    match dirs.find? (fun d => d.1 == n) with
    | some d => treeDirAt d.2 rest
    | none => false

/-- The textual component list of the candidate resolve_within_dir
builds over a canonical base equal to the destination key. -/
def candSegs (dest : Key) (p : MPath) : List Seg :=
  if p.abs then p.segs else dest ++ p.segs

/-- Kind preservation between filesystem states: directories stay
directories and regular files stay regular files. -/
def KindLE (fs fs' : Fs) : Prop :=
  ∀ k, (fs.node k = some FNode.dir → fs'.node k = some FNode.dir) ∧
    (∀ c, fs.node k = some (FNode.file c) → ∃ c', fs'.node k = some (FNode.file c'))

/-- Every non-empty prefix of the destination, the destination included,
is bound to a directory (the state right after create_dir_all on the
destination). -/
def destReady (fs : Fs) (dest : Key) : Prop :=
  ∀ l, l <+: dest → l ≠ [] → fs.node l = some FNode.dir

instance (fs : Fs) (dest : Key) : Decidable (destReady fs dest) := by
  unfold destReady
  have : ∀ l, l <+: dest ↔ l ∈ (List.range (dest.length + 1)).map (fun i => dest.take i) := by
    intro l
    constructor
    · intro h
      rcases List.prefix_iff_eq_take.mp h with ht
      refine List.mem_map.mpr ⟨l.length, List.mem_range.mpr ?_, ht.symm⟩
      have := h.length_le
      omega
    · intro h
      rcases List.mem_map.mp h with ⟨i, _, hi⟩
      rw [← hi]
      exact List.take_prefix i dest
  refine decidable_of_iff
    (∀ l ∈ (List.range (dest.length + 1)).map (fun i => dest.take i),
      l ≠ [] → fs.node l = some FNode.dir) ⟨fun h l hl => h l ((this l).mp hl), ?_⟩
  intro h l hl
  exact h l ((this l).mpr hl)

/-! ## Concrete inputs used by the witnesses and counterexamples -/

def destKey : Key := [str "dest"]

/-- A filesystem holding only the destination root. -/
def fsDestOnly : Fs := ⟨[([str "dest"], FNode.dir)], []⟩

/-- The identity-like mapper of the idempotence witness: every raw entry
path is mapped to itself as a relative path. -/
def c9Mapper : Mapper := fun r => some (pathOfString r)

/-- A directory entry followed by a file entry inside it. -/
def c9Entries : List ZEntry :=
  [⟨str "a", false, true, [], none, 0⟩,
   ⟨str "a/b.txt", false, false, [104, 105], some 420, 2⟩]

/-- The filesystem produced by extracting the two entries into the
destination root. -/
def c9Fs1 : Fs :=
  ⟨[([str "dest"], FNode.dir), ([str "dest", str "a"], FNode.dir),
    ([str "dest", str "a", str "b.txt"], FNode.file [104, 105])], []⟩

/-- The destination root, with or without an existing /etc/passwd. -/
def fsWithEtc (b : Bool) : Fs :=
  ⟨([str "dest"], FNode.dir) ::
    (if b then [([str "etc"], FNode.dir), ([str "etc", str "passwd"], FNode.file [0])]
     else []),
   []⟩

/-- A symlink entry whose target climbs out of the destination. -/
def escapeSymlinkEntry : TEntry :=
  { raw := str "link", kind := .symlink, content := [], unix_mode := none, size := 0,
    target := some (str "../../etc/passwd") }

/-- A hard link placed before its target in archive order. -/
def hardLinkFirstEntries : List TEntry :=
  [ { raw := str "a", kind := .hardlink, content := [], unix_mode := none, size := 0,
      target := some (str "b") },
    { raw := str "b", kind := .file, content := [1, 2], unix_mode := none, size := 2,
      target := none } ]

/-- A single nested zip entry under a shared top directory. -/
def projNestedEntries : List ZEntry :=
  [ { raw := str "project-v1/a/b.txt", isSymlink := false, isDir := false,
      content := [7], unix_mode := none, size := 1 } ]

/-- A single top-level zip entry with no nesting. -/
def projFlatEntries : List ZEntry :=
  [ { raw := str "project-v1", isSymlink := false, isDir := false,
      content := [3], unix_mode := none, size := 1 } ]

/-- A destination on which setting permissions of dest/f fails. -/
def fsChmodFails : Fs :=
  ⟨[([str "dest"], FNode.dir)], [[str "dest", str "f"]]⟩

/-- A tree holding one file whose name contains a backslash. -/
def bsTree : FTree := .node [(str "a\\b", ([9], 420))] []

/-- A small link-free tree with backslash-free names: a top file and a
subdirectory holding one file. -/
def c8Tree : FTree :=
  .node [(str "f", ([7, 8], 420))] [(str "d", .node [(str "g", ([9], 493))] [])]

/-- A destination already holding the extracted file dest/b. -/
def fsWithB : Fs :=
  ⟨[([str "dest"], FNode.dir), ([str "dest", str "b"], FNode.file [1, 2])], []⟩

/-- The loop state after the file entry b was extracted. -/
def hlState : TarState := ⟨fsWithB, [[str "dest", str "b"]], []⟩

/-- A hard-link entry at a whose target is b. -/
def hlEntry : TEntry :=
  { raw := str "a", kind := .hardlink, content := [], unix_mode := none, size := 0,
    target := some (str "b") }

/-! # Lemmas on the string algorithms -/

theorem splitSlash_ne_nil (p : RStr) : splitSlash p ≠ [] := by
  induction p with
  | nil => simp [splitSlash]
  | cons c rest ih =>
    unfold splitSlash
    by_cases h : c = '/'
    · simp [h]
    · simp only [h, if_false]
      cases hr : splitSlash rest with
      | nil => simp
      | cons s ss => simp

theorem mem_splitSlash_no_slash (p : RStr) : ∀ s ∈ splitSlash p, '/' ∉ s := by
  induction p with
  | nil =>
    intro s hs
    simp [splitSlash] at hs
    simp [hs]
  | cons c rest ih =>
    intro s hs
    unfold splitSlash at hs
    by_cases h : c = '/'
    · simp only [h, if_true, List.mem_cons] at hs
      rcases hs with hs | hs
      · simp [hs]
      · exact ih s hs
    · simp only [h, if_false] at hs
      cases hr : splitSlash rest with
      | nil => exact absurd hr (splitSlash_ne_nil rest)
      | cons s0 ss =>
        rw [hr] at hs
        rcases List.mem_cons.mp hs with hs | hs
        · subst hs
          intro hc
          rcases List.mem_cons.mp hc with hc | hc
          · exact h hc.symm
          · exact ih s0 (by rw [hr]; exact List.mem_cons_self _ _) hc
        · exact ih s (by rw [hr]; exact List.mem_cons_of_mem _ hs)

theorem normalize_no_bs (p : RStr) : ∀ c ∈ normalize_entry_path p, c ≠ '\\' := by
  intro c hc
  unfold normalize_entry_path at hc
  rcases List.mem_map.mp hc with ⟨x, _, hx⟩
  by_cases h : x = '\\'
  · simp [h] at hx
    subst hx
    decide
  · simp [h] at hx
    subst hx
    exact h

theorem normalize_id (p : RStr) (h : ∀ c ∈ p, c ≠ '\\') : normalize_entry_path p = p := by
  unfold normalize_entry_path
  induction p with
  | nil => rfl
  | cons c rest ih =>
    simp only [List.map_cons]
    have hc : c ≠ '\\' := h c (List.mem_cons_self _ _)
    simp only [hc, if_false]
    rw [ih (fun x hx => h x (List.mem_cons_of_mem _ hx))]

theorem collectSegs_eq (parts : List Seg) :
    collectSegs parts =
      if dotdotSeg ∈ parts then none
      else some (parts.filter (fun s => s != [] && s != dotSeg)) := by
  induction parts with
  | nil => simp [collectSegs]
  | cons s rest ih =>
    by_cases h1 : s = [] ∨ s = dotSeg
    · have hne : s ≠ dotdotSeg := by
        rcases h1 with h | h <;> subst h <;> decide
      have hp : (s != [] && s != dotSeg) = false := by
        rcases h1 with h | h <;> subst h <;> simp
      simp only [collectSegs, h1, if_true, ih, List.mem_cons, List.filter_cons, hp,
        if_false, Bool.false_eq_true]
      by_cases h2 : dotdotSeg ∈ rest
      · simp [h2, hne, Ne.symm hne]
      · simp [h2, hne, Ne.symm hne]
    · by_cases h2 : s = dotdotSeg
      · subst h2
        have hnd : ¬(dotdotSeg = [] ∨ dotdotSeg = dotSeg) := by decide
        simp [collectSegs, hnd]
      · have hp : (s != [] && s != dotSeg) = true := by
          push_neg at h1
          simp [h1.1, h1.2]
        simp only [collectSegs, h1, if_false, h2, ih, List.mem_cons, List.filter_cons, hp,
          if_true]
        by_cases h3 : dotdotSeg ∈ rest
        · simp [h3, h2, Ne.symm h2]
        · simp [h3, h2, Ne.symm h2]

theorem splitSlash_append_slash (s : Seg) (r : RStr) (h : '/' ∉ s) :
    splitSlash (s ++ '/' :: r) = s :: splitSlash r := by
  induction s with
  | nil => simp [splitSlash]
  | cons c cs ih =>
    have hc : c ≠ '/' := fun hc => h (by simp [hc])
    have hcs : '/' ∉ cs := fun hx => h (List.mem_cons_of_mem _ hx)
    simp only [List.cons_append, splitSlash, hc, if_false, List.append_eq]
    rw [ih hcs]

theorem splitSlash_no_slash (s : Seg) (h : '/' ∉ s) : splitSlash s = [s] := by
  induction s with
  | nil => rfl
  | cons c cs ih =>
    have hc : c ≠ '/' := fun hc => h (by simp [hc])
    have hcs : '/' ∉ cs := fun hx => h (List.mem_cons_of_mem _ hx)
    simp only [splitSlash, hc, if_false]
    rw [ih hcs]

theorem splitSlash_join (l : List Seg) (hne : l ≠ []) (h : ∀ s ∈ l, '/' ∉ s) :
    splitSlash (joinSlash l) = l := by
  induction l with
  | nil => exact absurd rfl hne
  | cons s rest ih =>
    cases rest with
    | nil => exact splitSlash_no_slash s (h s (List.mem_cons_self _ _))
    | cons t ts =>
      show splitSlash (s ++ '/' :: joinSlash (t :: ts)) = s :: t :: ts
      rw [splitSlash_append_slash s _ (h s (List.mem_cons_self _ _))]
      rw [ih (by simp) (fun x hx => h x (List.mem_cons_of_mem _ hx))]

theorem splitSlash_snoc_slash (p : RStr) : splitSlash (p ++ ['/']) = splitSlash p ++ [[]] := by
  induction p with
  | nil => rfl
  | cons c rest ih =>
    by_cases hc : c = '/'
    · simp only [List.cons_append, splitSlash, hc, if_true, List.append_eq, ih]
    · simp only [List.cons_append, splitSlash, hc, if_false, List.append_eq, ih]
      cases hr : splitSlash rest with
      | nil => exact absurd hr (splitSlash_ne_nil rest)
      | cons s ss => simp [hr]

theorem collectSegs_append_nil (l : List Seg) : collectSegs (l ++ [[]]) = collectSegs l := by
  rw [collectSegs_eq, collectSegs_eq]
  have h1 : dotdotSeg ∈ l ++ [[]] ↔ dotdotSeg ∈ l := by
    simp only [List.mem_append, List.mem_singleton]
    constructor
    · rintro (h | h)
      · exact h
      · exact absurd h (by decide)
    · exact Or.inl
  rw [List.filter_append]
  have h2 : List.filter (fun s => s != [] && s != dotSeg) [([] : Seg)] = [] := by decide
  rw [h2, List.append_nil]
  by_cases h : dotdotSeg ∈ l
  · simp [h, h1]
  · simp [h, h1]

theorem mem_splitSlash_chars (p : RStr) : ∀ s ∈ splitSlash p, ∀ c ∈ s, c ∈ p := by
  induction p with
  | nil =>
    intro s hs c hc
    simp [splitSlash] at hs
    subst hs
    simp at hc
  | cons ch rest ih =>
    intro s hs c hc
    unfold splitSlash at hs
    by_cases h : ch = '/'
    · simp only [h, if_true, List.mem_cons] at hs
      rcases hs with hs | hs
      · subst hs; simp at hc
      · exact List.mem_cons_of_mem _ (ih s hs c hc)
    · simp only [h, if_false] at hs
      cases hr : splitSlash rest with
      | nil => exact absurd hr (splitSlash_ne_nil rest)
      | cons s0 ss =>
        rw [hr] at hs
        rcases List.mem_cons.mp hs with hs | hs
        · subst hs
          rcases List.mem_cons.mp hc with hc | hc
          · simp [hc]
          · exact List.mem_cons_of_mem _
              (ih s0 (by rw [hr]; exact List.mem_cons_self _ _) c hc)
        · exact List.mem_cons_of_mem _
            (ih s (by rw [hr]; exact List.mem_cons_of_mem _ hs) c hc)

theorem mem_joinSlash (l : List Seg) (c : Char) (h : c ∈ joinSlash l) :
    c = '/' ∨ ∃ s ∈ l, c ∈ s := by
  induction l with
  | nil => simp [joinSlash] at h
  | cons s rest ih =>
    cases rest with
    | nil =>
      refine Or.inr ⟨s, List.mem_cons_self _ _, ?_⟩
      simpa [joinSlash] using h
    | cons t ts =>
      have : c ∈ s ++ '/' :: joinSlash (t :: ts) := h
      rcases List.mem_append.mp this with hc | hc
      · exact Or.inr ⟨s, List.mem_cons_self _ _, hc⟩
      · rcases List.mem_cons.mp hc with hc | hc
        · exact Or.inl hc
        · rcases ih hc with hc | ⟨x, hx, hcx⟩
          · exact Or.inl hc
          · exact Or.inr ⟨x, List.mem_cons_of_mem _ hx, hcx⟩

theorem has_windows_drive_pfx_join (h : Seg) (tl : List Seg) (hne : h ≠ []) :
    has_windows_drive_pfx (joinSlash (h :: tl)) = segDriveB h := by
  cases h with
  | nil => exact absurd rfl hne
  | cons c0 h' =>
    cases h' with
    | nil =>
      cases tl with
      | nil => rfl
      | cons t ts =>
        show has_windows_drive_pfx ([c0] ++ '/' :: joinSlash (t :: ts)) = segDriveB [c0]
        simp [has_windows_drive_pfx, segDriveB]
    | cons c1 h'' =>
      cases tl with
      | nil => rfl
      | cons t ts =>
        show has_windows_drive_pfx ((c0 :: c1 :: h'') ++ '/' :: joinSlash (t :: ts)) =
          segDriveB (c0 :: c1 :: h'')
        rfl

theorem has_windows_drive_pfx_join_slash (h : Seg) (tl : List Seg) (hne : h ≠ []) :
    has_windows_drive_pfx (joinSlash (h :: tl) ++ ['/']) = segDriveB h := by
  cases h with
  | nil => exact absurd rfl hne
  | cons c0 h' =>
    cases h' with
    | nil =>
      cases tl with
      | nil => simp [joinSlash, has_windows_drive_pfx, segDriveB]
      | cons t ts =>
        show has_windows_drive_pfx (([c0] ++ '/' :: joinSlash (t :: ts)) ++ ['/']) = segDriveB [c0]
        simp [has_windows_drive_pfx, segDriveB]
    | cons c1 h'' =>
      cases tl with
      | nil =>
        show has_windows_drive_pfx ((c0 :: c1 :: h'') ++ ['/']) = segDriveB (c0 :: c1 :: h'')
        rfl
      | cons t ts =>
        show has_windows_drive_pfx (((c0 :: c1 :: h'') ++ '/' :: joinSlash (t :: ts)) ++ ['/']) =
          segDriveB (c0 :: c1 :: h'')
        rfl

theorem parse_valid (raw : RStr) (rel : List Seg)
    (h : parse_entry_rel_path raw = some rel) :
    rel ≠ [] ∧ ∀ s ∈ rel,
      s ≠ [] ∧ s ≠ dotSeg ∧ s ≠ dotdotSeg ∧ '/' ∉ s ∧ ∀ c ∈ s, c ≠ '\\' := by
  unfold parse_entry_rel_path at h
  cases hsp : splitSlash (normalize_entry_path raw) with
  | nil => exact absurd hsp (splitSlash_ne_nil _)
  | cons h0 t0 =>
    unfold first_segment at h
    rw [hsp] at h
    simp only [List.head?] at h
    by_cases hcond : h0 = [] ∨ has_windows_drive_pfx (normalize_entry_path raw) = true
    · simp [hcond] at h
    · simp only [hcond, if_false] at h
      rw [collectSegs_eq] at h
      by_cases hdd : dotdotSeg ∈ h0 :: t0
      · simp [hdd] at h
      · simp only [hdd, if_false] at h
        by_cases hemp : List.filter (fun s => s != [] && s != dotSeg) (h0 :: t0) = []
        · simp [hemp] at h
        · simp only [hemp, if_false, Option.some.injEq] at h
          subst h
          refine ⟨hemp, ?_⟩
          intro s hs
          have hmem : s ∈ h0 :: t0 := List.mem_of_mem_filter hs
          have hpred := List.of_mem_filter hs
          simp only [Bool.and_eq_true, bne_iff_ne, ne_eq] at hpred
          refine ⟨hpred.1, hpred.2, ?_, ?_, ?_⟩
          · intro hc
            exact hdd (hc ▸ hmem)
          · exact mem_splitSlash_no_slash _ s (hsp ▸ hmem)
          · intro c hc
            exact normalize_no_bs raw c (mem_splitSlash_chars _ s (hsp ▸ hmem) c hc)

theorem parse_join (h : Seg) (tl : List Seg)
    (hv : ∀ s ∈ h :: tl, s ≠ [] ∧ s ≠ dotSeg ∧ s ≠ dotdotSeg ∧ '/' ∉ s ∧ '\\' ∉ s)
    (hd : segDriveB h = false) :
    parse_entry_rel_path (joinSlash (h :: tl)) = some (h :: tl) := by
  have hnb : ∀ c ∈ joinSlash (h :: tl), c ≠ '\\' := by
    intro c hc
    rcases mem_joinSlash _ c hc with hc | ⟨s, hs, hcs⟩
    · subst hc; decide
    · intro hb
      exact (hv s hs).2.2.2.2 (hb ▸ hcs)
  have hni : normalize_entry_path (joinSlash (h :: tl)) = joinSlash (h :: tl) :=
    normalize_id _ hnb
  have hsp : splitSlash (joinSlash (h :: tl)) = h :: tl :=
    splitSlash_join _ (by simp) (fun s hs => (hv s hs).2.2.2.1)
  unfold parse_entry_rel_path first_segment
  rw [hni, hsp]
  simp only [List.head?]
  have hne : h ≠ [] := (hv h (List.mem_cons_self _ _)).1
  have hdr : has_windows_drive_pfx (joinSlash (h :: tl)) = false := by
    rw [has_windows_drive_pfx_join h tl hne, hd]
  simp only [hne, hdr, Bool.false_eq_true, or_self, if_false]
  rw [collectSegs_eq]
  have hdd : dotdotSeg ∉ h :: tl := fun hmem => (hv _ hmem).2.2.1 rfl
  simp only [hdd, if_false]
  have hfil : List.filter (fun s => s != [] && s != dotSeg) (h :: tl) = h :: tl := by
    rw [List.filter_eq_self]
    intro s hs
    simp only [Bool.and_eq_true, bne_iff_ne, ne_eq]
    exact ⟨(hv s hs).1, (hv s hs).2.1⟩
  rw [hfil]
  simp

theorem parse_join_slash (h : Seg) (tl : List Seg)
    (hv : ∀ s ∈ h :: tl, s ≠ [] ∧ s ≠ dotSeg ∧ s ≠ dotdotSeg ∧ '/' ∉ s ∧ '\\' ∉ s)
    (hd : segDriveB h = false) :
    parse_entry_rel_path (joinSlash (h :: tl) ++ ['/']) = some (h :: tl) := by
  have hnb : ∀ c ∈ joinSlash (h :: tl) ++ ['/'], c ≠ '\\' := by
    intro c hc
    rcases List.mem_append.mp hc with hc | hc
    · rcases mem_joinSlash _ c hc with hc | ⟨s, hs, hcs⟩
      · subst hc; decide
      · intro hb
        exact (hv s hs).2.2.2.2 (hb ▸ hcs)
    · simp at hc
      subst hc
      decide
  have hni : normalize_entry_path (joinSlash (h :: tl) ++ ['/']) = joinSlash (h :: tl) ++ ['/'] :=
    normalize_id _ hnb
  have hsp : splitSlash (joinSlash (h :: tl) ++ ['/']) = (h :: tl) ++ [[]] := by
    rw [splitSlash_snoc_slash,
      splitSlash_join _ (by simp) (fun s hs => (hv s hs).2.2.2.1)]
  unfold parse_entry_rel_path first_segment
  rw [hni, hsp]
  simp only [List.cons_append, List.head?]
  have hne : h ≠ [] := (hv h (List.mem_cons_self _ _)).1
  have hdr : has_windows_drive_pfx (joinSlash (h :: tl) ++ ['/']) = false := by
    rw [has_windows_drive_pfx_join_slash h tl hne, hd]
  simp only [hne, hdr, Bool.false_eq_true, or_self, if_false]
  rw [collectSegs_eq]
  have hdd : dotdotSeg ∉ h :: (tl ++ [[]]) := by
    intro hmem
    rcases List.mem_append.mp (List.cons_append h tl [[]] ▸ hmem) with hmem | hmem
    · exact (hv _ hmem).2.2.1 rfl
    · simp at hmem
      exact absurd hmem (by decide)
  simp only [hdd, if_false]
  have hfil : List.filter (fun s => s != [] && s != dotSeg) (h :: (tl ++ [[]])) = h :: tl := by
    rw [← List.cons_append, List.filter_append]
    have h2 : List.filter (fun s => s != [] && s != dotSeg) [([] : Seg)] = [] := by decide
    rw [h2, List.append_nil, List.filter_eq_self]
    intro s hs
    simp only [Bool.and_eq_true, bne_iff_ne, ne_eq]
    exact ⟨(hv s hs).1, (hv s hs).2.1⟩
  rw [hfil]
  simp

theorem parse_none_of_bad (r : RStr) (h : unsafe_entry_path r) :
    parse_entry_rel_path r = none := by
  unfold unsafe_entry_path at h
  unfold parse_entry_rel_path first_segment
  cases hsp : splitSlash (normalize_entry_path r) with
  | nil => exact absurd hsp (splitSlash_ne_nil _)
  | cons h0 t0 =>
    simp only [List.head?]
    by_cases hcond : h0 = [] ∨ has_windows_drive_pfx (normalize_entry_path r) = true
    · simp [hcond]
    · simp only [hcond, if_false]
      rcases h with hdd | hsl | hdr
      · rw [collectSegs_eq]
        simp [hsp ▸ hdd]
      · exfalso
        apply hcond
        left
        cases r with
        | nil => simp at hsl
        | cons c0 r' =>
          simp only [List.head?, Option.some.injEq] at hsl
          subst hsl
          have : normalize_entry_path ('/' :: r') = '/' :: normalize_entry_path r' := by
            simp [normalize_entry_path]
          rw [this] at hsp
          simp only [splitSlash, if_pos rfl] at hsp
          exact (List.cons.injEq _ _ _ _ ▸ hsp).1.symm
      · exact absurd (Or.inr hdr) hcond

/-! # C7: the path normalizer -/

/-- C7 counterexample: the claim's algorithm accepts the absolute path
/etc (the empty first segment is merely dropped), while
parse_entry_rel_path rejects it, so the implementation is not exactly
the claimed algorithm. -/
theorem c7_counterexample :
    parse_entry_rel_path (str "/etc") = none ∧
      parse_entry_rel_path_claim (str "/etc") = some [str "etc"] ∧
      parse_entry_rel_path (str "/etc") ≠ parse_entry_rel_path_claim (str "/etc") := by
  refine ⟨by decide, by decide, by decide⟩

/-- C7 (amended): parse_entry_rel_path implements the claimed algorithm
with one extra rejection: a path whose first raw segment is empty (a
leading separator, that is an absolute path) is rejected as well. -/
theorem c7_parse_characterization (raw : RStr) :
    parse_entry_rel_path raw = parse_entry_rel_path_claim_amended raw := by
  unfold parse_entry_rel_path parse_entry_rel_path_claim_amended parse_entry_rel_path_claim
    first_segment
  rw [collectSegs_eq]
  cases hsp : splitSlash (normalize_entry_path raw) with
  | nil => exact absurd hsp (splitSlash_ne_nil _)
  | cons h0 t0 =>
    simp only [List.head?]
    by_cases h1 : h0 = []
    · subst h1
      simp
    · simp only [h1, Option.some.injEq, if_false, false_or]
      by_cases h2 : has_windows_drive_pfx (normalize_entry_path raw) = true
      · simp [h2]
      · simp only [h2, if_false, Bool.false_eq_true]
        by_cases h3 : dotdotSeg ∈ h0 :: t0
        · simp [h3]
        · simp [h3]

/-! # Lemmas on the write operations -/

theorem set_chmodFail (fs : Fs) (k : Key) (n : FNode) :
    (fs.set k n).chmodFail = fs.chmodFail := rfl

theorem mkdirOne_chmodFail (fs : Fs) (k : Key) :
    (mkdirOne fs k).1.chmodFail = fs.chmodFail := by
  unfold mkdirOne
  split <;> first | rfl | (split <;> rfl)

theorem cdaAux_chmodFail (segs : List Seg) :
    ∀ fs base, (cdaAux fs base segs).1.chmodFail = fs.chmodFail := by
  induction segs with
  | nil => intro fs base; rfl
  | cons s rest ih =>
    intro fs base
    unfold cdaAux
    cases hm : mkdirOne fs (base ++ [s]) with
    | mk fs' e =>
      cases e with
      | none =>
        simp only []
        rw [ih fs' (base ++ [s])]
        have := mkdirOne_chmodFail fs (base ++ [s])
        rw [hm] at this
        exact this
      | some er =>
        simp only []
        have := mkdirOne_chmodFail fs (base ++ [s])
        rw [hm] at this
        exact this

theorem create_dir_all_chmodFail (fs : Fs) (k : Key) :
    (create_dir_all fs k).1.chmodFail = fs.chmodFail :=
  cdaAux_chmodFail k fs []

theorem fileCreateWrite_chmodFail (fs : Fs) (k : Key) (c : List Nat) :
    (fileCreateWrite fs k c).1.chmodFail = fs.chmodFail := by
  unfold fileCreateWrite
  split <;> first | rfl | (split <;> first | rfl | (split <;> rfl))

/-! # C4: the declared-size check of write_entry -/

/-- C4: for file entries carrying a declared size, write_entry succeeds
only when the copied byte count equals the declared size, and fails
(reporting no success) whenever they differ; directory entries are never
size-checked (the declared size argument is ignored for them). -/
theorem c4_size_mismatch :
    (∀ (fs : Fs) (out : Key) (c : List Nat) (mode : Option Nat) (n : Nat),
      (write_entry fs out false c mode (some n)).2 = none → c.length = n) ∧
    (∀ (fs : Fs) (out : Key) (c : List Nat) (mode : Option Nat) (n : Nat),
      c.length ≠ n → (write_entry fs out false c mode (some n)).2 ≠ none) ∧
    (∀ (fs : Fs) (out : Key) (c : List Nat) (mode : Option Nat) (s1 s2 : Option Nat),
      write_entry fs out true c mode s1 = write_entry fs out true c mode s2) := by
  have hb : ∀ (fs : Fs) (out : Key) (c : List Nat) (mode : Option Nat) (n : Nat),
      (write_entry fs out false c mode (some n)).2 = none → c.length = n := by
    intro fs out c mode n hnone
    unfold write_entry at hnone
    simp only [Bool.false_eq_true, if_false] at hnone
    rcases hp : (if out = [] then (fs, none) else create_dir_all fs out.dropLast) with ⟨fs1, e1⟩
    rw [hp] at hnone
    cases e1 with
    | some er => simp at hnone
    | none =>
      dsimp only at hnone
      rcases hf : fileCreateWrite fs1 out c with ⟨fs2, e2⟩
      rw [hf] at hnone
      cases e2 with
      | some er => simp at hnone
      | none =>
        dsimp only at hnone
        by_cases hlen : c.length = n
        · exact hlen
        · rw [if_pos hlen] at hnone
          simp at hnone
  refine ⟨hb, ?_, ?_⟩
  · intro fs out c mode n hne hnone
    exact hne (hb fs out c mode n hnone)
  · intro fs out c mode s1 s2
    rfl

/-- C4 witness: a tar-style file entry declaring 100 bytes whose stream
yields 80 bytes fails, and a directory entry ignores the sizes. -/
theorem c4_witness :
    ((List.replicate 80 0).length ≠ 100 ∧
      (write_entry fsDestOnly [str "dest", str "f"] false (List.replicate 80 0) none
        (some 100)).2 ≠ none) ∧
      write_entry fsDestOnly [str "dest", str "d"] true [] none (some 100) =
        write_entry fsDestOnly [str "dest", str "d"] true [] none none := by
  refine ⟨⟨by decide, c4_size_mismatch.2.1 _ _ _ _ _ (by decide)⟩, ?_⟩
  exact c4_size_mismatch.2.2 fsDestOnly [str "dest", str "d"] [] none (some 100) none

/-! # C5: permission failures in write_entry -/

/-- C5 counterexample: on a filesystem where applying permissions to the
output path fails, write_entry returns the permission error instead of
succeeding, refuting the claim that permission failures are non-fatal. -/
theorem c5_counterexample :
    (write_entry fsChmodFails [str "dest", str "f"] false [] (some 420) none).2 =
      some XErr.permDenied := by
  decide

/-- C5 (amended): a failure to apply the entry's permission bits after
the content is written is fatal for write_entry: it returns the error
(and the extraction driver aborts on it); write_entry reports success
only when the permission application did not fail. -/
theorem c5_perm_failure_fatal :
    (∀ (fs : Fs) (out : Key) (c : List Nat) (m : Nat) (sz : Option Nat),
      out ∈ fs.chmodFail → (write_entry fs out false c (some m) sz).2 ≠ none) ∧
    (∀ (fs : Fs) (out : Key) (c : List Nat) (m : Nat) (sz : Option Nat),
      (write_entry fs out false c (some m) sz).2 = none → out ∉ fs.chmodFail) := by
  have key : ∀ (fs : Fs) (out : Key) (c : List Nat) (m : Nat) (sz : Option Nat),
      (write_entry fs out false c (some m) sz).2 = none → out ∉ fs.chmodFail := by
    intro fs out c m sz hnone hmem
    unfold write_entry at hnone
    simp only [Bool.false_eq_true, if_false] at hnone
    rcases hp : (if out = [] then (fs, none) else create_dir_all fs out.dropLast) with ⟨fs1, e1⟩
    have hcf1 : fs1.chmodFail = fs.chmodFail := by
      by_cases ho : out = []
      · rw [if_pos ho] at hp
        cases hp
        rfl
      · rw [if_neg ho] at hp
        have := create_dir_all_chmodFail fs out.dropLast
        rw [hp] at this
        exact this
    rw [hp] at hnone
    cases e1 with
    | some er => simp at hnone
    | none =>
      dsimp only at hnone
      rcases hf : fileCreateWrite fs1 out c with ⟨fs2, e2⟩
      have hcf2 : fs2.chmodFail = fs.chmodFail := by
        have := fileCreateWrite_chmodFail fs1 out c
        rw [hf] at this
        rw [this, hcf1]
      rw [hf] at hnone
      cases e2 with
      | some er => simp at hnone
      | none =>
        dsimp only at hnone
        have hperm : set_unix_permissions fs2 out (some m) = some XErr.permDenied := by
          unfold set_unix_permissions
          rw [if_pos (hcf2 ▸ hmem)]
        cases sz with
        | none =>
          dsimp only at hnone
          simp only [hperm] at hnone
          simp at hnone
        | some expected =>
          dsimp only at hnone
          by_cases hlen : c.length = expected
          · rw [if_neg (by simp [hlen])] at hnone
            rw [hperm] at hnone
            simp at hnone
          · rw [if_pos hlen] at hnone
            simp at hnone
  refine ⟨?_, key⟩
  intro fs out c m sz hmem hnone
  exact key fs out c m sz hnone hmem

/-- C5 witness: the general fatality statement applied at the concrete
permission-failing destination. -/
theorem c5_witness :
    [str "dest", str "f"] ∈ fsChmodFails.chmodFail ∧
      (write_entry fsChmodFails [str "dest", str "f"] false [] (some 420) none).2 ≠ none := by
  refine ⟨by decide, c5_perm_failure_fatal.1 _ _ _ _ _ (by decide)⟩

/-! # Lemmas on the extraction loops -/

theorem tarLoop_nil (dest : Key) (m : Mapper) (st : TarState) :
    tarLoop dest m st [] = (st, none) := rfl

theorem tarLoop_cons (dest : Key) (m : Mapper) (st : TarState) (e : TEntry)
    (rest : List TEntry) :
    tarLoop dest m st (e :: rest) =
      match tar_process_entry dest m st e with
      | (st', none) => tarLoop dest m st' rest
      | (st', some er) => (st', some er) := rfl

theorem zipLoop_nil (dest : Key) (m : Mapper) (st : ZipState) :
    zipLoop dest m st [] = (st, none) := rfl

theorem zipLoop_cons (dest : Key) (m : Mapper) (st : ZipState) (e : ZEntry)
    (rest : List ZEntry) :
    zipLoop dest m st (e :: rest) =
      match zip_process_entry dest m st e with
      | (st', none) => zipLoop dest m st' rest
      | (st', some er) => (st', some er) := rfl

theorem tarLoop_bad (dest : Key) (m : Mapper) (bad : TEntry)
    (hb : parse_entry_rel_path bad.raw = none) :
    ∀ (pre : List TEntry) (st : TarState) (post : List TEntry),
      tarLoop dest m st (pre ++ bad :: post) =
        match tarLoop dest m st pre with
        | (st', none) => (st', some XErr.unsafePath)
        | (st', some e) => (st', some e) := by
  intro pre
  induction pre with
  | nil =>
    intro st post
    rw [List.nil_append, tarLoop_cons, tarLoop_nil]
    unfold tar_process_entry
    rw [if_pos hb]
  | cons e pre ih =>
    intro st post
    rw [List.cons_append, tarLoop_cons, tarLoop_cons]
    cases hpe : tar_process_entry dest m st e with
    | mk st' eo =>
      cases eo with
      | none =>
        dsimp only
        exact ih st' post
      | some er => rfl

theorem zipLoop_bad (dest : Key) (m : Mapper) (bad : ZEntry)
    (hb : parse_entry_rel_path bad.raw = none) :
    ∀ (pre : List ZEntry) (st : ZipState) (post : List ZEntry),
      zipLoop dest m st (pre ++ bad :: post) =
        match zipLoop dest m st pre with
        | (st', none) => (st', some XErr.unsafePath)
        | (st', some e) => (st', some e) := by
  intro pre
  induction pre with
  | nil =>
    intro st post
    rw [List.nil_append, zipLoop_cons, zipLoop_nil]
    unfold zip_process_entry
    rw [if_pos hb]
  | cons e pre ih =>
    intro st post
    rw [List.cons_append, zipLoop_cons, zipLoop_cons]
    cases hpe : zip_process_entry dest m st e with
    | mk st' eo =>
      cases eo with
      | none =>
        dsimp only
        exact ih st' post
      | some er => rfl

/-! # C2: unsafe entry paths abort the whole extraction -/

/-- C2: an entry whose raw path has a dot-dot segment, a leading slash,
or a drive-letter start makes both entry loops (tar.gz and zip) stop
with an error exactly at that entry: the state is the state after the
safe prefix, the unsafe entry and everything after it are never written,
and the entry is not skipped; consequently the mapped and flat
extraction entry points of both formats report an error. -/
theorem c2_unsafe_entry_aborts :
    (∀ (dest : Key) (m : Mapper) (bad : TEntry), unsafe_entry_path bad.raw →
      ∀ (pre post : List TEntry) (st : TarState),
        tarLoop dest m st (pre ++ bad :: post) =
          match tarLoop dest m st pre with
          | (st', none) => (st', some XErr.unsafePath)
          | (st', some e) => (st', some e)) ∧
    (∀ (dest : Key) (m : Mapper) (bad : ZEntry), unsafe_entry_path bad.raw →
      ∀ (pre post : List ZEntry) (st : ZipState),
        zipLoop dest m st (pre ++ bad :: post) =
          match zipLoop dest m st pre with
          | (st', none) => (st', some XErr.unsafePath)
          | (st', some e) => (st', some e)) ∧
    (∀ (fs : Fs) (dest : Key) (m : Mapper) (bad : TEntry), unsafe_entry_path bad.raw →
      ∀ (pre post : List TEntry),
        (extract_tar_gz_mapped fs dest m (pre ++ bad :: post)).2 ≠ none) ∧
    (∀ (fs : Fs) (dest : Key) (m : Mapper) (bad : ZEntry), unsafe_entry_path bad.raw →
      ∀ (pre post : List ZEntry),
        (extract_zip_mapped fs dest m (pre ++ bad :: post)).2 ≠ none) ∧
    (∀ (fs : Fs) (dest : Key) (bad : TEntry), unsafe_entry_path bad.raw →
      ∀ (pre post : List TEntry),
        (extract_tar_gz_flat fs dest (pre ++ bad :: post)).2 ≠ none) ∧
    (∀ (fs : Fs) (dest : Key) (bad : ZEntry), unsafe_entry_path bad.raw →
      ∀ (pre post : List ZEntry),
        (extract_zip_flat fs dest (pre ++ bad :: post)).2 ≠ none) := by
  have htar : ∀ (dest : Key) (m : Mapper) (bad : TEntry), unsafe_entry_path bad.raw →
      ∀ (pre post : List TEntry) (st : TarState),
        tarLoop dest m st (pre ++ bad :: post) =
          match tarLoop dest m st pre with
          | (st', none) => (st', some XErr.unsafePath)
          | (st', some e) => (st', some e) := by
    intro dest m bad hu pre post st
    exact tarLoop_bad dest m bad (parse_none_of_bad _ hu) pre st post
  have hzip : ∀ (dest : Key) (m : Mapper) (bad : ZEntry), unsafe_entry_path bad.raw →
      ∀ (pre post : List ZEntry) (st : ZipState),
        zipLoop dest m st (pre ++ bad :: post) =
          match zipLoop dest m st pre with
          | (st', none) => (st', some XErr.unsafePath)
          | (st', some e) => (st', some e) := by
    intro dest m bad hu pre post st
    exact zipLoop_bad dest m bad (parse_none_of_bad _ hu) pre st post
  have hrt : ∀ (fs : Fs) (dest : Key) (m : Mapper) (bad : TEntry), unsafe_entry_path bad.raw →
      ∀ (pre post : List TEntry),
        (extract_tar_gz_mapped fs dest m (pre ++ bad :: post)).2 ≠ none := by
    intro fs dest m bad hu pre post
    unfold extract_tar_gz_mapped
    cases hcda : create_dir_all fs dest with
    | mk fs1 e1 =>
      cases e1 with
      | some er => simp
      | none =>
        dsimp only
        rw [htar dest m bad hu pre post ⟨fs1, [], []⟩]
        cases hl : tarLoop dest m ⟨fs1, [], []⟩ pre with
        | mk st' eo =>
          cases eo with
          | none => simp
          | some er => simp
  have hrz : ∀ (fs : Fs) (dest : Key) (m : Mapper) (bad : ZEntry), unsafe_entry_path bad.raw →
      ∀ (pre post : List ZEntry),
        (extract_zip_mapped fs dest m (pre ++ bad :: post)).2 ≠ none := by
    intro fs dest m bad hu pre post
    unfold extract_zip_mapped
    cases hcda : create_dir_all fs dest with
    | mk fs1 e1 =>
      cases e1 with
      | some er => simp
      | none =>
        dsimp only
        rw [hzip dest m bad hu pre post ⟨fs1, []⟩]
        cases hl : zipLoop dest m ⟨fs1, []⟩ pre with
        | mk st' eo =>
          cases eo with
          | none => simp
          | some er => simp
  refine ⟨htar, hzip, hrt, hrz, ?_, ?_⟩
  · intro fs dest bad hu pre post
    exact hrt fs dest _ bad hu pre post
  · intro fs dest bad hu pre post
    exact hrz fs dest _ bad hu pre post

/-- C2 witness: a concrete traversal entry in second position aborts a
zip extraction and a tar extraction. -/
theorem c2_witness :
    unsafe_entry_path (str "../evil") ∧
      (extract_zip_flat fsDestOnly destKey
        [{ raw := str "a", isSymlink := false, isDir := false, content := [1],
           unix_mode := none, size := 1 },
         { raw := str "../evil", isSymlink := false, isDir := false, content := [2],
           unix_mode := none, size := 1 }]).2 ≠ none ∧
      (extract_tar_gz_mapped fsDestOnly destKey (flatMapper destKey none)
        [{ raw := str "../evil", kind := .file, content := [2], unix_mode := none,
           size := 1, target := none }]).2 ≠ none := by
  refine ⟨by decide, ?_, ?_⟩
  · exact c2_unsafe_entry_aborts.2.2.2.2.2 fsDestOnly destKey _ (by decide)
      [{ raw := str "a", isSymlink := false, isDir := false, content := [1],
         unix_mode := none, size := 1 }] []
  · exact c2_unsafe_entry_aborts.2.2.1 fsDestOnly destKey (flatMapper destKey none) _
      (by decide) [] []

/-! # C10: the unsafe-path check precedes the mapper -/

/-- C10: in both mapped extraction loops the unsafe-path check on the
raw entry path runs before the destination mapper is consulted: an
entry whose raw path does not parse aborts the loop with the unsafe-path
error even when the mapper returns skip for that entry. -/
theorem c10_check_before_mapper :
    (∀ (dest : Key) (m : Mapper) (st : TarState) (bad : TEntry) (rest : List TEntry),
      parse_entry_rel_path bad.raw = none → m bad.raw = none →
      tarLoop dest m st (bad :: rest) = (st, some XErr.unsafePath)) ∧
    (∀ (dest : Key) (m : Mapper) (st : ZipState) (bad : ZEntry) (rest : List ZEntry),
      parse_entry_rel_path bad.raw = none → m bad.raw = none →
      zipLoop dest m st (bad :: rest) = (st, some XErr.unsafePath)) := by
  constructor
  · intro dest m st bad rest hb _
    unfold tarLoop tar_process_entry
    rw [if_pos hb]
  · intro dest m st bad rest hb _
    unfold zipLoop zip_process_entry
    rw [if_pos hb]

/-- C10 witness: the skip-everything mapper does not save an unsafe
entry. -/
theorem c10_witness :
    parse_entry_rel_path (str "/abs") = none ∧
      ((fun _ => none) : Mapper) (str "/abs") = none ∧
      tarLoop destKey (fun _ => none) ⟨fsDestOnly, [], []⟩
        [{ raw := str "/abs", kind := .file, content := [], unix_mode := none,
           size := 0, target := none }] = (⟨fsDestOnly, [], []⟩, some XErr.unsafePath) ∧
      zipLoop destKey (fun _ => none) ⟨fsDestOnly, []⟩
        [{ raw := str "/abs", isSymlink := false, isDir := false, content := [],
           unix_mode := none, size := 0 }] = (⟨fsDestOnly, []⟩, some XErr.unsafePath) := by
  refine ⟨by decide, rfl, ?_, ?_⟩
  · exact c10_check_before_mapper.1 destKey (fun _ => none) ⟨fsDestOnly, [], []⟩ _ []
      (by decide) rfl
  · exact c10_check_before_mapper.2 destKey (fun _ => none) ⟨fsDestOnly, []⟩ _ []
      (by decide) rfl

/-! # Lemmas on resolve_within_dir -/

theorem resolve_within_dir_ok (fs : Fs) (base : Key) (p : MPath) (q : Key)
    (h : resolve_within_dir fs base p = .ok q) :
    ∃ cb, canonKey fs base = .ok cb ∧ cb.isPrefixOf q = true ∧
      canonicalize_longest_pfx fs (candidate_for cb p) = .ok q := by
  unfold resolve_within_dir at h
  cases hcb : canonKey fs base with
  | error e =>
    rw [hcb] at h
    simp at h
  | ok cb =>
    rw [hcb] at h
    dsimp only at h
    cases hclp : canonicalize_longest_pfx fs (candidate_for cb p) with
    | error e =>
      rw [hclp] at h
      simp at h
    | ok cc =>
      rw [hclp] at h
      dsimp only at h
      by_cases hpre : cb.isPrefixOf cc = true
      · rw [if_pos hpre] at h
        cases h
        exact ⟨cb, rfl, hpre, hclp⟩
      · rw [if_neg hpre] at h
        simp at h

/-! # C3: hard links resolve only against earlier files -/

/-- C3: a processed (not skipped) hard-link entry succeeds only when the
code's candidate list — the mapper applied to the raw target, and the
literal target joined onto the link's parent — contains a candidate that
resolves inside the canonical destination root and is already in the
session's set of files extracted earlier in archive order; and a
concrete hard link placed before its target entry makes the whole
extraction fail with the broken-hard-link error even though the target
appears later in the same archive. -/
theorem c3_hard_link_order :
    (∀ (dest : Key) (m : Mapper) (st : TarState) (e : TEntry) (out : MPath),
      e.kind = .hardlink → m e.raw = some out →
      (tar_process_entry dest m st e).2 = none →
      ∃ ro t cs0 c2 rt,
        resolve_within_dir st.fs dest out = .ok ro ∧
        e.target = some t ∧
        hard_link_candidates st.fs dest m t = .ok cs0 ∧
        resolve_within_dir st.fs dest (joinPath ro.dropLast (pathOfString t)) = .ok c2 ∧
        rt ∈ cs0 ++ [c2] ∧
        rt ∈ st.extracted ∧
        ∀ c ∈ cs0 ++ [c2], ∃ cb, canonKey st.fs dest = .ok cb ∧ cb.isPrefixOf c = true) ∧
      extract_tar_gz_mapped fsDestOnly destKey (flatMapper destKey none)
        hardLinkFirstEntries = (fsDestOnly, some XErr.brokenHardLink) := by
  constructor
  · intro dest m st e out hk hm hs
    unfold tar_process_entry at hs
    by_cases hp : parse_entry_rel_path e.raw = none
    · rw [if_pos hp] at hs
      simp at hs
    · rw [if_neg hp] at hs
      rw [hm] at hs
      dsimp only at hs
      cases hro : resolve_within_dir st.fs dest out with
      | error er =>
        rw [hro] at hs
        simp at hs
      | ok ro =>
        rw [hro] at hs
        dsimp only at hs
        rw [hk] at hs
        cases ht : e.target with
        | none =>
          rw [ht] at hs
          simp at hs
        | some t =>
          rw [ht] at hs
          dsimp only at hs
          cases hval : validate_rel_link_target t with
          | some er =>
            rw [hval] at hs
            simp at hs
          | none =>
            rw [hval] at hs
            dsimp only at hs
            cases hcand : hard_link_candidates st.fs dest m t with
            | error er =>
              rw [hcand] at hs
              simp at hs
            | ok cs0 =>
              rw [hcand] at hs
              dsimp only at hs
              cases ro with
              | nil =>
                simp at hs
              | cons r0 rs =>
                dsimp only at hs
                cases hc2 : resolve_within_dir st.fs dest
                    (joinPath (r0 :: rs).dropLast (pathOfString t)) with
                | error er =>
                  rw [hc2] at hs
                  simp at hs
                | ok c2 =>
                  rw [hc2] at hs
                  dsimp only at hs
                  cases hfind : (cs0 ++ [c2]).find? (fun c => st.extracted.contains c) with
                  | none =>
                    rw [hfind] at hs
                    simp at hs
                  | some rt =>
                    rw [hfind] at hs
                    refine ⟨r0 :: rs, t, cs0, c2, rt, ?_, ?_, ?_, ?_, ?_, ?_, ?_⟩
                    · rfl
                    · rfl
                    · first | rfl | exact hcand
                    · first | rfl | exact hc2
                    · exact List.mem_of_find?_eq_some hfind
                    · have hpred := List.find?_some hfind
                      exact List.mem_of_elem_eq_true hpred
                    · intro c hc
                      rcases List.mem_append.mp hc with hc | hc
                      · unfold hard_link_candidates at hcand
                        cases hmt : m t with
                        | none =>
                          rw [hmt] at hcand
                          cases hcand
                          simp at hc
                        | some mapped =>
                          rw [hmt] at hcand
                          dsimp only at hcand
                          cases hrm : resolve_within_dir st.fs dest mapped with
                          | error er =>
                            rw [hrm] at hcand
                            simp at hcand
                          | ok cm =>
                            rw [hrm] at hcand
                            cases hcand
                            simp only [List.mem_singleton] at hc
                            subst hc
                            rcases resolve_within_dir_ok _ _ _ _ hrm with ⟨cb, hcb, hpre, _⟩
                            exact ⟨cb, hcb, hpre⟩
                      · simp only [List.mem_singleton] at hc
                        subst hc
                        rcases resolve_within_dir_ok _ _ _ _ hc2 with ⟨cb, hcb, hpre, _⟩
                        exact ⟨cb, hcb, hpre⟩
  · decide

/-- C3 witness: a hard link whose target was extracted earlier succeeds,
and the general statement produces its accepted candidate. -/
theorem c3_witness :
    (tar_process_entry destKey (flatMapper destKey none) hlState hlEntry).2 = none ∧
      ∃ ro t cs0 c2 rt,
        resolve_within_dir hlState.fs destKey (⟨true, [str "dest", str "a"]⟩ : MPath) =
          .ok ro ∧
        hlEntry.target = some t ∧
        hard_link_candidates hlState.fs destKey (flatMapper destKey none) t = .ok cs0 ∧
        resolve_within_dir hlState.fs destKey
          (joinPath ro.dropLast (pathOfString t)) = .ok c2 ∧
        rt ∈ cs0 ++ [c2] ∧
        rt ∈ hlState.extracted ∧
        ∀ c ∈ cs0 ++ [c2], ∃ cb, canonKey hlState.fs destKey = .ok cb ∧
          cb.isPrefixOf c = true := by
  refine ⟨by decide, ?_⟩
  exact c3_hard_link_order.1 destKey (flatMapper destKey none) hlState hlEntry
    ⟨true, [str "dest", str "a"]⟩ (by decide) (by decide) (by decide)

/-! # Lemmas on the top-directory scan -/

theorem scan_valid_mono (p : RStr) (st : TopScan)
    (h : (scan_common_top_dir p st).valid = true) : st.valid = true := by
  by_cases hv : st.valid = true
  · exact hv
  · unfold scan_common_top_dir at h
    have hb : (!st.valid) = true := by
      simp [Bool.not_eq_true] at hv ⊢
      exact hv
    rw [if_pos hb] at h
    exact h

theorem scanCand_sawNested (x : Seg) (st : TopScan) :
    (scanCand x st).sawNested = st.sawNested := by
  unfold scanCand
  cases st.candidate with
  | none => rfl
  | some ex =>
    dsimp only
    by_cases he : ex = x
    · rw [if_pos he]
    · rw [if_neg he]

theorem scanCand_valid_mono (x : Seg) (st : TopScan)
    (h : (scanCand x st).valid = true) : st.valid = true := by
  unfold scanCand at h
  cases hc : st.candidate with
  | none =>
    rw [hc] at h
    exact h
  | some ex =>
    rw [hc] at h
    dsimp only at h
    by_cases he : ex = x
    · rw [if_pos he] at h
      exact h
    · rw [if_neg he] at h
      simp at h

theorem scanCand_candidate (x : Seg) (st : TopScan)
    (h : (scanCand x st).valid = true) : (scanCand x st).candidate = some x := by
  unfold scanCand at h ⊢
  cases hc : st.candidate with
  | none => rfl
  | some ex =>
    rw [hc] at h
    dsimp only at h
    dsimp only
    by_cases he : ex = x
    · rw [if_pos he]
      rw [hc, he]
    · rw [if_neg he] at h
      simp at h

theorem scanCand_stable (first x : Seg) (st' : TopScan)
    (hc : st'.candidate = some x) (h : (scanCand first st').valid = true) :
    (scanCand first st').candidate = some x := by
  unfold scanCand at h ⊢
  rw [hc] at h ⊢
  dsimp only at h ⊢
  by_cases he : x = first
  · rw [if_pos he] at h ⊢
    exact hc
  · rw [if_neg he] at h
    simp at h

theorem scan_candidate_stable (p : RStr) (st : TopScan) (x : Seg)
    (hc : st.candidate = some x) (h : (scan_common_top_dir p st).valid = true) :
    (scan_common_top_dir p st).candidate = some x := by
  have hv : st.valid = true := scan_valid_mono p st h
  unfold scan_common_top_dir at h ⊢
  have hb : (!st.valid) = false := by rw [hv]; rfl
  rw [hb] at h ⊢
  simp only [Bool.false_eq_true, if_false] at h ⊢
  cases hfs : first_segment (normalize_entry_path p) with
  | none =>
    rw [hfs] at h
    dsimp only at h
    simp at h
  | some first =>
    rw [hfs] at h
    dsimp only at h ⊢
    by_cases hfe : first = []
    · rw [if_pos hfe] at h
      simp at h
    · rw [if_neg hfe] at h ⊢
      by_cases hsl : (normalize_entry_path p).contains '/' = true
      · rw [if_pos hsl] at h ⊢
        exact scanCand_stable first x _ hc h
      · rw [if_neg hsl] at h ⊢
        exact scanCand_stable first x _ hc h

theorem scanFold_valid_mono (raws : List RStr) :
    ∀ st, (scanFold st raws).valid = true → st.valid = true := by
  induction raws with
  | nil => intro st h; exact h
  | cons r raws ih =>
    intro st h
    show st.valid = true
    have hstep : (scanFold
        (match parse_entry_rel_path r with
         | some rel => scan_common_top_dir (joinSlash rel) st
         | none => st) raws).valid = true := h
    have h2 := ih _ hstep
    cases hp : parse_entry_rel_path r with
    | some rel =>
      rw [hp] at h2
      exact scan_valid_mono _ _ h2
    | none =>
      rw [hp] at h2
      exact h2

theorem scanFold_candidate_stable (raws : List RStr) :
    ∀ st x, st.candidate = some x → (scanFold st raws).valid = true →
      (scanFold st raws).candidate = some x := by
  induction raws with
  | nil => intro st x hc _; exact hc
  | cons r raws ih =>
    intro st x hc h
    have hstep : (scanFold
        (match parse_entry_rel_path r with
         | some rel => scan_common_top_dir (joinSlash rel) st
         | none => st) raws).valid = true := h
    cases hp : parse_entry_rel_path r with
    | some rel =>
      rw [hp] at hstep
      have hval : (scan_common_top_dir (joinSlash rel) st).valid = true :=
        scanFold_valid_mono raws _ hstep
      have hstable := scan_candidate_stable (joinSlash rel) st x hc hval
      have := ih (scan_common_top_dir (joinSlash rel) st) x hstable hstep
      show (scanFold
        (match parse_entry_rel_path r with
         | some rel => scan_common_top_dir (joinSlash rel) st
         | none => st) raws).candidate = some x
      rw [hp]
      exact this
    | none =>
      rw [hp] at hstep
      have := ih st x hc hstep
      show (scanFold
        (match parse_entry_rel_path r with
         | some rel => scan_common_top_dir (joinSlash rel) st
         | none => st) raws).candidate = some x
      rw [hp]
      exact this

theorem scanFold_cons (st : TopScan) (r : RStr) (raws : List RStr) :
    scanFold st (r :: raws) =
      scanFold
        (match parse_entry_rel_path r with
         | some rel => scan_common_top_dir (joinSlash rel) st
         | none => st) raws := rfl

theorem join_contains_slash_cons (h t : Seg) (ts : List Seg) :
    (joinSlash (h :: t :: ts)).contains '/' = true := by
  have hm : '/' ∈ joinSlash (h :: t :: ts) := by
    show '/' ∈ h ++ '/' :: joinSlash (t :: ts)
    exact List.mem_append.mpr (Or.inr (List.mem_cons_self _ _))
  exact List.elem_eq_true_of_mem hm

theorem join_contains_slash_single (h : Seg) (hh : '/' ∉ h) :
    (joinSlash [h]).contains '/' = false := by
  cases hb : (joinSlash [h]).contains '/' with
  | false => rfl
  | true => exact absurd (List.mem_of_elem_eq_true hb) hh

theorem scan_parsed_step (h : Seg) (tl : List Seg) (st : TopScan)
    (hv : st.valid = true)
    (hh : h ≠ [])
    (hns : ∀ s ∈ h :: tl, '/' ∉ s)
    (hnb : ∀ s ∈ h :: tl, ∀ c ∈ s, c ≠ '\\') :
    scan_common_top_dir (joinSlash (h :: tl)) st =
      scanCand h (if tl = [] then st else { st with sawNested := true }) := by
  have hnorm : normalize_entry_path (joinSlash (h :: tl)) = joinSlash (h :: tl) := by
    apply normalize_id
    intro c hc
    rcases mem_joinSlash _ c hc with hc | ⟨s, hs, hcs⟩
    · subst hc; decide
    · exact hnb s hs c hcs
  have hfs : first_segment (joinSlash (h :: tl)) = some h := by
    unfold first_segment
    rw [splitSlash_join _ (by simp) hns]
    rfl
  unfold scan_common_top_dir
  rw [hnorm]
  have hb : (!st.valid) = false := by rw [hv]; rfl
  rw [hb]
  simp only [Bool.false_eq_true, if_false]
  rw [hfs]
  dsimp only
  rw [if_neg hh]
  cases tl with
  | nil =>
    rw [join_contains_slash_single h (hns h (List.mem_cons_self _ _))]
    simp
  | cons t ts =>
    rw [join_contains_slash_cons h t ts]
    simp

theorem scanFold_head (raws : List RStr) :
    ∀ (st : TopScan) (d : Seg), (scanFold st raws).valid = true →
      (scanFold st raws).candidate = some d →
      ∀ r ∈ raws, ∀ rel, parse_entry_rel_path r = some rel → rel.head? = some d := by
  induction raws with
  | nil =>
    intro st d _ _ r hr
    simp at hr
  | cons r0 raws ih =>
    intro st d hvalid hcand r hr rel hparse
    rw [scanFold_cons] at hvalid hcand
    rcases List.mem_cons.mp hr with hr | hr
    · subst hr
      rw [hparse] at hvalid hcand
      dsimp only at hvalid hcand
      have hstepv : (scan_common_top_dir (joinSlash rel) st).valid = true :=
        scanFold_valid_mono raws _ hvalid
      have hstv : st.valid = true := scan_valid_mono _ _ hstepv
      rcases parse_valid r rel hparse with ⟨hne, hmem⟩
      cases rel with
      | nil => exact absurd rfl hne
      | cons h tl =>
        have hstep := scan_parsed_step h tl st hstv
          (hmem h (List.mem_cons_self _ _)).1
          (fun s hs => (hmem s hs).2.2.2.1)
          (fun s hs => (hmem s hs).2.2.2.2)
        rw [hstep] at hstepv hvalid hcand
        have hcandh : (scanCand h (if tl = [] then st
            else { st with sawNested := true })).candidate = some h :=
          scanCand_candidate _ _ hstepv
        have hfinal := scanFold_candidate_stable raws _ h hcandh hvalid
        rw [hfinal] at hcand
        cases hcand
        rfl
    · exact ih _ d hvalid hcand r hr rel hparse

theorem scanFold_nested (raws : List RStr) :
    ∀ st : TopScan, (scanFold st raws).valid = true →
      (scanFold st raws).sawNested = true →
      st.sawNested = true ∨
        ∃ r ∈ raws, ∃ rel, parse_entry_rel_path r = some rel ∧ 2 ≤ rel.length := by
  induction raws with
  | nil =>
    intro st _ hn
    exact Or.inl hn
  | cons r0 raws ih =>
    intro st hvalid hn
    rw [scanFold_cons] at hvalid hn
    rcases ih _ hvalid hn with hstep | ⟨r, hr, rel, hparse, hlen⟩
    · cases hparse : parse_entry_rel_path r0 with
      | none =>
        rw [hparse] at hstep
        exact Or.inl hstep
      | some rel =>
        rw [hparse] at hstep hvalid
        dsimp only at hstep hvalid
        have hstepv : (scan_common_top_dir (joinSlash rel) st).valid = true :=
          scanFold_valid_mono raws _ hvalid
        have hstv : st.valid = true := scan_valid_mono _ _ hstepv
        rcases parse_valid r0 rel hparse with ⟨hne, hmem⟩
        cases rel with
        | nil => exact absurd rfl hne
        | cons h tl =>
          have hstepeq := scan_parsed_step h tl st hstv
            (hmem h (List.mem_cons_self _ _)).1
            (fun s hs => (hmem s hs).2.2.2.1)
            (fun s hs => (hmem s hs).2.2.2.2)
          rw [hstepeq, scanCand_sawNested] at hstep
          cases htl : tl with
          | nil =>
            rw [htl] at hstep
            simp only [if_pos] at hstep
            exact Or.inl hstep
          | cons t ts =>
            refine Or.inr ⟨r0, List.mem_cons_self _ _, h :: tl, hparse, ?_⟩
            rw [htl]
            simp
    · exact Or.inr ⟨r, List.mem_cons_of_mem _ hr, rel, hparse, hlen⟩

/-! # C6: the top-directory detector and flatten extraction -/

/-- C6: the detector finalizes to a strip segment only when every
scanned (parseable) entry path shares that first segment and at least
one entry is nested deeper than one segment; concretely, flatten
extraction of an archive whose one entry is project-v1/a/b.txt strips
the shared top directory and produces dest/a/b.txt, while an archive
whose one entry is a bare project-v1 detects nothing and materializes
the literal project-v1 as a child of the destination. -/
theorem c6_top_dir_detection :
    (∀ (raws : List RStr) (d : Seg), detect_common_top_dir raws = some d →
      (∀ r ∈ raws, ∀ rel, parse_entry_rel_path r = some rel → rel.head? = some d) ∧
      ∃ r ∈ raws, ∃ rel, parse_entry_rel_path r = some rel ∧ 2 ≤ rel.length) ∧
    (detect_common_top_dir (projNestedEntries.map (·.raw)) = some (str "project-v1") ∧
      (extract_zip_flat fsDestOnly destKey projNestedEntries).2 = none ∧
      fileAt (extract_zip_flat fsDestOnly destKey projNestedEntries).1
        [str "dest", str "a", str "b.txt"] = some [7]) ∧
    (detect_common_top_dir (projFlatEntries.map (·.raw)) = none ∧
      (extract_zip_flat fsDestOnly destKey projFlatEntries).2 = none ∧
      fileAt (extract_zip_flat fsDestOnly destKey projFlatEntries).1
        [str "dest", str "project-v1"] = some [3]) := by
  refine ⟨?_, ⟨by decide, by decide, by decide⟩, ⟨by decide, by decide, by decide⟩⟩
  intro raws d hdet
  unfold detect_common_top_dir finalize_common_top_dir at hdet
  by_cases hvs : ((scanFold initTopScan raws).valid && (scanFold initTopScan raws).sawNested)
      = true
  · rw [if_pos hvs] at hdet
    rcases (Bool.and_eq_true _ _).mp hvs with ⟨hval, hnest⟩
    constructor
    · exact scanFold_head raws initTopScan d hval hdet
    · rcases scanFold_nested raws initTopScan hval hnest with hinit | hex
      · exact absurd hinit (by decide)
      · exact hex
  · rw [if_neg hvs] at hdet
    simp at hdet

/-- C6 witness: the detector characterization at the concrete nested
archive. -/
theorem c6_witness :
    detect_common_top_dir [str "project-v1/a/b.txt"] = some (str "project-v1") ∧
      ((∀ r ∈ [str "project-v1/a/b.txt"], ∀ rel, parse_entry_rel_path r = some rel →
          rel.head? = some (str "project-v1")) ∧
        ∃ r ∈ [str "project-v1/a/b.txt"], ∃ rel, parse_entry_rel_path r = some rel ∧
          2 ≤ rel.length) :=
  ⟨by decide,
    c6_top_dir_detection.1 [str "project-v1/a/b.txt"] (str "project-v1") (by decide)⟩

/-! # C1: the root-escape resolver -/

/-- C1: a successful resolve_within_dir returns exactly the
canonical (longest-existing-portion, symlink-resolved) form of the
candidate and only when it remains a descendant of the canonical base;
when the canonical candidate is not a descendant, the call fails with
the escape error; and a symlink entry whose target ../../etc/passwd
climbs out of the destination aborts the tar extraction with the escape
error whether or not /etc/passwd exists on the host. -/
theorem c1_resolve_within_dir_escape :
    (∀ (fs : Fs) (base : Key) (p : MPath) (q : Key),
      resolve_within_dir fs base p = .ok q →
      ∃ cb, canonKey fs base = .ok cb ∧ cb.isPrefixOf q = true ∧
        canonicalize_longest_pfx fs (candidate_for cb p) = .ok q) ∧
    (∀ (fs : Fs) (base : Key) (p : MPath) (cb q : Key),
      canonKey fs base = .ok cb →
      canonicalize_longest_pfx fs (candidate_for cb p) = .ok q →
      cb.isPrefixOf q = false →
      resolve_within_dir fs base p = .error .rootEscape) ∧
    (∀ b : Bool,
      extract_tar_gz_mapped (fsWithEtc b) destKey (flatMapper destKey none)
        [escapeSymlinkEntry] = (fsWithEtc b, some XErr.rootEscape)) := by
  refine ⟨resolve_within_dir_ok, ?_, ?_⟩
  · intro fs base p cb q hcb hclp hpre
    unfold resolve_within_dir
    rw [hcb]
    dsimp only
    rw [hclp]
    dsimp only
    rw [hpre]
    rfl
  · intro b
    cases b with
    | false => decide
    | true => decide

/-- C1 witness: a resolvable relative path under the root succeeds and
is a descendant of the canonical base, a dot-dot candidate whose
canonical form leaves the root fails with the escape error, and the
concrete escaping symlink aborts extraction with /etc/passwd present. -/
theorem c1_witness :
    (∃ cb, canonKey fsDestOnly destKey = .ok cb ∧
      cb.isPrefixOf [str "dest", str "x"] = true ∧
      canonicalize_longest_pfx fsDestOnly
        (candidate_for cb ⟨false, [str "x"]⟩) = .ok [str "dest", str "x"]) ∧
      resolve_within_dir fsDestOnly destKey ⟨false, [dotdotSeg]⟩ =
        .error XErr.rootEscape ∧
      extract_tar_gz_mapped (fsWithEtc true) destKey (flatMapper destKey none)
        [escapeSymlinkEntry] = (fsWithEtc true, some XErr.rootEscape) := by
  refine ⟨?_, ?_, ?_⟩
  · exact c1_resolve_within_dir_escape.1 fsDestOnly destKey ⟨false, [str "x"]⟩
      [str "dest", str "x"] (by decide)
  · exact c1_resolve_within_dir_escape.2.1 fsDestOnly destKey ⟨false, [dotdotSeg]⟩
      [str "dest"] [] (by decide) (by decide) (by decide)
  · exact c1_resolve_within_dir_escape.2.2 true

/-! # Basic filesystem lemmas -/

theorem lookup_setEntries (e : List (Key × FNode)) (k : Key) (n : FNode) (q : Key) :
    lookupKey (setEntries e k n) q = if q = k then some n else lookupKey e q := by
  induction e with
  | nil =>
    show lookupKey [(k, n)] q = _
    unfold lookupKey
    by_cases h : q = k
    · rw [if_pos h.symm, if_pos h]
    · rw [if_neg (fun hc => h hc.symm), if_neg h]
      rfl
  | cons kn e ih =>
    show lookupKey (if kn.1 = k then (k, n) :: e else kn :: setEntries e k n) q = _
    by_cases h1 : kn.1 = k
    · rw [if_pos h1]
      show (if k = q then some n else lookupKey e q) = _
      by_cases h2 : q = k
      · rw [if_pos h2.symm, if_pos h2]
      · rw [if_neg (fun hc => h2 hc.symm), if_neg h2]
        show lookupKey e q = if kn.1 = q then some kn.2 else lookupKey e q
        rw [if_neg (fun hc : kn.1 = q => h2 ((hc ▸ h1 : q = k)))]
    · rw [if_neg h1]
      show (if kn.1 = q then some kn.2 else lookupKey (setEntries e k n) q) = _
      rw [ih]
      by_cases h2 : q = k
      · have hkn : ¬ kn.1 = q := fun hc => h1 (hc.trans h2)
        rw [if_neg hkn, if_pos h2, if_pos h2]
      · rw [if_neg h2, if_neg h2]
        rfl

theorem node_set_self (fs : Fs) (k : Key) (n : FNode) (hk : k ≠ []) :
    (fs.set k n).node k = some n := by
  unfold Fs.set Fs.node
  rw [if_neg hk]
  show lookupKey (setEntries fs.entries k n) k = some n
  rw [lookup_setEntries, if_pos rfl]

theorem node_set_other (fs : Fs) (k : Key) (n : FNode) (q : Key) (hq : q ≠ k) :
    (fs.set k n).node q = fs.node q := by
  unfold Fs.set Fs.node
  by_cases h0 : q = []
  · rw [if_pos h0, if_pos h0]
  · rw [if_neg h0, if_neg h0]
    show lookupKey (setEntries fs.entries k n) q = _
    rw [lookup_setEntries, if_neg hq]

theorem mem_setEntries (e : List (Key × FNode)) (k : Key) (n : FNode) (kn : Key × FNode)
    (h : kn ∈ setEntries e k n) : kn = (k, n) ∨ kn ∈ e := by
  induction e with
  | nil =>
    unfold setEntries at h
    simp at h
    exact Or.inl h
  | cons kn0 e ih =>
    unfold setEntries at h
    by_cases h1 : kn0.1 = k
    · rw [if_pos h1] at h
      rcases List.mem_cons.mp h with h | h
      · exact Or.inl h
      · exact Or.inr (List.mem_cons_of_mem _ h)
    · rw [if_neg h1] at h
      rcases List.mem_cons.mp h with h | h
      · exact Or.inr (h ▸ List.mem_cons_self _ _)
      · rcases ih h with h | h
        · exact Or.inl h
        · exact Or.inr (List.mem_cons_of_mem _ h)

theorem node_mem (fs : Fs) (k : Key) (n : FNode) (hk : k ≠ [])
    (h : fs.node k = some n) : (k, n) ∈ fs.entries := by
  unfold Fs.node at h
  rw [if_neg hk] at h
  revert h
  show lookupKey fs.entries k = some n → _
  induction fs.entries with
  | nil => intro h; simp [lookupKey] at h
  | cons kn e ih =>
    intro h
    unfold lookupKey at h
    by_cases h1 : kn.1 = k
    · rw [if_pos h1] at h
      cases h
      have hkn : kn = (k, kn.2) := by
        have h0 : kn = (kn.1, kn.2) := rfl
        rw [h0, h1]
      rw [← hkn]
      exact List.mem_cons_self _ _
    · rw [if_neg h1] at h
      exact List.mem_cons_of_mem _ (ih h)

theorem symFree_node (fs : Fs) (hsf : fs.symFree) (k : Key) (t : MPath) :
    fs.node k ≠ some (FNode.symlink t) := by
  intro h
  by_cases hk : k = []
  · unfold Fs.node at h
    rw [if_pos hk] at h
    cases h
  · have hmem := node_mem fs k _ hk h
    have := hsf _ hmem
    simp [isSymNode] at this

theorem wf_ancestors (fs : Fs) (hwf : fs.wfFs) (k y : Key)
    (hk : fs.node k ≠ none) (hy : y <+: k) (hyk : y ≠ k) (hy0 : y ≠ []) :
    fs.node y = some FNode.dir := by
  by_cases hk0 : k = []
  · subst hk0
    have : y = [] := List.prefix_nil.mp hy
    exact absurd this hy0
  · cases hn : fs.node k with
    | none => exact absurd hn hk
    | some n =>
      have hmem := node_mem fs k n hk0 hn
      have hcond := hwf _ hmem
      have htake : y = k.take y.length := List.prefix_iff_eq_take.mp hy
      have hlen : y.length ≤ k.length := hy.length_le
      have hlt : y.length < k.length := by
        rcases Nat.lt_or_ge y.length k.length with h | h
        · exact h
        · exfalso
          apply hyk
          have : y.length = k.length := Nat.le_antisymm hlen h
          rw [htake, this, List.take_length]
      have hpos : 0 < y.length := by
        cases y with
        | nil => exact absurd rfl hy0
        | cons a l => simp
      have := hcond.2 y.length hlt hpos
      rw [← htake] at this
      exact this

theorem symFree_set (fs : Fs) (k : Key) (n : FNode) (hsf : fs.symFree)
    (hn : isSymNode n = false) : (fs.set k n).symFree := by
  intro kn hmem
  rcases mem_setEntries _ _ _ _ hmem with h | h
  · rw [h]
    exact hn
  · exact hsf _ h

theorem wf_set (fs : Fs) (k : Key) (n : FNode) (hwf : fs.wfFs) (hk : k ≠ [])
    (hanc : ∀ y, y <+: k → y ≠ k → y ≠ [] → fs.node y = some FNode.dir)
    (hdir : fs.node k = some FNode.dir → n = FNode.dir) : (fs.set k n).wfFs := by
  intro kn hmem
  rcases mem_setEntries _ _ _ _ hmem with h | h
  · subst h
    refine ⟨hk, ?_⟩
    intro i hi hpos
    have hi2 : i < k.length := hi
    show (fs.set k n).node (k.take i) = some FNode.dir
    have hpre : k.take i <+: k := List.take_prefix _ _
    have hne : k.take i ≠ k := by
      intro hc
      have hlc : (k.take i).length = k.length := by rw [hc]
      rw [List.length_take] at hlc
      omega
    have hne0 : k.take i ≠ [] := by
      intro hc
      have hlc : (k.take i).length = 0 := by rw [hc]; rfl
      rw [List.length_take] at hlc
      omega
    have hda := hanc _ hpre hne hne0
    rw [node_set_other fs k n _ hne]
    exact hda
  · have hcond := hwf _ h
    refine ⟨hcond.1, ?_⟩
    intro i hi hpos
    by_cases heq : kn.1.take i = k
    · have hold := hcond.2 i hi hpos
      rw [heq] at hold
      have hn' : n = FNode.dir := hdir hold
      rw [heq, node_set_self fs k n hk, hn']
    · rw [node_set_other fs k n _ heq]
      exact hcond.2 i hi hpos

/-! # Prefix helpers -/

theorem prefix_cons_elim {α : Type} {l : List α} {a : α} {r : List α}
    (h : l <+: a :: r) : l = [] ∨ ∃ l', l = a :: l' ∧ l' <+: r := by
  cases l with
  | nil => exact Or.inl rfl
  | cons b l' =>
    rcases h with ⟨t, ht⟩
    simp only [List.cons_append, List.cons.injEq] at ht
    exact Or.inr ⟨l', by rw [ht.1], ⟨t, ht.2⟩⟩

theorem prefix_cons_intro {α : Type} {l' r : List α} (a : α) (h : l' <+: r) :
    a :: l' <+: a :: r := by
  rcases h with ⟨t, ht⟩
  exact ⟨t, by rw [List.cons_append, ht]⟩

theorem prefix_snoc_cases {α : Type} {y l : List α} {x : α}
    (h : y <+: l ++ [x]) : y <+: l ∨ y = l ++ [x] := by
  have htake := List.prefix_iff_eq_take.mp h
  have hlen : y.length ≤ l.length + 1 := by
    have := h.length_le
    simpa using this
  by_cases hle : y.length ≤ l.length
  · left
    have h2 : y = l.take y.length := htake.trans (List.take_append_of_le_length hle)
    exact List.prefix_iff_eq_take.mpr h2
  · right
    have hlen2 : y.length = (l ++ [x]).length := by
      simp only [List.length_append, List.length_cons, List.length_nil]
      omega
    rw [htake, hlen2, List.take_length]

theorem node_nil (fs : Fs) : fs.node [] = some FNode.dir := by
  unfold Fs.node
  rw [if_pos rfl]

theorem node_none_ne_nil (fs : Fs) (k : Key) (h : fs.node k = none) : k ≠ [] := by
  intro h0
  subst h0
  rw [node_nil] at h
  cases h

theorem kindLE_refl (fs : Fs) : KindLE fs fs :=
  fun _ => ⟨fun h => h, fun c h => ⟨c, h⟩⟩

theorem kindLE_trans {a b c : Fs} (h1 : KindLE a b) (h2 : KindLE b c) : KindLE a c := by
  intro k
  refine ⟨fun h => (h2 k).1 ((h1 k).1 h), fun x hx => ?_⟩
  rcases (h1 k).2 x hx with ⟨y, hy⟩
  exact (h2 k).2 y hy

theorem kindLE_set_dir (fs : Fs) (k : Key) (h : fs.node k = none) :
    KindLE fs (fs.set k FNode.dir) := by
  intro q
  by_cases hq : q = k
  · subst hq
    refine ⟨fun hd => ?_, fun x hx => ?_⟩
    · rw [h] at hd; cases hd
    · rw [h] at hx; cases hx
  · rw [node_set_other fs k FNode.dir q hq]
    exact ⟨fun hd => hd, fun x hx => ⟨x, hx⟩⟩

theorem kindLE_set_file (fs : Fs) (k : Key) (c : List Nat) (hk : k ≠ [])
    (h : fs.node k ≠ some FNode.dir) : KindLE fs (fs.set k (FNode.file c)) := by
  intro q
  by_cases hq : q = k
  · subst hq
    exact ⟨fun hd => absurd hd h,
      fun x _ => ⟨c, node_set_self fs q (FNode.file c) hk⟩⟩
  · rw [node_set_other fs k (FNode.file c) q hq]
    exact ⟨fun hd => hd, fun x hx => ⟨x, hx⟩⟩

theorem destReady_of_kindLE {fs fs' : Fs} {dest : Key} (h : KindLE fs fs')
    (hd : destReady fs dest) : destReady fs' dest :=
  fun l hl hl0 => (h l).1 (hd l hl hl0)

/-! ## mkdirOne lemmas -/

theorem mkdirOne_frame (fs : Fs) (k q : Key) (hq : q ≠ k) :
    ((mkdirOne fs k).1).node q = fs.node q := by
  unfold mkdirOne
  cases hnode : fs.node k with
  | none => exact node_set_other fs k FNode.dir q hq
  | some n =>
    cases n with
    | dir => rfl
    | file x => rfl
    | symlink t =>
      dsimp only
      split
      · rfl
      · rfl

theorem mkdirOne_kindLE (fs : Fs) (k : Key) : KindLE fs (mkdirOne fs k).1 := by
  unfold mkdirOne
  cases hnode : fs.node k with
  | none => exact kindLE_set_dir fs k hnode
  | some n =>
    cases n with
    | dir => exact kindLE_refl fs
    | file x => exact kindLE_refl fs
    | symlink t =>
      dsimp only
      split
      · exact kindLE_refl fs
      · exact kindLE_refl fs

theorem mkdirOne_symFree (fs : Fs) (k : Key) (hsf : fs.symFree) :
    ((mkdirOne fs k).1).symFree := by
  unfold mkdirOne
  cases hnode : fs.node k with
  | none => exact symFree_set fs k FNode.dir hsf rfl
  | some n =>
    cases n with
    | dir => exact hsf
    | file x => exact hsf
    | symlink t => exact absurd hnode (symFree_node fs hsf k t)

theorem mkdirOne_ok_dir (fs : Fs) (k : Key) (hsf : fs.symFree)
    (h : (mkdirOne fs k).2 = none) : ((mkdirOne fs k).1).node k = some FNode.dir := by
  unfold mkdirOne at h ⊢
  cases hnode : fs.node k with
  | none => exact node_set_self fs k FNode.dir (node_none_ne_nil fs k hnode)
  | some n =>
    cases n with
    | dir => exact hnode
    | file x =>
      rw [hnode] at h
      dsimp only at h
      cases h
    | symlink t => exact absurd hnode (symFree_node fs hsf k t)

theorem mkdirOne_ok_of (fs : Fs) (k : Key) (hsf : fs.symFree)
    (h : ∀ c, fs.node k ≠ some (FNode.file c)) : (mkdirOne fs k).2 = none := by
  unfold mkdirOne
  cases hnode : fs.node k with
  | none => rfl
  | some n =>
    cases n with
    | dir => rfl
    | file x => exact absurd hnode (h x)
    | symlink t => exact absurd hnode (symFree_node fs hsf k t)

theorem mkdirOne_file_of_fail (fs : Fs) (k : Key) (hsf : fs.symFree)
    (h : (mkdirOne fs k).2 ≠ none) : ∃ c, fs.node k = some (FNode.file c) := by
  by_cases hc : ∀ c, fs.node k ≠ some (FNode.file c)
  · exact absurd (mkdirOne_ok_of fs k hsf hc) h
  · push_neg at hc
    exact hc

theorem mkdirOne_changed (fs : Fs) (k q : Key) :
    ((mkdirOne fs k).1).node q = fs.node q ∨
      (((mkdirOne fs k).1).node q = some FNode.dir ∧ fs.node q = none) := by
  by_cases hq : q = k
  · subst hq
    unfold mkdirOne
    cases hnode : fs.node q with
    | none =>
      right
      exact ⟨node_set_self fs q FNode.dir (node_none_ne_nil fs q hnode), rfl⟩
    | some n =>
      cases n with
      | dir => exact Or.inl hnode
      | file x => exact Or.inl hnode
      | symlink t =>
        dsimp only
        split
        · exact Or.inl hnode
        · exact Or.inl hnode
  · exact Or.inl ((mkdirOne_frame fs k q hq).trans rfl)

theorem mkdirOne_wf (fs : Fs) (k : Key) (hwf : fs.wfFs) (hk : k ≠ [])
    (hanc : ∀ y, y <+: k → y ≠ k → y ≠ [] → fs.node y = some FNode.dir) :
    ((mkdirOne fs k).1).wfFs := by
  unfold mkdirOne
  cases hnode : fs.node k with
  | none =>
    exact wf_set fs k FNode.dir hwf hk hanc (fun _ => rfl)
  | some n =>
    cases n with
    | dir => exact hwf
    | file x => exact hwf
    | symlink t =>
      dsimp only
      split
      · exact hwf
      · exact hwf

theorem proper_prefix_dropLast {α : Type} {y k : List α}
    (h : y <+: k) (hne : y ≠ k) : y <+: k.dropLast := by
  cases hk : k with
  | nil =>
    subst hk
    have : y = [] := List.prefix_nil.mp h
    exact absurd this hne
  | cons a r =>
    have hkne : k ≠ [] := by rw [hk]; simp
    have hsplit : k.dropLast ++ [k.getLast hkne] = k := List.dropLast_append_getLast hkne
    rw [← hk] at *
    rcases prefix_snoc_cases (hsplit ▸ h) with hc | hc
    · exact hc
    · exfalso
      apply hne
      rw [hc, hsplit]

/-! ## create_dir_all (cdaAux) lemmas -/

theorem cdaAux_symFree : ∀ (segs : List Seg) (fs : Fs) (base : Key), fs.symFree →
    ((cdaAux fs base segs).1).symFree := by
  intro segs
  induction segs with
  | nil => intro fs base h; exact h
  | cons s rest ih =>
    intro fs base h
    unfold cdaAux
    cases hm : mkdirOne fs (base ++ [s]) with
    | mk fs1 e =>
      have hsf1 : fs1.symFree := by
        have h2 := mkdirOne_symFree fs (base ++ [s]) h
        rw [hm] at h2
        exact h2
      cases e with
      | none => dsimp only; exact ih fs1 (base ++ [s]) hsf1
      | some e => dsimp only; exact hsf1

theorem cdaAux_kindLE : ∀ (segs : List Seg) (fs : Fs) (base : Key),
    KindLE fs (cdaAux fs base segs).1 := by
  intro segs
  induction segs with
  | nil => intro fs base; exact kindLE_refl fs
  | cons s rest ih =>
    intro fs base
    unfold cdaAux
    cases hm : mkdirOne fs (base ++ [s]) with
    | mk fs1 e =>
      have h1 : KindLE fs fs1 := by
        have h2 := mkdirOne_kindLE fs (base ++ [s])
        rw [hm] at h2
        exact h2
      cases e with
      | none => dsimp only; exact kindLE_trans h1 (ih fs1 (base ++ [s]))
      | some e => dsimp only; exact h1

theorem cdaAux_frame : ∀ (segs : List Seg) (fs : Fs) (base : Key) (q : Key),
    (∀ l, l <+: segs → l ≠ [] → q ≠ base ++ l) →
    ((cdaAux fs base segs).1).node q = fs.node q := by
  intro segs
  induction segs with
  | nil => intro fs base q _; rfl
  | cons s rest ih =>
    intro fs base q h
    unfold cdaAux
    cases hm : mkdirOne fs (base ++ [s]) with
    | mk fs1 e =>
      have hq1 : q ≠ base ++ [s] := h [s] ⟨rest, rfl⟩ (by simp)
      have hfr : fs1.node q = fs.node q := by
        have h2 := mkdirOne_frame fs (base ++ [s]) q hq1
        rw [hm] at h2
        exact h2
      cases e with
      | none =>
        dsimp only
        have h3 : ∀ l, l <+: rest → l ≠ [] → q ≠ (base ++ [s]) ++ l := by
          intro l hl hl0 hq
          apply h (s :: l) (prefix_cons_intro s hl) (by simp)
          rw [hq, List.append_assoc, List.singleton_append]
        rw [ih fs1 (base ++ [s]) q h3, hfr]
      | some e => dsimp only; exact hfr

theorem cdaAux_post_dirs : ∀ (segs : List Seg) (fs : Fs) (base : Key), fs.symFree →
    (cdaAux fs base segs).2 = none →
    ∀ l, l <+: segs → l ≠ [] → ((cdaAux fs base segs).1).node (base ++ l) = some FNode.dir := by
  intro segs
  induction segs with
  | nil =>
    intro fs base _ _ l hl hl0
    exact absurd (List.prefix_nil.mp hl) hl0
  | cons s rest ih =>
    intro fs base hsf hok l hl hl0
    unfold cdaAux at hok ⊢
    cases hm : mkdirOne fs (base ++ [s]) with
    | mk fs1 e =>
      rw [hm] at hok
      have hsf1 : fs1.symFree := by
        have h2 := mkdirOne_symFree fs (base ++ [s]) hsf
        rw [hm] at h2
        exact h2
      cases e with
      | some e => dsimp only at hok; cases hok
      | none =>
        dsimp only at hok ⊢
        have hdir1 : fs1.node (base ++ [s]) = some FNode.dir := by
          have h2 := mkdirOne_ok_dir fs (base ++ [s]) hsf (by rw [hm])
          rw [hm] at h2
          exact h2
        rcases prefix_cons_elim hl with h0 | ⟨l', hleq, hl'⟩
        · exact absurd h0 hl0
        · subst hleq
          cases hl'0 : l' with
          | nil =>
            subst hl'0
            have hkeep := (cdaAux_kindLE rest fs1 (base ++ [s]) (base ++ [s])).1 hdir1
            have : base ++ [s] = base ++ s :: [] := rfl
            rw [← this]
            exact hkeep
          | cons a r =>
            rw [← hl'0]
            have h2 := ih fs1 (base ++ [s]) hsf1 hok l' hl' (by rw [hl'0]; simp)
            have hassoc : (base ++ [s]) ++ l' = base ++ s :: l' := by
              rw [List.append_assoc, List.singleton_append]
            rw [← hassoc]
            exact h2

theorem cdaAux_ok_of : ∀ (segs : List Seg) (fs : Fs) (base : Key), fs.symFree →
    (∀ l, l <+: segs → l ≠ [] → ∀ c, fs.node (base ++ l) ≠ some (FNode.file c)) →
    (cdaAux fs base segs).2 = none := by
  intro segs
  induction segs with
  | nil => intro fs base _ _; rfl
  | cons s rest ih =>
    intro fs base hsf h
    unfold cdaAux
    cases hm : mkdirOne fs (base ++ [s]) with
    | mk fs1 e =>
      have hok : (mkdirOne fs (base ++ [s])).2 = none :=
        mkdirOne_ok_of fs (base ++ [s]) hsf (h [s] ⟨rest, rfl⟩ (by simp))
      rw [hm] at hok
      dsimp only at hok
      subst hok
      dsimp only
      have hsf1 : fs1.symFree := by
        have h2 := mkdirOne_symFree fs (base ++ [s]) hsf
        rw [hm] at h2
        exact h2
      apply ih fs1 (base ++ [s]) hsf1
      intro l hl hl0 c hc
      have hch := mkdirOne_changed fs (base ++ [s]) ((base ++ [s]) ++ l)
      rw [hm] at hch
      dsimp only at hch
      rcases hch with hch | ⟨hch, _⟩
      · rw [hch] at hc
        have hassoc : (base ++ [s]) ++ l = base ++ s :: l := by rw [List.append_assoc, List.singleton_append]
        rw [hassoc] at hc
        exact h (s :: l) (prefix_cons_intro s hl) (by simp) c hc
      · rw [hch] at hc
        cases hc

theorem cdaAux_nofile_of_ok : ∀ (segs : List Seg) (fs : Fs) (base : Key), fs.symFree →
    (cdaAux fs base segs).2 = none →
    ∀ l, l <+: segs → l ≠ [] → ∀ c, fs.node (base ++ l) ≠ some (FNode.file c) := by
  intro segs
  induction segs with
  | nil =>
    intro fs base _ _ l hl hl0
    exact absurd (List.prefix_nil.mp hl) hl0
  | cons s rest ih =>
    intro fs base hsf hok l hl hl0 c hc
    unfold cdaAux at hok
    cases hm : mkdirOne fs (base ++ [s]) with
    | mk fs1 e =>
      rw [hm] at hok
      cases e with
      | some e => dsimp only at hok; cases hok
      | none =>
        dsimp only at hok
        have hsf1 : fs1.symFree := by
          have h2 := mkdirOne_symFree fs (base ++ [s]) hsf
          rw [hm] at h2
          exact h2
        rcases prefix_cons_elim hl with h0 | ⟨l', hleq, hl'⟩
        · exact absurd h0 hl0
        · subst hleq
          cases hl'0 : l' with
          | nil =>
            subst hl'0
            have hone : (mkdirOne fs (base ++ [s])).2 = none := by rw [hm]
            have hfile : ∀ c0, fs.node (base ++ [s]) ≠ some (FNode.file c0) := by
              intro c0 hc0
              unfold mkdirOne at hone
              rw [hc0] at hone
              dsimp only at hone
              cases hone
            have : base ++ s :: [] = base ++ [s] := rfl
            rw [this] at hc
            exact hfile c hc
          | cons a r =>
            subst hl'0
            have hfr : fs1.node (base ++ s :: (a :: r)) = fs.node (base ++ s :: (a :: r)) := by
              have h2 := mkdirOne_frame fs (base ++ [s]) (base ++ s :: (a :: r)) (by
                intro heq
                have := congrArg List.length heq
                simp at this)
              rw [hm] at h2
              exact h2
            have hassoc : (base ++ [s]) ++ (a :: r) = base ++ s :: (a :: r) := by
              rw [List.append_assoc, List.singleton_append]
            have h2 := ih fs1 (base ++ [s]) hsf1 hok (a :: r) hl' (by simp) c
            rw [hassoc, hfr] at h2
            exact h2 hc

theorem cdaAux_wf : ∀ (segs : List Seg) (fs : Fs) (base : Key), fs.symFree → fs.wfFs →
    (∀ y, y <+: base → y ≠ [] → fs.node y = some FNode.dir) →
    ((cdaAux fs base segs).1).wfFs := by
  intro segs
  induction segs with
  | nil => intro fs base _ hwf _; exact hwf
  | cons s rest ih =>
    intro fs base hsf hwf hanc
    unfold cdaAux
    cases hm : mkdirOne fs (base ++ [s]) with
    | mk fs1 e =>
      have hk : base ++ [s] ≠ [] := by simp
      have hanc1 : ∀ y, y <+: base ++ [s] → y ≠ base ++ [s] → y ≠ [] →
          fs.node y = some FNode.dir := by
        intro y hy hy1 hy0
        rcases prefix_snoc_cases hy with hc | hc
        · rcases prefix_snoc_cases hy with _ | hc2
          · exact hanc y hc hy0
          · exact absurd hc2 hy1
        · exact absurd hc hy1
      have hwf1 : fs1.wfFs := by
        have h2 := mkdirOne_wf fs (base ++ [s]) hwf hk hanc1
        rw [hm] at h2
        exact h2
      have hsf1 : fs1.symFree := by
        have h2 := mkdirOne_symFree fs (base ++ [s]) hsf
        rw [hm] at h2
        exact h2
      cases e with
      | some e => dsimp only; exact hwf1
      | none =>
        dsimp only
        by_cases hfail : (mkdirOne fs (base ++ [s])).2 = none
        · have hdir1 : fs1.node (base ++ [s]) = some FNode.dir := by
            have h2 := mkdirOne_ok_dir fs (base ++ [s]) hsf hfail
            rw [hm] at h2
            exact h2
          apply ih fs1 (base ++ [s]) hsf1 hwf1
          intro y hy hy0
          rcases prefix_snoc_cases hy with hc | hc
          · by_cases hyb : y = base ++ [s]
            · rw [hyb]; exact hdir1
            · have h3 := hanc y hc hy0
              have hfr : fs1.node y = fs.node y := by
                have h4 := mkdirOne_frame fs (base ++ [s]) y hyb
                rw [hm] at h4
                exact h4
              rw [hfr]
              exact h3
          · rw [hc]; exact hdir1
        · exfalso
          rw [hm] at hfail
          exact hfail rfl

theorem cdaAux_id : ∀ (segs : List Seg) (fs : Fs) (base : Key),
    (∀ l, l <+: segs → l ≠ [] → fs.node (base ++ l) = some FNode.dir) →
    cdaAux fs base segs = (fs, none) := by
  intro segs
  induction segs with
  | nil => intro fs base _; rfl
  | cons s rest ih =>
    intro fs base h
    unfold cdaAux
    have hdir : fs.node (base ++ [s]) = some FNode.dir := h [s] ⟨rest, rfl⟩ (by simp)
    have hone : mkdirOne fs (base ++ [s]) = (fs, none) := by
      unfold mkdirOne
      rw [hdir]
    rw [hone]
    dsimp only
    apply ih fs (base ++ [s])
    intro l hl hl0
    have hassoc : (base ++ [s]) ++ l = base ++ s :: l := by rw [List.append_assoc, List.singleton_append]
    rw [hassoc]
    exact h (s :: l) (prefix_cons_intro s hl) (by simp)

theorem create_dir_all_id (fs : Fs) (dest : Key) (h : destReady fs dest) :
    create_dir_all fs dest = (fs, none) := by
  unfold create_dir_all
  apply cdaAux_id
  intro l hl hl0
  rw [List.nil_append]
  exact h l hl hl0

/-! ## fileCreateWrite and write_entry lemmas -/

theorem fcw_ok (fs : Fs) (k : Key) (c : List Nat) (hsf : fs.symFree)
    (hnd : fs.node k ≠ some FNode.dir) :
    fileCreateWrite fs k c = (fs.set k (FNode.file c), none) := by
  unfold fileCreateWrite
  cases hnode : fs.node k with
  | none => rfl
  | some n =>
    cases n with
    | dir => exact absurd hnode hnd
    | file x => rfl
    | symlink t => exact absurd hnode (symFree_node fs hsf k t)

theorem fcw_dir (fs : Fs) (k : Key) (c : List Nat) (hnd : fs.node k = some FNode.dir) :
    fileCreateWrite fs k c = (fs, some XErr.fileConflict) := by
  unfold fileCreateWrite
  rw [hnd]

theorem cda_dropLast_frame (fs : Fs) (k : Key) (hk : k ≠ []) :
    ((create_dir_all fs k.dropLast).1).node k = fs.node k := by
  unfold create_dir_all
  apply cdaAux_frame
  intro l hl hl0 heq
  rw [List.nil_append] at heq
  subst heq
  have hlen := hl.length_le
  rw [List.length_dropLast] at hlen
  have hpos : 0 < k.length := List.length_pos.mpr hk
  omega

theorem write_entry_dir_eq (fs : Fs) (k : Key) (c : List Nat) (mode sz : Option Nat) :
    write_entry fs k true c mode sz = create_dir_all fs k := rfl

theorem write_entry_file_ok (fs : Fs) (k : Key) (c : List Nat) (mode : Option Nat) (sz : Nat)
    (hsf : fs.symFree) (hk : k ≠ [])
    (hnf : ∀ l, l <+: k.dropLast → l ≠ [] → ∀ c0, fs.node l ≠ some (FNode.file c0))
    (hnd : fs.node k ≠ some FNode.dir)
    (hsz : c.length = sz)
    (hpm : mode = none ∨ k ∉ fs.chmodFail) :
    write_entry fs k false c mode (some sz) =
      (((create_dir_all fs k.dropLast).1).set k (FNode.file c), none) := by
  unfold write_entry
  rw [if_neg (by simp : ¬(false = true)), if_neg hk]
  have hcda : (create_dir_all fs k.dropLast).2 = none := by
    apply cdaAux_ok_of k.dropLast fs [] hsf
    intro l hl hl0 c0
    rw [List.nil_append]
    exact hnf l hl hl0 c0
  have hfr0 := cda_dropLast_frame fs k hk
  have hsf0 : ((create_dir_all fs k.dropLast).1).symFree := cdaAux_symFree k.dropLast fs [] hsf
  have hcfa : ((create_dir_all fs k.dropLast).1).chmodFail = fs.chmodFail :=
    create_dir_all_chmodFail fs k.dropLast
  cases hc : create_dir_all fs k.dropLast with
  | mk fs1 e1 =>
    rw [hc] at hcda hfr0 hsf0 hcfa
    dsimp only at hcda hfr0 hsf0 hcfa
    subst hcda
    dsimp only
    rw [← hfr0] at hnd
    rw [fcw_ok fs1 k c hsf0 hnd]
    dsimp only
    rw [if_neg (not_not_intro hsz)]
    have hperm : set_unix_permissions (fs1.set k (FNode.file c)) k mode = none := by
      unfold set_unix_permissions
      cases mode with
      | none => rfl
      | some m =>
        dsimp only
        rw [if_neg]
        rcases hpm with hpm | hpm
        · cases hpm
        · rw [set_chmodFail, hcfa]
          exact hpm
    rw [hperm]

theorem write_entry_file_inv (fs : Fs) (k : Key) (c : List Nat) (mode : Option Nat) (sz : Nat)
    (hsf : fs.symFree)
    (h : (write_entry fs k false c mode (some sz)).2 = none) :
    k ≠ [] ∧ c.length = sz ∧
    (∀ l, l <+: k.dropLast → l ≠ [] → ∀ c0, fs.node l ≠ some (FNode.file c0)) ∧
    fs.node k ≠ some FNode.dir ∧
    (mode = none ∨ k ∉ fs.chmodFail) ∧
    (write_entry fs k false c mode (some sz)).1 =
      ((create_dir_all fs k.dropLast).1).set k (FNode.file c) := by
  have hk : k ≠ [] := by
    intro h0
    subst h0
    unfold write_entry at h
    rw [if_neg (by simp : ¬(false = true)), if_pos rfl] at h
    dsimp only at h
    unfold fileCreateWrite at h
    rw [node_nil] at h
    dsimp only at h
    cases h
  unfold write_entry at h
  rw [if_neg (by simp : ¬(false = true)), if_neg hk] at h
  have hfr0 := cda_dropLast_frame fs k hk
  have hsf0 : ((create_dir_all fs k.dropLast).1).symFree := cdaAux_symFree k.dropLast fs [] hsf
  have hcfa : ((create_dir_all fs k.dropLast).1).chmodFail = fs.chmodFail :=
    create_dir_all_chmodFail fs k.dropLast
  cases hc : create_dir_all fs k.dropLast with
  | mk fs1 e1 =>
    rw [hc] at h hfr0 hsf0 hcfa
    dsimp only at hfr0 hsf0 hcfa
    cases e1 with
    | some e => dsimp only at h; cases h
    | none =>
      dsimp only at h
      have hnf : ∀ l, l <+: k.dropLast → l ≠ [] → ∀ c0, fs.node l ≠ some (FNode.file c0) := by
        have h2 : (create_dir_all fs k.dropLast).2 = none := by rw [hc]
        have h3 := cdaAux_nofile_of_ok k.dropLast fs [] hsf h2
        intro l hl hl0 c0
        have h4 := h3 l hl hl0 c0
        rw [List.nil_append] at h4
        exact h4
      have hndf : fs.node k ≠ some FNode.dir := by
        intro hd
        rw [fcw_dir fs1 k c (hfr0.trans hd)] at h
        dsimp only at h
        cases h
      have hnd1 : fs1.node k ≠ some FNode.dir := by rw [hfr0]; exact hndf
      rw [fcw_ok fs1 k c hsf0 hnd1] at h
      dsimp only at h
      by_cases hsz : c.length = sz
      · rw [if_neg (not_not_intro hsz)] at h
        have hpm : mode = none ∨ k ∉ fs.chmodFail := by
          cases hm0 : mode with
          | none => exact Or.inl rfl
          | some m =>
            right
            intro hin
            rw [hm0] at h
            unfold set_unix_permissions at h
            dsimp only at h
            rw [if_pos (by rw [set_chmodFail, hcfa]; exact hin)] at h
            dsimp only at h
            cases h
        refine ⟨hk, hsz, hnf, hndf, hpm, ?_⟩
        rw [write_entry_file_ok fs k c mode sz hsf hk hnf hndf hsz hpm, hc]
      · rw [if_pos hsz] at h
        dsimp only at h
        cases h

/-! ## Symlink-free canonicalization: the textual characterization -/

theorem normComps_plain : ∀ (l : List Seg) (abs : Bool) (acc n : List Seg),
    plainKey acc → normComps abs acc l = .ok n → plainKey n := by
  intro l
  induction l with
  | nil =>
    intro abs acc n hacc h
    unfold normComps at h
    cases h
    exact hacc
  | cons s rest ih =>
    intro abs acc n hacc h
    unfold normComps at h
    by_cases h1 : s = dotSeg
    · rw [if_pos h1] at h
      exact ih abs acc n hacc h
    · rw [if_neg h1] at h
      by_cases h2 : s = dotdotSeg
      · rw [if_pos h2] at h
        cases hacc0 : acc with
        | nil =>
          rw [hacc0] at h
          dsimp only at h
          cases habs : abs with
          | true =>
            rw [habs] at h
            rw [if_pos rfl] at h
            exact ih true [] n (by intro x hx; cases hx) h
          | false =>
            rw [habs] at h
            rw [if_neg (by simp)] at h
            cases h
        | cons a as =>
          rw [hacc0] at h
          dsimp only at h
          refine ih abs (a :: as).dropLast n ?_ h
          intro x hx
          exact hacc x (hacc0 ▸ List.mem_of_mem_dropLast hx)
      · rw [if_neg h2] at h
        refine ih abs (acc ++ [s]) n ?_ h
        intro x hx
        rcases List.mem_append.mp hx with hx | hx
        · exact hacc x hx
        · rw [List.mem_singleton.mp hx]
          exact ⟨h1, h2⟩

theorem walkStep_ok (fs : Fs) (hsf : fs.symFree) :
    ∀ (segs : List Seg) (base : Key), plainKey segs →
    (∀ l, l <+: segs → l ≠ [] → l ≠ segs → fs.node (base ++ l) = some FNode.dir) →
    (segs = [] ∨ fs.node (base ++ segs) = some FNode.dir ∨
      ∃ c, fs.node (base ++ segs) = some (FNode.file c)) →
    walkStep fs base segs = .done (.ok (base ++ segs)) := by
  intro segs
  induction segs with
  | nil =>
    intro base _ _ _
    unfold walkStep
    rw [List.append_nil]
  | cons s rest ih =>
    intro base hp hmid hlast
    have hps : plainSeg s := hp s (List.mem_cons_self s rest)
    unfold walkStep
    rw [if_neg hps.1, if_neg hps.2]
    by_cases hr : rest = []
    · subst hr
      rcases hlast with h0 | hd | ⟨c, hf⟩
      · simp at h0
      · rw [hd]
        dsimp only
        unfold walkStep
        rfl
      · rw [hf]
        dsimp only
        rw [if_pos rfl]
    · have hdir : fs.node (base ++ [s]) = some FNode.dir := by
        apply hmid [s] ⟨rest, rfl⟩ (by simp)
        intro heq
        injection heq with _ h2
        exact hr h2.symm
      rw [hdir]
      dsimp only
      have hrec : walkStep fs (base ++ [s]) rest = .done (.ok ((base ++ [s]) ++ rest)) := by
        apply ih (base ++ [s])
        · intro x hx
          exact hp x (List.mem_cons_of_mem s hx)
        · intro l hl hl0 hlr
          have h2 := hmid (s :: l) (prefix_cons_intro s hl) (by simp) (by
            intro heq
            injection heq with _ h3
            exact hlr h3)
          rw [List.append_assoc, List.singleton_append]
          exact h2
        · right
          rcases hlast with h0 | hd | ⟨c, hf⟩
          · simp at h0
          · left
            rw [List.append_assoc, List.singleton_append]
            exact hd
          · right
            exact ⟨c, by rw [List.append_assoc, List.singleton_append]; exact hf⟩
      rw [hrec, List.append_assoc, List.singleton_append]

theorem walkStep_notFound (fs : Fs) (hsf : fs.symFree) :
    ∀ (segs : List Seg) (base : Key), plainKey segs →
    (∀ l, l <+: segs → l ≠ [] → ∀ c, fs.node (base ++ l) ≠ some (FNode.file c)) →
    (∃ l, l <+: segs ∧ l ≠ [] ∧ fs.node (base ++ l) = none) →
    walkStep fs base segs = .done (.error .notFound) := by
  intro segs
  induction segs with
  | nil =>
    intro base _ _ hmiss
    rcases hmiss with ⟨l, hl, hl0, _⟩
    exact absurd (List.prefix_nil.mp hl) hl0
  | cons s rest ih =>
    intro base hp hnof hmiss
    have hps : plainSeg s := hp s (List.mem_cons_self s rest)
    unfold walkStep
    rw [if_neg hps.1, if_neg hps.2]
    cases hnode : fs.node (base ++ [s]) with
    | none => rfl
    | some n =>
      cases n with
      | file x => exact absurd hnode (hnof [s] ⟨rest, rfl⟩ (by simp) x)
      | symlink t => exact absurd hnode (symFree_node fs hsf (base ++ [s]) t)
      | dir =>
        dsimp only
        apply ih (base ++ [s])
        · intro x hx
          exact hp x (List.mem_cons_of_mem s hx)
        · intro l hl hl0 c hc
          have h2 := hnof (s :: l) (prefix_cons_intro s hl) (by simp) c
          rw [List.append_assoc, List.singleton_append] at hc
          exact h2 hc
        · rcases hmiss with ⟨l, hl, hl0, hnone⟩
          rcases prefix_cons_elim hl with h0 | ⟨l', hleq, hl'⟩
          · exact absurd h0 hl0
          · subst hleq
            cases hl'e : l' with
            | nil =>
              subst hl'e
              rw [hnone] at hnode
              cases hnode
            | cons a r =>
              refine ⟨l', hl', by rw [hl'e]; simp, ?_⟩
              rw [List.append_assoc, List.singleton_append]
              exact hnone

theorem walkStep_file_blocked (fs : Fs) (hsf : fs.symFree) (hwf : fs.wfFs) :
    ∀ (segs : List Seg) (base : Key), plainKey segs →
    (∃ l c, l <+: segs ∧ l ≠ [] ∧ l ≠ segs ∧ fs.node (base ++ l) = some (FNode.file c)) →
    walkStep fs base segs = .done (.error .other) := by
  intro segs
  induction segs with
  | nil =>
    intro base _ hblk
    rcases hblk with ⟨l, _, hl, hl0, _, _⟩
    exact absurd (List.prefix_nil.mp hl) hl0
  | cons s rest ih =>
    intro base hp hblk
    have hps : plainSeg s := hp s (List.mem_cons_self s rest)
    unfold walkStep
    rw [if_neg hps.1, if_neg hps.2]
    obtain ⟨l, c, hl, hl0, hlne, hf⟩ := hblk
    rcases prefix_cons_elim hl with h0 | ⟨l', hleq, hl'⟩
    · exact absurd h0 hl0
    subst hleq
    cases hnode : fs.node (base ++ [s]) with
    | none =>
      exfalso
      cases hl'e : l' with
      | nil =>
        subst hl'e
        rw [hnode] at hf
        cases hf
      | cons a r =>
        have hex : fs.node (base ++ s :: l') ≠ none := by rw [hf]; simp
        have hy : (base ++ [s]) <+: (base ++ s :: l') :=
          ⟨l', by rw [List.append_assoc, List.singleton_append]⟩
        have hne : (base ++ [s]) ≠ (base ++ s :: l') := by
          intro heq
          have h2 := congrArg List.length heq
          simp [hl'e] at h2
        have hdir := wf_ancestors fs hwf (base ++ s :: l') (base ++ [s]) hex hy hne (by simp)
        rw [hdir] at hnode
        cases hnode
    | some n =>
      cases n with
      | symlink t => exact absurd hnode (symFree_node fs hsf (base ++ [s]) t)
      | dir =>
        dsimp only
        cases hl'e : l' with
        | nil =>
          subst hl'e
          rw [hnode] at hf
          cases hf
        | cons a r =>
          apply ih (base ++ [s])
          · intro x hx
            exact hp x (List.mem_cons_of_mem s hx)
          · refine ⟨l', c, hl', by rw [hl'e]; simp, ?_, ?_⟩
            · intro h2
              exact hlne (by rw [h2])
            · rw [List.append_assoc, List.singleton_append]
              exact hf
      | file x =>
        dsimp only
        have hr : rest ≠ [] := by
          intro h0
          subst h0
          have h2 : l' = [] := List.prefix_nil.mp hl'
          exact hlne (by rw [h2])
        rw [if_neg hr]

theorem canonKey_of_walk (fs : Fs) (k : Key) (r : Except CErr Key)
    (h : walkStep fs [] k = .done r) : canonKey fs k = r := by
  unfold canonKey resolvePath
  rw [h]

theorem canonKey_sf_ok (fs : Fs) (hsf : fs.symFree) (k : Key) (hp : plainKey k)
    (hmid : ∀ l, l <+: k → l ≠ [] → l ≠ k → fs.node l = some FNode.dir)
    (hlast : k = [] ∨ fs.node k = some FNode.dir ∨ ∃ c, fs.node k = some (FNode.file c)) :
    canonKey fs k = .ok k := by
  apply canonKey_of_walk
  have h := walkStep_ok fs hsf k [] hp
    (by intro l hl hl0 hlk; rw [List.nil_append]; exact hmid l hl hl0 hlk)
    (by rw [List.nil_append]; exact hlast)
  rw [List.nil_append] at h
  exact h

theorem canonKey_sf_notFound (fs : Fs) (hsf : fs.symFree) (k : Key) (hp : plainKey k)
    (hnof : ∀ l, l <+: k → l ≠ [] → ∀ c, fs.node l ≠ some (FNode.file c))
    (hmiss : ∃ l, l <+: k ∧ l ≠ [] ∧ fs.node l = none) :
    canonKey fs k = .error .notFound := by
  apply canonKey_of_walk
  apply walkStep_notFound fs hsf k [] hp
  · intro l hl hl0 c
    rw [List.nil_append]
    exact hnof l hl hl0 c
  · rcases hmiss with ⟨l, hl, hl0, hnone⟩
    exact ⟨l, hl, hl0, by rw [List.nil_append]; exact hnone⟩

theorem canonKey_sf_blocked (fs : Fs) (hsf : fs.symFree) (hwf : fs.wfFs) (k : Key)
    (hp : plainKey k)
    (hblk : ∃ l c, l <+: k ∧ l ≠ [] ∧ l ≠ k ∧ fs.node l = some (FNode.file c)) :
    canonKey fs k = .error .other := by
  apply canonKey_of_walk
  apply walkStep_file_blocked fs hsf hwf k [] hp
  rcases hblk with ⟨l, c, hl, hl0, hlk, hfile⟩
  exact ⟨l, c, hl, hl0, hlk, by rw [List.nil_append]; exact hfile⟩

theorem clpRev_nil_eq (fs : Fs) (suffix : List Seg) :
    clpRev fs [] suffix =
      match canonKey fs (([] : List Seg).reverse) with
      | .ok c => .ok (c ++ suffix)
      | .error .other => .error .canonFail
      | .error .notFound => .error .reachedRoot := rfl

theorem clpRev_cons_eq (fs : Fs) (c0 : Seg) (cs suffix : List Seg) :
    clpRev fs (c0 :: cs) suffix =
      match canonKey fs ((c0 :: cs).reverse) with
      | .ok c => .ok (c ++ suffix)
      | .error .other => .error .canonFail
      | .error .notFound => clpRev fs cs (c0 :: suffix) := rfl

theorem clpRev_sf (fs : Fs) (hsf : fs.symFree) (hwf : fs.wfFs) :
    ∀ (rcur suffix : List Seg), plainKey rcur.reverse →
    (∀ l, l <+: rcur.reverse → l ≠ rcur.reverse → l ≠ [] →
      ∀ c, fs.node l ≠ some (FNode.file c)) →
    clpRev fs rcur suffix = .ok (rcur.reverse ++ suffix) := by
  intro rcur
  induction rcur with
  | nil =>
    intro suffix _ _
    rw [clpRev_nil_eq]
    simp only [List.reverse_nil]
    rw [canonKey_sf_ok fs hsf [] (by intro x hx; cases hx)
      (by intro l hl hl0 _; exact absurd (List.prefix_nil.mp hl) hl0) (Or.inl rfl)]
  | cons c0 cs ih =>
    intro suffix hp hnf
    rw [clpRev_cons_eq]
    by_cases hP : ∀ l, l <+: (c0 :: cs).reverse → l ≠ [] → fs.node l ≠ none
    · have hok : canonKey fs ((c0 :: cs).reverse) = .ok ((c0 :: cs).reverse) := by
        apply canonKey_sf_ok fs hsf _ hp
        · intro l hl hl0 hlk
          cases hnode : fs.node l with
          | none => exact absurd hnode (hP l hl hl0)
          | some n =>
            cases n with
            | dir => rfl
            | file x => exact absurd hnode (hnf l hl hlk hl0 x)
            | symlink t => exact absurd hnode (symFree_node fs hsf l t)
        · by_cases hke : (c0 :: cs).reverse = []
          · exact Or.inl hke
          · right
            cases hnode : fs.node ((c0 :: cs).reverse) with
            | none => exact absurd hnode (hP _ List.prefix_rfl hke)
            | some n =>
              cases n with
              | dir => exact Or.inl rfl
              | file x => exact Or.inr ⟨x, rfl⟩
              | symlink t => exact absurd hnode (symFree_node fs hsf _ t)
      rw [hok]
    · push_neg at hP
      obtain ⟨l0, hl0p, hl0ne, hl0none⟩ := hP
      have hnotfound : canonKey fs ((c0 :: cs).reverse) = .error .notFound := by
        apply canonKey_sf_notFound fs hsf _ hp
        · intro l hl hlne x hx
          by_cases hlk : l = (c0 :: cs).reverse
          · have hl0proper : l0 ≠ l := by
              intro he
              rw [he, hx] at hl0none
              cases hl0none
            have hl0p2 : l0 <+: l := by rw [hlk]; exact hl0p
            have hdir := wf_ancestors fs hwf l l0 (by rw [hx]; simp) hl0p2 hl0proper hl0ne
            rw [hdir] at hl0none
            cases hl0none
          · exact hnf l hl hlk hlne x hx
        · exact ⟨l0, hl0p, hl0ne, hl0none⟩
      rw [hnotfound]
      dsimp only
      have hps : plainKey cs.reverse := by
        intro x hx
        exact hp x (by
          rw [List.mem_reverse] at hx ⊢
          exact List.mem_cons_of_mem c0 hx)
      have hnfs : ∀ l, l <+: cs.reverse → l ≠ cs.reverse → l ≠ [] →
          ∀ c, fs.node l ≠ some (FNode.file c) := by
        intro l hl hlc hl0 c
        apply hnf l
        · rw [List.reverse_cons]
          exact hl.trans ⟨[c0], rfl⟩
        · intro heq
          have h2 := congrArg List.length heq
          have h3 := hl.length_le
          rw [List.length_reverse] at h2 h3
          simp only [List.length_reverse, List.length_cons] at h2 h3
          omega
        · exact hl0
      rw [ih (c0 :: suffix) hps hnfs, List.reverse_cons, List.append_assoc,
        List.singleton_append]

theorem clpRev_sf_blocked (fs : Fs) (hsf : fs.symFree) (hwf : fs.wfFs)
    (rcur suffix : List Seg) (hp : plainKey rcur.reverse)
    (hblk : ∃ l c, l <+: rcur.reverse ∧ l ≠ [] ∧ l ≠ rcur.reverse ∧
      fs.node l = some (FNode.file c)) :
    clpRev fs rcur suffix = .error .canonFail := by
  cases rcur with
  | nil =>
    rcases hblk with ⟨l, c, hl, hl0, hlk, hfile⟩
    rw [List.reverse_nil] at hl
    exact absurd (List.prefix_nil.mp hl) hl0
  | cons c0 cs =>
    rw [clpRev_cons_eq]
    rw [canonKey_sf_blocked fs hsf hwf (c0 :: cs).reverse hp hblk]

theorem clp_sf (fs : Fs) (hsf : fs.symFree) (hwf : fs.wfFs) (n : Key)
    (hp : plainKey n) (hnf : noFileBlock fs n) : clpLoop fs n [] = .ok n := by
  unfold clpLoop
  have h := clpRev_sf fs hsf hwf n.reverse []
    (by rw [List.reverse_reverse]; exact hp)
    (by
      rw [List.reverse_reverse]
      intro l hl hlne _ c
      exact hnf l c hl hlne)
  rw [List.reverse_reverse, List.append_nil] at h
  exact h

theorem clp_sf_blocked (fs : Fs) (hsf : fs.symFree) (hwf : fs.wfFs) (n : Key)
    (hp : plainKey n) (hnf : ¬ noFileBlock fs n) : clpLoop fs n [] = .error .canonFail := by
  unfold noFileBlock at hnf
  push_neg at hnf
  obtain ⟨y, c, hy, hyn, hfile⟩ := hnf
  have hy0 : y ≠ [] := by
    intro h0
    rw [h0, node_nil] at hfile
    cases hfile
  unfold clpLoop
  apply clpRev_sf_blocked fs hsf hwf n.reverse []
    (by rw [List.reverse_reverse]; exact hp)
  rw [List.reverse_reverse]
  exact ⟨y, c, hy, hy0, hyn, hfile⟩

theorem clpfx_sf (fs : Fs) (hsf : fs.symFree) (hwf : fs.wfFs) (p : MPath) (n : Key)
    (hn : normComps p.abs [] p.segs = .ok n) (hnfb : noFileBlock fs n) :
    canonicalize_longest_pfx fs p = .ok n := by
  unfold canonicalize_longest_pfx
  rw [hn]
  dsimp only
  exact clp_sf fs hsf hwf n (normComps_plain p.segs p.abs [] n (by intro x hx; cases hx) hn) hnfb

theorem clpfx_sf_inv (fs : Fs) (hsf : fs.symFree) (hwf : fs.wfFs) (p : MPath) (r : Key)
    (h : canonicalize_longest_pfx fs p = .ok r) :
    ∃ n, normComps p.abs [] p.segs = .ok n ∧ r = n ∧ noFileBlock fs n := by
  unfold canonicalize_longest_pfx at h
  cases hn : normComps p.abs [] p.segs with
  | error e =>
    rw [hn] at h
    dsimp only at h
    cases h
  | ok n =>
    rw [hn] at h
    dsimp only at h
    have hpn : plainKey n := normComps_plain p.segs p.abs [] n (by intro x hx; cases hx) hn
    by_cases hb : noFileBlock fs n
    · rw [clp_sf fs hsf hwf n hpn hb] at h
      injection h with h2
      exact ⟨n, rfl, h2.symm, hb⟩
    · rw [clp_sf_blocked fs hsf hwf n hpn hb] at h
      cases h

theorem canonKey_destReady (fs : Fs) (hsf : fs.symFree) (dest : Key)
    (hpd : plainKey dest) (hdr : destReady fs dest) : canonKey fs dest = .ok dest := by
  apply canonKey_sf_ok fs hsf dest hpd
  · intro l hl hl0 _
    exact hdr l hl hl0
  · by_cases hke : dest = []
    · exact Or.inl hke
    · exact Or.inr (Or.inl (hdr dest List.prefix_rfl hke))

theorem resolve_sf_ok (fs : Fs) (dest : Key) (out : MPath) (n : Key)
    (hsf : fs.symFree) (hwf : fs.wfFs) (hdr : destReady fs dest) (hpd : plainKey dest)
    (hn : normComps (candidate_for dest out).abs [] (candidate_for dest out).segs = .ok n)
    (hnfb : noFileBlock fs n) (hpre : dest <+: n) :
    resolve_within_dir fs dest out = .ok n := by
  unfold resolve_within_dir
  rw [canonKey_destReady fs hsf dest hpd hdr]
  dsimp only
  rw [clpfx_sf fs hsf hwf _ n hn hnfb]
  dsimp only
  rw [if_pos (List.isPrefixOf_iff_prefix.mpr hpre)]

theorem resolve_sf_inv (fs : Fs) (dest : Key) (out : MPath) (r : Key)
    (hsf : fs.symFree) (hwf : fs.wfFs) (hdr : destReady fs dest) (hpd : plainKey dest)
    (h : resolve_within_dir fs dest out = .ok r) :
    ∃ n, normComps (candidate_for dest out).abs [] (candidate_for dest out).segs = .ok n ∧
      r = n ∧ noFileBlock fs n ∧ dest <+: n := by
  unfold resolve_within_dir at h
  rw [canonKey_destReady fs hsf dest hpd hdr] at h
  dsimp only at h
  cases hc : canonicalize_longest_pfx fs (candidate_for dest out) with
  | error e =>
    rw [hc] at h
    dsimp only at h
    cases h
  | ok cc =>
    rw [hc] at h
    dsimp only at h
    obtain ⟨n, hn, hcc, hnfb⟩ := clpfx_sf_inv fs hsf hwf _ cc hc
    by_cases hpre : dest.isPrefixOf cc = true
    · rw [if_pos hpre] at h
      injection h with h2
      subst h2
      exact ⟨n, hn, hcc, hnfb, hcc ▸ List.isPrefixOf_iff_prefix.mp hpre⟩
    · rw [if_neg hpre] at h
      cases h

/-! ## The zip entry loop on symlink-free states -/

theorem zpe_shape (dest : Key) (m : Mapper) (st : ZipState) (e : ZEntry) (st2 : ZipState)
    (hns : e.isSymlink = false)
    (h : zip_process_entry dest m st e = (st2, none)) :
    parse_entry_rel_path e.raw ≠ none ∧
    ((m e.raw = none ∧ st2 = st) ∨
      (∃ out r, m e.raw = some out ∧ resolve_within_dir st.fs dest out = .ok r ∧
        (write_entry st.fs r e.isDir e.content e.unix_mode
          (if e.isDir then none else some e.size)).2 = none ∧
        st2 = ⟨(write_entry st.fs r e.isDir e.content e.unix_mode
          (if e.isDir then none else some e.size)).1, st.pending⟩)) := by
  unfold zip_process_entry at h
  by_cases hparse : parse_entry_rel_path e.raw = none
  · rw [if_pos hparse] at h
    exfalso
    injection h with h1 h2
    cases h2
  · rw [if_neg hparse] at h
    refine ⟨hparse, ?_⟩
    cases hm : m e.raw with
    | none =>
      rw [hm] at h
      dsimp only at h
      injection h with h1 h2
      exact Or.inl ⟨rfl, h1.symm⟩
    | some out =>
      rw [hm] at h
      dsimp only at h
      cases hres : resolve_within_dir st.fs dest out with
      | error er =>
        rw [hres] at h
        dsimp only at h
        injection h with h1 h2
        cases h2
      | ok r =>
        rw [hres] at h
        dsimp only at h
        rw [hns, if_neg (by simp : ¬(false = true))] at h
        cases hw : write_entry st.fs r e.isDir e.content e.unix_mode
            (if e.isDir then none else some e.size) with
        | mk fs2 er =>
          rw [hw] at h
          dsimp only at h
          injection h with h1 h2
          subst h2
          refine Or.inr ⟨out, r, rfl, hres, by rw [hw], ?_⟩
          rw [← h1, hw]

theorem we_dir_props (t : Fs) (r : Key) (hsf : t.symFree) (hwf : t.wfFs) :
    ((create_dir_all t r).1).symFree ∧ ((create_dir_all t r).1).wfFs ∧
      KindLE t (create_dir_all t r).1 ∧
      ((create_dir_all t r).1).chmodFail = t.chmodFail := by
  refine ⟨cdaAux_symFree r t [] hsf, ?_, cdaAux_kindLE r t [], create_dir_all_chmodFail t r⟩
  exact cdaAux_wf r t [] hsf hwf (fun y hy hy0 => absurd (List.prefix_nil.mp hy) hy0)

theorem we_file_props (t : Fs) (r : Key) (c : List Nat) (mode : Option Nat) (sz : Nat)
    (hsf : t.symFree) (hwf : t.wfFs)
    (hok : (write_entry t r false c mode (some sz)).2 = none) :
    ((write_entry t r false c mode (some sz)).1).symFree ∧
      ((write_entry t r false c mode (some sz)).1).wfFs ∧
      KindLE t (write_entry t r false c mode (some sz)).1 ∧
      ((write_entry t r false c mode (some sz)).1).chmodFail = t.chmodFail ∧
      ((write_entry t r false c mode (some sz)).1).node r = some (FNode.file c) ∧
      (∀ y, y <+: r → y ≠ r → y ≠ [] →
        ((write_entry t r false c mode (some sz)).1).node y = some FNode.dir) := by
  obtain ⟨hk, hsz, hnf, hnd, hpm, heq⟩ := write_entry_file_inv t r c mode sz hsf hok
  have hcda : (create_dir_all t r.dropLast).2 = none := by
    apply cdaAux_ok_of r.dropLast t [] hsf
    intro l hl hl0 c0
    rw [List.nil_append]
    exact hnf l hl hl0 c0
  have hsf1 : ((create_dir_all t r.dropLast).1).symFree := cdaAux_symFree r.dropLast t [] hsf
  have hfr := cda_dropLast_frame t r hk
  have hpost : ∀ l, l <+: r.dropLast → l ≠ [] →
      ((create_dir_all t r.dropLast).1).node l = some FNode.dir := by
    intro l hl hl0
    have h2 := cdaAux_post_dirs r.dropLast t [] hsf hcda l hl hl0
    rw [List.nil_append] at h2
    exact h2
  have hnd1 : ((create_dir_all t r.dropLast).1).node r ≠ some FNode.dir := by
    rw [hfr]
    exact hnd
  rw [heq]
  refine ⟨symFree_set _ r (FNode.file c) hsf1 rfl, ?_, ?_, ?_, node_set_self _ r (FNode.file c) hk, ?_⟩
  · apply wf_set _ r (FNode.file c)
      (cdaAux_wf r.dropLast t [] hsf hwf (fun y hy hy0 => absurd (List.prefix_nil.mp hy) hy0))
      hk
    · intro y hy hyr hy0
      exact hpost y (proper_prefix_dropLast hy hyr) hy0
    · intro hd
      exact absurd hd hnd1
  · exact kindLE_trans (cdaAux_kindLE r.dropLast t [])
      (kindLE_set_file _ r c hk hnd1)
  · rw [set_chmodFail]
    exact create_dir_all_chmodFail t r.dropLast
  · intro y hy hyr hy0
    rw [node_set_other _ r (FNode.file c) y hyr]
    exact hpost y (proper_prefix_dropLast hy hyr) hy0

theorem zipLoop_inv (dest : Key) (m : Mapper) :
    ∀ (es : List ZEntry) (t : Fs) (stf : ZipState),
    (∀ e ∈ es, e.isSymlink = false) →
    t.symFree → t.wfFs → destReady t dest →
    zipLoop dest m ⟨t, []⟩ es = (stf, none) →
    stf.pending = [] ∧ stf.fs.symFree ∧ stf.fs.wfFs ∧ destReady stf.fs dest ∧
      KindLE t stf.fs ∧ stf.fs.chmodFail = t.chmodFail := by
  intro es
  induction es with
  | nil =>
    intro t stf _ hsf hwf hdr h
    rw [zipLoop_nil] at h
    injection h with h1 _
    subst h1
    exact ⟨rfl, hsf, hwf, hdr, kindLE_refl t, rfl⟩
  | cons e rest ih =>
    intro t stf hE hsf hwf hdr h
    rw [zipLoop_cons] at h
    cases hz : zip_process_entry dest m ⟨t, []⟩ e with
    | mk st1 er =>
      rw [hz] at h
      cases er with
      | some er2 =>
        dsimp only at h
        injection h with _ h2
        cases h2
      | none =>
        dsimp only at h
        obtain ⟨hparse, hcases⟩ :=
          zpe_shape dest m ⟨t, []⟩ e st1 (hE e (List.mem_cons_self e rest)) hz
        have hErest : ∀ x ∈ rest, x.isSymlink = false :=
          fun x hx => hE x (List.mem_cons_of_mem e hx)
        rcases hcases with ⟨_, hst⟩ | ⟨out, r, hm, hres, hwok, hst⟩
        · subst hst
          exact ih t stf hErest hsf hwf hdr h
        · subst hst
          cases hd : e.isDir with
          | true =>
            rw [hd] at h
            rw [write_entry_dir_eq] at h
            obtain ⟨hsf1, hwf1, hkl1, hcm1⟩ := we_dir_props t r hsf hwf
            obtain ⟨hp1, hs1, hw1, hd1, hk1, hc1⟩ :=
              ih (create_dir_all t r).1 stf hErest hsf1 hwf1
                (destReady_of_kindLE hkl1 hdr) h
            exact ⟨hp1, hs1, hw1, hd1, kindLE_trans hkl1 hk1, hc1.trans hcm1⟩
          | false =>
            rw [hd] at h hwok
            rw [if_neg (by simp : ¬(false = true))] at h hwok
            obtain ⟨hsf1, hwf1, hkl1, hcm1, _, _⟩ :=
              we_file_props t r e.content e.unix_mode e.size hsf hwf hwok
            obtain ⟨hp1, hs1, hw1, hd1, hk1, hc1⟩ :=
              ih (write_entry t r false e.content e.unix_mode (some e.size)).1 stf hErest
                hsf1 hwf1 (destReady_of_kindLE hkl1 hdr) h
            exact ⟨hp1, hs1, hw1, hd1, kindLE_trans hkl1 hk1, hc1.trans hcm1⟩

theorem prefix_dropLast_ne {α : Type} {l n : List α} (h : l <+: n.dropLast) (hn : n ≠ []) :
    l ≠ n := by
  intro he
  have h2 := h.length_le
  rw [List.length_dropLast] at h2
  have h3 : 0 < n.length := List.length_pos.mpr hn
  rw [he] at h2
  omega

theorem zipLoop_replay (dest : Key) (m : Mapper) (hpd : plainKey dest) :
    ∀ (es : List ZEntry) (t u fsf : Fs) (pf : List QueuedSymlink),
    (∀ e ∈ es, e.isSymlink = false) →
    t.symFree → t.wfFs → destReady t dest →
    u.symFree → u.wfFs → destReady u dest →
    u.chmodFail = t.chmodFail →
    (∀ k, u.node k = t.node k ∨ u.node k = fsf.node k) →
    zipLoop dest m ⟨t, []⟩ es = (⟨fsf, pf⟩, none) →
    ∃ u2, zipLoop dest m ⟨u, []⟩ es = (⟨u2, []⟩, none) ∧
      (∀ k, u2.node k = fsf.node k) ∧ u2.chmodFail = t.chmodFail := by
  intro es
  induction es with
  | nil =>
    intro t u fsf pf _ htsf htwf htdr husf huwf hudr hcm hJ h
    rw [zipLoop_nil] at h
    injection h with h1 _
    have h2 : t = fsf := congrArg ZipState.fs h1
    refine ⟨u, by rw [zipLoop_nil], ?_, hcm⟩
    intro k
    rcases hJ k with hJk | hJk
    · rw [hJk, h2]
    · exact hJk
  | cons e rest ih =>
    intro t u fsf pf hE htsf htwf htdr husf huwf hudr hcm hJ h
    rw [zipLoop_cons] at h
    cases hz : zip_process_entry dest m ⟨t, []⟩ e with
    | mk st1 er =>
      rw [hz] at h
      cases er with
      | some er2 =>
        dsimp only at h
        injection h with _ h2
        cases h2
      | none =>
        dsimp only at h
        have hns := hE e (List.mem_cons_self e rest)
        have hErest : ∀ x ∈ rest, x.isSymlink = false :=
          fun x hx => hE x (List.mem_cons_of_mem e hx)
        obtain ⟨hparse, hcases⟩ := zpe_shape dest m ⟨t, []⟩ e st1 hns hz
        rcases hcases with ⟨hm, hst⟩ | ⟨out, r, hm, hres, hwok, hst⟩
        · subst hst
          have hz2 : zip_process_entry dest m ⟨u, []⟩ e = (⟨u, []⟩, none) := by
            unfold zip_process_entry
            rw [if_neg hparse, hm]
          obtain ⟨u2, hl2, hJ2, hc2⟩ :=
            ih t u fsf pf hErest htsf htwf htdr husf huwf hudr hcm hJ h
          refine ⟨u2, ?_, hJ2, hc2⟩
          rw [zipLoop_cons, hz2]
          exact hl2
        · subst hst
          obtain ⟨n, hn, hrn, hnfbt, hprefix⟩ :=
            resolve_sf_inv t dest out r htsf htwf htdr hpd hres
          subst hrn
          cases hd : e.isDir with
          | true =>
            rw [hd] at h hwok
            rw [write_entry_dir_eq] at h hwok
            obtain ⟨hsf1, hwf1, hkl1, hcm1⟩ := we_dir_props t r htsf htwf
            obtain ⟨hpf, hsff, hwff, hdrf, hklf, hcmf⟩ :=
              zipLoop_inv dest m rest _ ⟨fsf, pf⟩ hErest hsf1 hwf1
                (destReady_of_kindLE hkl1 htdr) h
            have hpost_t : ∀ l, l <+: r → l ≠ [] →
                (create_dir_all t r).1.node l = some FNode.dir := by
              intro l hl hl0
              have h2 := cdaAux_post_dirs r t [] htsf hwok l hl hl0
              rw [List.nil_append] at h2
              exact h2
            have hnofile_t : ∀ l, l <+: r → l ≠ [] → ∀ c0,
                t.node l ≠ some (FNode.file c0) := by
              intro l hl hl0 c0
              have h2 := cdaAux_nofile_of_ok r t [] htsf hwok l hl hl0 c0
              rw [List.nil_append] at h2
              exact h2
            have hfsf_dirs : ∀ y, y <+: r → y ≠ [] → fsf.node y = some FNode.dir :=
              fun y hy hy0 => (hklf y).1 (hpost_t y hy hy0)
            have hnfbu : noFileBlock u r := by
              intro y c hy hyn hfc
              by_cases hy0 : y = []
              · rw [hy0, node_nil] at hfc
                cases hfc
              · rcases hJ y with hJy | hJy
                · rw [hJy] at hfc
                  exact hnofile_t y hy hy0 c hfc
                · rw [hJy, hfsf_dirs y hy hy0] at hfc
                  cases hfc
            have hres2 := resolve_sf_ok u dest out r husf huwf hudr hpd hn hnfbu hprefix
            have hwok2 : (create_dir_all u r).2 = none := by
              apply cdaAux_ok_of r u [] husf
              intro l hl hl0 c0 hfc
              rw [List.nil_append] at hfc
              rcases hJ l with hJl | hJl
              · rw [hJl] at hfc
                exact hnofile_t l hl hl0 c0 hfc
              · rw [hJl, hfsf_dirs l hl hl0] at hfc
                cases hfc
            have hpost_u : ∀ l, l <+: r → l ≠ [] →
                (create_dir_all u r).1.node l = some FNode.dir := by
              intro l hl hl0
              have h2 := cdaAux_post_dirs r u [] husf hwok2 l hl hl0
              rw [List.nil_append] at h2
              exact h2
            obtain ⟨usf1, uwf1, ukl1, ucm1⟩ := we_dir_props u r husf huwf
            have hJ1 : ∀ k, (create_dir_all u r).1.node k = (create_dir_all t r).1.node k ∨
                (create_dir_all u r).1.node k = fsf.node k := by
              intro k
              by_cases hk0 : k = []
              · left
                rw [hk0, node_nil, node_nil]
              · by_cases hkp : k <+: r
                · left
                  rw [hpost_u k hkp hk0, hpost_t k hkp hk0]
                · have hfru : (create_dir_all u r).1.node k = u.node k := by
                    unfold create_dir_all
                    apply cdaAux_frame
                    intro l hl hl0 hkeq
                    exact hkp (by rw [hkeq, List.nil_append]; exact hl)
                  have hfrt : (create_dir_all t r).1.node k = t.node k := by
                    unfold create_dir_all
                    apply cdaAux_frame
                    intro l hl hl0 hkeq
                    exact hkp (by rw [hkeq, List.nil_append]; exact hl)
                  rcases hJ k with hJk | hJk
                  · left
                    rw [hfru, hfrt, hJk]
                  · right
                    rw [hfru, hJk]
            obtain ⟨u2, hl2, hJ2, hc2⟩ :=
              ih (create_dir_all t r).1 (create_dir_all u r).1 fsf pf hErest hsf1 hwf1
                (destReady_of_kindLE hkl1 htdr) usf1 uwf1 (destReady_of_kindLE ukl1 hudr)
                (ucm1.trans (hcm.trans hcm1.symm)) hJ1 h
            refine ⟨u2, ?_, hJ2, hc2.trans hcm1⟩
            rw [zipLoop_cons]
            have hz2 : zip_process_entry dest m ⟨u, []⟩ e =
                (⟨(create_dir_all u r).1, []⟩, none) := by
              unfold zip_process_entry
              rw [if_neg hparse, hm]
              dsimp only
              rw [hres2]
              dsimp only
              rw [hns, if_neg (by simp : ¬(false = true)), hd, write_entry_dir_eq]
              cases hcu : create_dir_all u r with
              | mk uf ue =>
                rw [hcu] at hwok2
                dsimp only at hwok2
                subst hwok2
                rfl
            rw [hz2]
            exact hl2
          | false =>
            rw [hd] at h hwok
            rw [if_neg (by simp : ¬(false = true))] at h hwok
            obtain ⟨hk, hsz, hnf, hnd, hpm, heq⟩ :=
              write_entry_file_inv t r e.content e.unix_mode e.size htsf hwok
            obtain ⟨hsf1, hwf1, hkl1, hcm1, hfile1, hdirs1⟩ :=
              we_file_props t r e.content e.unix_mode e.size htsf htwf hwok
            obtain ⟨hpf, hsff, hwff, hdrf, hklf, hcmf⟩ :=
              zipLoop_inv dest m rest _ ⟨fsf, pf⟩ hErest hsf1 hwf1
                (destReady_of_kindLE hkl1 htdr) h
            have hfsf_dirs : ∀ y, y <+: r → y ≠ r → y ≠ [] → fsf.node y = some FNode.dir :=
              fun y hy hyn hy0 => (hklf y).1 (hdirs1 y hy hyn hy0)
            have hfsf_file : ∃ c', fsf.node r = some (FNode.file c') :=
              (hklf r).2 e.content hfile1
            have hnfbu : noFileBlock u r := by
              intro y c hy hyn hfc
              by_cases hy0 : y = []
              · rw [hy0, node_nil] at hfc
                cases hfc
              · rcases hJ y with hJy | hJy
                · rw [hJy] at hfc
                  exact hnfbt y c hy hyn hfc
                · rw [hJy, hfsf_dirs y hy hyn hy0] at hfc
                  cases hfc
            have hres2 := resolve_sf_ok u dest out r husf huwf hudr hpd hn hnfbu hprefix
            have hnf2 : ∀ l, l <+: r.dropLast → l ≠ [] → ∀ c0,
                u.node l ≠ some (FNode.file c0) := by
              intro l hl hl0 c0 hfc
              rcases hJ l with hJl | hJl
              · rw [hJl] at hfc
                exact hnf l hl hl0 c0 hfc
              · rw [hJl, hfsf_dirs l (hl.trans (List.dropLast_prefix r))
                  (prefix_dropLast_ne hl hk) hl0] at hfc
                cases hfc
            have hnd2 : u.node r ≠ some FNode.dir := by
              rcases hJ r with hJn | hJn
              · rw [hJn]
                exact hnd
              · rw [hJn]
                obtain ⟨c', hc'⟩ := hfsf_file
                rw [hc']
                intro h2
                injection h2 with h3
                cases h3
            have hpm2 : e.unix_mode = none ∨ r ∉ u.chmodFail := by
              rcases hpm with hpm | hpm
              · exact Or.inl hpm
              · right
                rw [hcm]
                exact hpm
            have hw2 := write_entry_file_ok u r e.content e.unix_mode e.size husf hk
              hnf2 hnd2 hsz hpm2
            obtain ⟨usf1, uwf1, ukl1, ucm1, ufile1, udirs1⟩ :=
              we_file_props u r e.content e.unix_mode e.size husf huwf (by rw [hw2])
            have hJ1 : ∀ k,
                (write_entry u r false e.content e.unix_mode (some e.size)).1.node k =
                  (write_entry t r false e.content e.unix_mode (some e.size)).1.node k ∨
                (write_entry u r false e.content e.unix_mode (some e.size)).1.node k =
                  fsf.node k := by
              intro k
              by_cases hkn : k = r
              · left
                rw [hkn, ufile1, hfile1]
              · by_cases hk0 : k = []
                · left
                  rw [hk0, node_nil, node_nil]
                · by_cases hkp : k <+: r.dropLast
                  · left
                    rw [udirs1 k (hkp.trans (List.dropLast_prefix r)) hkn hk0,
                      hdirs1 k (hkp.trans (List.dropLast_prefix r)) hkn hk0]
                  · have hfru : (write_entry u r false e.content e.unix_mode
                        (some e.size)).1.node k = u.node k := by
                      rw [hw2]
                      dsimp only
                      rw [node_set_other _ r (FNode.file e.content) k hkn]
                      unfold create_dir_all
                      apply cdaAux_frame
                      intro l hl hl0 hkeq
                      exact hkp (by rw [hkeq, List.nil_append]; exact hl)
                    have hfrt : (write_entry t r false e.content e.unix_mode
                        (some e.size)).1.node k = t.node k := by
                      rw [heq]
                      rw [node_set_other _ r (FNode.file e.content) k hkn]
                      unfold create_dir_all
                      apply cdaAux_frame
                      intro l hl hl0 hkeq
                      exact hkp (by rw [hkeq, List.nil_append]; exact hl)
                    rcases hJ k with hJk | hJk
                    · left
                      rw [hfru, hfrt, hJk]
                    · right
                      rw [hfru, hJk]
            obtain ⟨u2, hl2, hJ2, hc2⟩ :=
              ih (write_entry t r false e.content e.unix_mode (some e.size)).1
                (write_entry u r false e.content e.unix_mode (some e.size)).1 fsf pf
                hErest hsf1 hwf1 (destReady_of_kindLE hkl1 htdr) usf1 uwf1
                (destReady_of_kindLE ukl1 hudr) (ucm1.trans (hcm.trans hcm1.symm)) hJ1 h
            refine ⟨u2, ?_, hJ2, hc2.trans hcm1⟩
            rw [zipLoop_cons]
            have hz2 : zip_process_entry dest m ⟨u, []⟩ e =
                (⟨(write_entry u r false e.content e.unix_mode (some e.size)).1, []⟩,
                  none) := by
              unfold zip_process_entry
              rw [if_neg hparse, hm]
              dsimp only
              rw [hres2]
              dsimp only
              rw [hns, if_neg (by simp : ¬(false = true)), hd,
                if_neg (by simp : ¬(false = true))]
              cases hwu : write_entry u r false e.content e.unix_mode (some e.size) with
              | mk uf ue =>
                rw [hwu] at hw2
                injection hw2 with hw21 hw22
                subst hw22
                rfl
            rw [hz2]
            exact hl2

/-- C9: on a symlink-free well-formed host filesystem with a dot-free
destination path, extracting a zip archive that contains only file and
directory entries is idempotent: if the first extraction succeeds,
running the same extraction again over its result succeeds as well,
directories tolerate re-creation, files are truncated and rewritten with
the same content, and the resulting file tree is node-for-node equal to
the tree after the first run. -/
theorem c9_idempotent_reextraction (fs : Fs) (dest : Key) (m : Mapper) (es : List ZEntry)
    (fs1 : Fs) (hsf : fs.symFree) (hwf : fs.wfFs) (hpd : plainKey dest)
    (hE : ∀ e ∈ es, e.isSymlink = false)
    (h1 : extract_zip_mapped fs dest m es = (fs1, none)) :
    ∃ fs2, extract_zip_mapped fs1 dest m es = (fs2, none) ∧
      ∀ k, fs2.node k = fs1.node k := by
  unfold extract_zip_mapped at h1
  cases hc : create_dir_all fs dest with
  | mk fsB e0 =>
    rw [hc] at h1
    cases e0 with
    | some e =>
      dsimp only at h1
      injection h1 with _ h2
      cases h2
    | none =>
      dsimp only at h1
      have hcda : (create_dir_all fs dest).2 = none := by rw [hc]
      have hsfB : fsB.symFree := by
        have h2 : ((create_dir_all fs dest).1).symFree := cdaAux_symFree dest fs [] hsf
        rw [hc] at h2
        exact h2
      have hwfB : fsB.wfFs := by
        have h2 : ((create_dir_all fs dest).1).wfFs :=
          cdaAux_wf dest fs [] hsf hwf (fun y hy hy0 => absurd (List.prefix_nil.mp hy) hy0)
        rw [hc] at h2
        exact h2
      have hdrB : destReady fsB dest := by
        intro l hl hl0
        have h2 : ((create_dir_all fs dest).1).node ([] ++ l) = some FNode.dir :=
          cdaAux_post_dirs dest fs [] hsf hcda l hl hl0
        rw [List.nil_append, hc] at h2
        exact h2
      cases hz1 : zipLoop dest m ⟨fsB, []⟩ es with
      | mk stf ez =>
        rw [hz1] at h1
        cases ez with
        | some e =>
          dsimp only at h1
          injection h1 with _ h2
          cases h2
        | none =>
          dsimp only at h1
          cases stf with
          | mk fsf pend =>
            obtain ⟨hpf, hsff, hwff, hdrf, hklf, hcmf⟩ :=
              zipLoop_inv dest m es fsB ⟨fsf, pend⟩ hE hsfB hwfB hdrB hz1
            dsimp only at hpf hcmf hsff hwff hdrf hklf
            subst hpf
            have h2 : (fsf, (none : Option XErr)) = (fs1, none) := h1
            injection h2 with h3 _
            obtain ⟨u2, hl2, hJ2, hc2⟩ :=
              zipLoop_replay dest m hpd es fsB fsf fsf [] hE hsfB hwfB hdrB
                hsff hwff hdrf hcmf (fun _ => Or.inr rfl) hz1
            refine ⟨u2, ?_, by rw [← h3]; exact hJ2⟩
            unfold extract_zip_mapped
            rw [show create_dir_all fs1 dest = (fs1, none) from by
              rw [← h3]; exact create_dir_all_id fsf dest hdrf]
            dsimp only
            rw [show zipLoop dest m ⟨fs1, []⟩ es = (⟨u2, []⟩, none) from by
              rw [← h3]; exact hl2]
            rfl

theorem c9_witness :
    (fsDestOnly.symFree ∧ fsDestOnly.wfFs ∧ plainKey destKey ∧
      (∀ e ∈ c9Entries, e.isSymlink = false) ∧
      extract_zip_mapped fsDestOnly destKey c9Mapper c9Entries = (c9Fs1, none)) ∧
    ∃ fs2, extract_zip_mapped c9Fs1 destKey c9Mapper c9Entries = (fs2, none) ∧
      ∀ k, fs2.node k = c9Fs1.node k :=
  ⟨⟨by decide, by decide, by decide, by decide, by decide⟩,
    c9_idempotent_reextraction fsDestOnly destKey c9Mapper c9Entries c9Fs1
      (by decide) (by decide) (by decide) (by decide) (by decide)⟩

/-- C8 counterexample: a link-free well-formed tree holding one file
whose name contains a backslash ("a\b", a legal unix filename) packs and
flatten-extracts without error in both formats, but the round trip does
not reproduce the tree: the extractor rewrites the backslash as a
separator, so no file exists at the original relative path and the bytes
land at the relocated path a/b instead. -/
theorem c8_counterexample :
    wfTreeB bsTree = true ∧
    treeFile bsTree [str "a\\b"] = some [9] ∧
    (extract_zip_flat fsDestOnly destKey
      (append_dir_tree_to_zip (str "p") (some 420) bsTree)).2 = none ∧
    fileAt (extract_zip_flat fsDestOnly destKey
      (append_dir_tree_to_zip (str "p") (some 420) bsTree)).1
      (destKey ++ [str "a\\b"]) = none ∧
    fileAt (extract_zip_flat fsDestOnly destKey
      (append_dir_tree_to_zip (str "p") (some 420) bsTree)).1
      [str "dest", str "a", str "b"] = some [9] ∧
    (extract_tar_gz_flat fsDestOnly destKey
      (append_dir_to_tar (str "p") bsTree)).2 = none ∧
    fileAt (extract_tar_gz_flat fsDestOnly destKey
      (append_dir_to_tar (str "p") bsTree)).1 (destKey ++ [str "a\\b"]) = none ∧
    fileAt (extract_tar_gz_flat fsDestOnly destKey
      (append_dir_to_tar (str "p") bsTree)).1 [str "dest", str "a", str "b"] =
      some [9] := by
  refine ⟨by decide, by decide, by decide, by decide, by decide, by decide, by decide,
    by decide⟩

/-! ## Walk and pack decomposition lemmas -/

theorem walkTree_eq (files : List (Seg × List Nat × Nat)) (dirs : List (Seg × FTree)) :
    walkTree (.node files dirs) =
      files.map (fun f => ([f.1], PItem.pfile f.2.1 f.2.2)) ++ walkDirList dirs := rfl

theorem walkDirList_nil : walkDirList [] = [] := rfl

theorem walkDirList_cons (n : Seg) (sub : FTree) (rest : List (Seg × FTree)) :
    walkDirList ((n, sub) :: rest) =
      ([n], PItem.pdir) ::
        ((walkTree sub).map (fun p => (n :: p.1, p.2)) ++ walkDirList rest) := rfl

theorem append_zip_eq (pfx : Seg) (omode : Option Nat) (t : FTree) :
    append_dir_tree_to_zip pfx omode t = (walkTree t).map (packZipItem pfx omode) := by
  unfold append_dir_tree_to_zip
  exact List.map_congr_left (fun p _ => rfl)

theorem append_tar_eq (pfx : Seg) (t : FTree) :
    append_dir_to_tar pfx t = (walkTree t).map (packTarItem pfx) := by
  unfold append_dir_to_tar
  exact List.map_congr_left (fun p _ => rfl)

theorem shiftItems_append (pos : List Seg) (l1 l2 : List (List Seg × PItem)) :
    shiftItems pos (l1 ++ l2) = shiftItems pos l1 ++ shiftItems pos l2 :=
  List.map_append _ l1 l2

theorem shiftItems_cons (pos : List Seg) (p : List Seg × PItem) (l : List (List Seg × PItem)) :
    shiftItems pos (p :: l) = (pos ++ p.1, p.2) :: shiftItems pos l := rfl

theorem shiftItems_shift (pos : List Seg) (n : Seg) (l : List (List Seg × PItem)) :
    shiftItems pos (l.map (fun p => (n :: p.1, p.2))) = shiftItems (pos ++ [n]) l := by
  unfold shiftItems
  rw [List.map_map]
  apply List.map_congr_left
  intro p _
  show (pos ++ (n :: p.1), p.2) = ((pos ++ [n]) ++ p.1, p.2)
  rw [List.append_assoc, List.singleton_append]

theorem shiftItems_nil_pos (l : List (List Seg × PItem)) : shiftItems [] l = l := by
  unfold shiftItems
  simp

theorem fileListNodeAt_nil_path (files : List (Seg × List Nat × Nat)) :
    fileListNodeAt files [] = none := rfl

theorem fileListNodeAt_single (files : List (Seg × List Nat × Nat)) (x : Seg) :
    fileListNodeAt files [x] =
      (match files.find? (fun f => f.1 == x) with
      | some f => some (.file f.2.1)
      | none => none) := rfl

theorem fileListNodeAt_long (files : List (Seg × List Nat × Nat)) (x y : Seg) (r : List Seg) :
    fileListNodeAt files (x :: y :: r) = none := rfl

theorem dirListNodeAt_nil_path (ds : List (Seg × FTree)) : dirListNodeAt ds [] = none := rfl

theorem dirListNodeAt_single (ds : List (Seg × FTree)) (x : Seg) :
    dirListNodeAt ds [x] =
      (match ds.find? (fun d => d.1 == x) with
      | some _ => some FNode.dir
      | none => none) := rfl

theorem dirListNodeAt_long (ds : List (Seg × FTree)) (x y : Seg) (r : List Seg) :
    dirListNodeAt ds (x :: y :: r) =
      (match ds.find? (fun d => d.1 == x) with
      | some d => treeNodeAt d.2 (y :: r)
      | none => none) := rfl

theorem treeNodeAt_nil_path (t : FTree) : treeNodeAt t [] = none := by
  cases t
  rfl

theorem treeNodeAt_decomp (files : List (Seg × List Nat × Nat)) (dirs : List (Seg × FTree))
    (q : List Seg) :
    treeNodeAt (.node files dirs) q =
      (match fileListNodeAt files q with
      | some nd => some nd
      | none => dirListNodeAt dirs q) := by
  cases q with
  | nil => rfl
  | cons x r =>
    cases r with
    | nil =>
      show (match files.find? (fun f => f.1 == x) with
        | some f => some (FNode.file f.2.1)
        | none =>
          match dirs.find? (fun d : Seg × FTree => d.1 == x) with
          | some _ => some FNode.dir
          | none => none) = _
      rw [fileListNodeAt_single]
      cases files.find? (fun f => f.1 == x) with
      | some f => rfl
      | none => rfl
    | cons y rr =>
      rw [fileListNodeAt_long]
      rfl

theorem treeFile_treeNodeAt : ∀ (q : List Seg) (t : FTree) (c : List Nat),
    treeFile t q = some c ↔ treeNodeAt t q = some (FNode.file c) := by
  intro q
  induction q with
  | nil =>
    intro t c
    rw [treeNodeAt_nil_path]
    cases t
    constructor
    · intro h
      cases h
    · intro h
      cases h
  | cons x r ih =>
    intro t c
    cases t with
    | node files dirs =>
      cases r with
      | nil =>
        show ((files.find? (fun f => f.1 == x)).map (fun f => f.2.1) = some c) ↔ _
        rw [show treeNodeAt (.node files dirs) [x] =
          (match files.find? (fun f => f.1 == x) with
          | some f => some (FNode.file f.2.1)
          | none =>
            match dirs.find? (fun d => d.1 == x) with
            | some _ => some FNode.dir
            | none => none) from rfl]
        cases files.find? (fun f => f.1 == x) with
        | some f =>
          constructor
          · intro h
            have h2 : some f.2.1 = some c := h
            injection h2 with h3
            show some (FNode.file f.2.1) = some (FNode.file c)
            rw [h3]
          · intro h
            injection h with h2
            injection h2 with h3
            show Option.map (fun f : Seg × List Nat × Nat => f.2.1) (some f) = some c
            rw [← h3]
            rfl
        | none =>
          constructor
          · intro h
            have h2 : (none : Option (List Nat)) = some c := h
            cases h2
          · intro h
            cases hd : dirs.find? (fun d : Seg × FTree => d.1 == x) with
            | some d => rw [hd] at h; cases h
            | none => rw [hd] at h; cases h
      | cons y rr =>
        show (match dirs.find? (fun d => d.1 == x) with
          | some d => treeFile d.2 (y :: rr)
          | none => none) = some c ↔
          (match dirs.find? (fun d => d.1 == x) with
          | some d => treeNodeAt d.2 (y :: rr)
          | none => none) = some (FNode.file c)
        cases dirs.find? (fun d => d.1 == x) with
        | some d => exact ih d.2 c
        | none =>
          constructor
          · intro h
            cases h
          · intro h
            cases h

theorem prefix_append_cases {α : Type} {y a b : List α} (h : y <+: a ++ b) :
    y <+: a ∨ ∃ z, y = a ++ z ∧ z <+: b := by
  have htake := List.prefix_iff_eq_take.mp h
  by_cases hle : y.length ≤ a.length
  · left
    have h2 : y = a.take y.length := htake.trans (List.take_append_of_le_length hle)
    exact List.prefix_iff_eq_take.mpr h2
  · right
    rw [List.take_append_eq_append_take,
      List.take_of_length_le (by omega : a.length ≤ y.length)] at htake
    exact ⟨b.take (y.length - a.length), htake, List.take_prefix _ b⟩

theorem zipLoop_append (dest : Key) (m : Mapper) :
    ∀ (l1 l2 : List ZEntry) (st : ZipState),
    zipLoop dest m st (l1 ++ l2) =
      match zipLoop dest m st l1 with
      | (st1, none) => zipLoop dest m st1 l2
      | (st1, some e) => (st1, some e) := by
  intro l1
  induction l1 with
  | nil =>
    intro l2 st
    rw [List.nil_append, zipLoop_nil]
  | cons e rest ih =>
    intro l2 st
    rw [List.cons_append, zipLoop_cons, zipLoop_cons]
    cases hz : zip_process_entry dest m st e with
    | mk st1 er =>
      cases er with
      | none =>
        dsimp only
        exact ih l2 st1
      | some e2 => rfl

theorem validSeg_props (s : Seg) (hv : validSegB s = true) (hnb : segNoBackslash s = true) :
    s ≠ [] ∧ s ≠ dotSeg ∧ s ≠ dotdotSeg ∧ '/' ∉ s ∧ '\\' ∉ s := by
  unfold validSegB at hv
  unfold segNoBackslash at hnb
  simp only [Bool.and_eq_true, bne_iff_ne, ne_eq, Bool.not_eq_true'] at hv
  simp only [Bool.not_eq_true'] at hnb
  refine ⟨hv.1.1.1, hv.1.1.2, hv.1.2, ?_, ?_⟩
  · intro hmem
    have h2 : s.contains '/' = true := List.elem_eq_true_of_mem hmem
    rw [hv.2] at h2
    cases h2
  · intro hmem
    have h2 : s.contains '\\' = true := List.elem_eq_true_of_mem hmem
    rw [hnb] at h2
    cases h2

theorem normComps_id (abs : Bool) : ∀ (l acc : List Seg), plainKey l →
    normComps abs acc l = .ok (acc ++ l) := by
  intro l
  induction l with
  | nil =>
    intro acc _
    rw [List.append_nil]
    rfl
  | cons s rest ih =>
    intro acc hp
    have hps : plainSeg s := hp s (List.mem_cons_self s rest)
    unfold normComps
    rw [if_neg hps.1, if_neg hps.2, ih (acc ++ [s])
      (fun x hx => hp x (List.mem_cons_of_mem s hx))]
    rw [List.append_assoc, List.singleton_append]

theorem cdaAux_snoc_new (s : Seg) : ∀ (b : List Seg) (fs : Fs) (base : Key),
    (∀ l, l <+: b → l ≠ [] → fs.node (base ++ l) = some FNode.dir) →
    fs.node (base ++ (b ++ [s])) = none →
    cdaAux fs base (b ++ [s]) = (fs.set (base ++ (b ++ [s])) FNode.dir, none) := by
  intro b
  induction b with
  | nil =>
    intro fs base _ hnew
    rw [List.nil_append] at hnew
    show cdaAux fs base [s] = _
    unfold cdaAux
    unfold mkdirOne
    rw [hnew]
    dsimp only
    rw [List.nil_append]
    rfl
  | cons x b2 ih =>
    intro fs base hpre hnew
    rw [List.cons_append]
    unfold cdaAux
    have hdir : fs.node (base ++ [x]) = some FNode.dir := hpre [x] ⟨b2, rfl⟩ (by simp)
    have hone : mkdirOne fs (base ++ [x]) = (fs, none) := by
      unfold mkdirOne
      rw [hdir]
    rw [hone]
    dsimp only
    have hrec := ih fs (base ++ [x]) (by
      intro l hl hl0
      rw [List.append_assoc, List.singleton_append]
      exact hpre (x :: l) (prefix_cons_intro x hl) (by simp))
      (by
        rw [List.append_assoc, List.singleton_append]
        exact hnew)
    rw [hrec, List.append_assoc, List.singleton_append]

theorem cda_last_new (fs : Fs) (b : Key) (s : Seg)
    (hpre : ∀ l, l <+: b → l ≠ [] → fs.node l = some FNode.dir)
    (hnew : fs.node (b ++ [s]) = none) :
    create_dir_all fs (b ++ [s]) = (fs.set (b ++ [s]) FNode.dir, none) := by
  unfold create_dir_all
  have h2 := cdaAux_snoc_new s b fs []
    (by intro l hl hl0; rw [List.nil_append]; exact hpre l hl hl0)
    (by rw [List.nil_append]; exact hnew)
  rw [h2, List.nil_append]

theorem packZipItem_file (pfx : Seg) (omode : Option Nat) (q : List Seg) (c : List Nat)
    (fm : Nat) :
    packZipItem pfx omode (q, .pfile c fm) =
      ⟨joinSlash (pfx :: q), false, false, c, omode, c.length⟩ := rfl

theorem packZipItem_dir (pfx : Seg) (omode : Option Nat) (q : List Seg) :
    packZipItem pfx omode (q, .pdir) =
      ⟨joinSlash (pfx :: q) ++ ['/'], false, true, [], omode, 0⟩ := rfl

theorem pack_segs_valid (pfx : Seg) (hvp : validSegB pfx = true)
    (hnbp : segNoBackslash pfx = true)
    (π : List Seg) (hπ : ∀ s ∈ π, validSegB s = true ∧ segNoBackslash s = true)
    (x : Seg) (hx : validSegB x = true ∧ segNoBackslash x = true) :
    ∀ s ∈ pfx :: (π ++ [x]), s ≠ [] ∧ s ≠ dotSeg ∧ s ≠ dotdotSeg ∧ '/' ∉ s ∧ '\\' ∉ s := by
  intro s hs
  rcases List.mem_cons.mp hs with hs | hs
  · rw [hs]
    exact validSeg_props pfx hvp hnbp
  · rcases List.mem_append.mp hs with hs | hs
    · have h2 := hπ s hs
      exact validSeg_props s h2.1 h2.2
    · rw [List.mem_singleton.mp hs]
      exact validSeg_props x hx.1 hx.2

theorem valid_plain (rel : List Seg)
    (hv : ∀ s ∈ rel, s ≠ [] ∧ s ≠ dotSeg ∧ s ≠ dotdotSeg ∧ '/' ∉ s ∧ '\\' ∉ s) :
    plainKey rel := by
  intro s hs
  exact ⟨(hv s hs).2.1, (hv s hs).2.2.1⟩

theorem pack_mapper (dest : Key) (pfx : Seg) (hdp : segDriveB pfx = false)
    (rel : List Seg) (hrel : rel ≠ [])
    (hv : ∀ s ∈ pfx :: rel, s ≠ [] ∧ s ≠ dotSeg ∧ s ≠ dotdotSeg ∧ '/' ∉ s ∧ '\\' ∉ s) :
    flatMapper dest (some pfx) (joinSlash (pfx :: rel)) = some ⟨true, dest ++ rel⟩ := by
  unfold flatMapper
  rw [parse_join pfx rel hv hdp]
  dsimp only
  unfold strip_common_top_dir
  dsimp only
  rw [if_pos rfl, if_neg hrel]

theorem pack_mapper_slash (dest : Key) (pfx : Seg) (hdp : segDriveB pfx = false)
    (rel : List Seg) (hrel : rel ≠ [])
    (hv : ∀ s ∈ pfx :: rel, s ≠ [] ∧ s ≠ dotSeg ∧ s ≠ dotdotSeg ∧ '/' ∉ s ∧ '\\' ∉ s) :
    flatMapper dest (some pfx) (joinSlash (pfx :: rel) ++ ['/']) =
      some ⟨true, dest ++ rel⟩ := by
  unfold flatMapper
  rw [parse_join_slash pfx rel hv hdp]
  dsimp only
  unfold strip_common_top_dir
  dsimp only
  rw [if_pos rfl, if_neg hrel]

theorem pack_resolve (dest : Key) (hpd : plainKey dest) (rel : List Seg) (hrel : rel ≠ [])
    (fs : Fs) (hsf : fs.symFree) (hwf : fs.wfFs) (hplain : plainKey rel)
    (hanc : ∀ y, y <+: dest ++ rel → y ≠ [] → y ≠ dest ++ rel → fs.node y = some FNode.dir) :
    resolve_within_dir fs dest ⟨true, dest ++ rel⟩ = .ok (dest ++ rel) := by
  have hlen : dest.length < (dest ++ rel).length := by
    rw [List.length_append]
    have h0 : 0 < rel.length := List.length_pos.mpr hrel
    omega
  apply resolve_sf_ok fs dest _ _ hsf hwf
  · intro l hl hl0
    apply hanc l (hl.trans (List.prefix_append dest rel)) hl0
    intro he
    have h2 := hl.length_le
    rw [he] at h2
    omega
  · exact hpd
  · show normComps true [] (dest ++ rel) = .ok (dest ++ rel)
    apply normComps_id
    intro s hs
    rcases List.mem_append.mp hs with hs | hs
    · exact hpd s hs
    · exact hplain s hs
  · intro y c hy hyn hfc
    by_cases hy0 : y = []
    · rw [hy0, node_nil] at hfc
      cases hfc
    · rw [hanc y hy hy0 hyn] at hfc
      cases hfc
  · exact List.prefix_append dest rel

theorem zip_pack_file_step (dest : Key) (pfx : Seg) (omode : Option Nat)
    (hpd : plainKey dest) (hvp : validSegB pfx = true) (hnbp : segNoBackslash pfx = true)
    (hdp : segDriveB pfx = false)
    (π : List Seg) (hπ : ∀ s ∈ π, validSegB s = true ∧ segNoBackslash s = true)
    (x : Seg) (hx : validSegB x = true ∧ segNoBackslash x = true)
    (c : List Nat) (fm : Nat) (fs : Fs)
    (hsf : fs.symFree) (hwf : fs.wfFs) (hcm : fs.chmodFail = [])
    (hR4 : ∀ y, y <+: dest ++ π → y ≠ [] → fs.node y = some FNode.dir)
    (hnone : fs.node ((dest ++ π) ++ [x]) = none) :
    zip_process_entry dest (flatMapper dest (some pfx)) ⟨fs, []⟩
      (packZipItem pfx omode (π ++ [x], .pfile c fm)) =
      (⟨fs.set ((dest ++ π) ++ [x]) (FNode.file c), []⟩, none) := by
  have hvall := pack_segs_valid pfx hvp hnbp π hπ x hx
  have hrel : π ++ [x] ≠ [] := by simp
  have hanc : ∀ y, y <+: dest ++ (π ++ [x]) → y ≠ [] → y ≠ dest ++ (π ++ [x]) →
      fs.node y = some FNode.dir := by
    intro y hy hy0 hyn
    rw [← List.append_assoc] at hy
    rcases prefix_snoc_cases hy with hc | hc
    · exact hR4 y hc hy0
    · exact absurd (by rw [hc, List.append_assoc]) hyn
  rw [packZipItem_file]
  unfold zip_process_entry
  dsimp only
  rw [if_neg (by rw [parse_join pfx (π ++ [x]) hvall hdp]; simp)]
  rw [pack_mapper dest pfx hdp (π ++ [x]) hrel hvall]
  dsimp only
  rw [pack_resolve dest hpd (π ++ [x]) hrel fs hsf hwf
    (valid_plain _ (fun s hs => hvall s (List.mem_cons_of_mem pfx hs))) hanc]
  dsimp only
  rw [if_neg (by simp : ¬(false = true))]
  have hwe := write_entry_file_ok fs ((dest ++ π) ++ [x]) c omode c.length hsf (by simp)
    (by
      rw [List.dropLast_concat]
      intro l hl hl0 c0 hfc
      rw [hR4 l hl hl0] at hfc
      cases hfc)
    (by rw [hnone]; simp)
    rfl
    (Or.inr (by rw [hcm]; exact List.not_mem_nil _))
  rw [List.dropLast_concat] at hwe
  have hcda : create_dir_all fs (dest ++ π) = (fs, none) := by
    unfold create_dir_all
    apply cdaAux_id
    intro l hl hl0
    rw [List.nil_append]
    exact hR4 l hl hl0
  rw [hcda] at hwe
  rw [← List.append_assoc]
  rw [if_neg (by simp : ¬(false = true))]
  rw [hwe]

theorem zip_pack_dir_step (dest : Key) (pfx : Seg) (omode : Option Nat)
    (hpd : plainKey dest) (hvp : validSegB pfx = true) (hnbp : segNoBackslash pfx = true)
    (hdp : segDriveB pfx = false)
    (π : List Seg) (hπ : ∀ s ∈ π, validSegB s = true ∧ segNoBackslash s = true)
    (x : Seg) (hx : validSegB x = true ∧ segNoBackslash x = true) (fs : Fs)
    (hsf : fs.symFree) (hwf : fs.wfFs) (hcm : fs.chmodFail = [])
    (hR4 : ∀ y, y <+: dest ++ π → y ≠ [] → fs.node y = some FNode.dir)
    (hnone : fs.node ((dest ++ π) ++ [x]) = none) :
    zip_process_entry dest (flatMapper dest (some pfx)) ⟨fs, []⟩
      (packZipItem pfx omode (π ++ [x], .pdir)) =
      (⟨fs.set ((dest ++ π) ++ [x]) FNode.dir, []⟩, none) := by
  have hvall := pack_segs_valid pfx hvp hnbp π hπ x hx
  have hrel : π ++ [x] ≠ [] := by simp
  have hanc : ∀ y, y <+: dest ++ (π ++ [x]) → y ≠ [] → y ≠ dest ++ (π ++ [x]) →
      fs.node y = some FNode.dir := by
    intro y hy hy0 hyn
    rw [← List.append_assoc] at hy
    rcases prefix_snoc_cases hy with hc | hc
    · exact hR4 y hc hy0
    · exact absurd (by rw [hc, List.append_assoc]) hyn
  rw [packZipItem_dir]
  unfold zip_process_entry
  dsimp only
  rw [if_neg (by rw [parse_join_slash pfx (π ++ [x]) hvall hdp]; simp)]
  rw [pack_mapper_slash dest pfx hdp (π ++ [x]) hrel hvall]
  dsimp only
  rw [pack_resolve dest hpd (π ++ [x]) hrel fs hsf hwf
    (valid_plain _ (fun s hs => hvall s (List.mem_cons_of_mem pfx hs))) hanc]
  dsimp only
  rw [if_neg (by simp : ¬(false = true))]
  rw [← List.append_assoc]
  rw [show write_entry fs ((dest ++ π) ++ [x]) true [] omode
      (if true = true then none else some 0) = create_dir_all fs ((dest ++ π) ++ [x]) from
    write_entry_dir_eq fs ((dest ++ π) ++ [x]) [] omode _]
  rw [cda_last_new fs (dest ++ π) x hR4 hnone]

theorem listNodupB_cons (a : Seg) (l : List Seg) :
    listNodupB (a :: l) = (!l.contains a && listNodupB l) := rfl

theorem zipFilesLoop (dest : Key) (pfx : Seg) (omode : Option Nat)
    (hpd : plainKey dest) (hvp : validSegB pfx = true) (hnbp : segNoBackslash pfx = true)
    (hdp : segDriveB pfx = false) :
    ∀ (files : List (Seg × List Nat × Nat)) (π : List Seg) (fs : Fs),
    (∀ s ∈ π, validSegB s = true ∧ segNoBackslash s = true) →
    (∀ f ∈ files, validSegB f.1 = true ∧ segNoBackslash f.1 = true) →
    listNodupB (files.map (·.1)) = true →
    fs.symFree → fs.wfFs → fs.chmodFail = [] →
    (∀ y, y <+: dest ++ π → y ≠ [] → fs.node y = some FNode.dir) →
    (∀ x qrest, x ∈ files.map (·.1) → fs.node ((dest ++ π) ++ x :: qrest) = none) →
    ∃ fs', zipLoop dest (flatMapper dest (some pfx)) ⟨fs, []⟩
        ((shiftItems π (files.map (fun f => ([f.1], PItem.pfile f.2.1 f.2.2)))).map
          (packZipItem pfx omode)) = (⟨fs', []⟩, none) ∧
      fs'.symFree ∧ fs'.wfFs ∧ fs'.chmodFail = [] ∧
      (∀ q nd, fileListNodeAt files q = some nd → fs'.node ((dest ++ π) ++ q) = some nd) ∧
      (∀ k, (∀ q, q ≠ [] → fileListNodeAt files q ≠ none → k ≠ (dest ++ π) ++ q) →
        fs'.node k = fs.node k) := by
  intro files
  induction files with
  | nil =>
    intro π fs _ _ _ hsf hwf hcm _ _
    refine ⟨fs, by rw [List.map_nil]; rfl, hsf, hwf, hcm, ?_, fun k _ => rfl⟩
    intro q nd h
    exfalso
    cases q with
    | nil =>
      rw [fileListNodeAt_nil_path] at h
      cases h
    | cons a r =>
      cases r with
      | nil =>
        rw [fileListNodeAt_single] at h
        dsimp only [List.find?] at h
        cases h
      | cons b rr =>
        rw [fileListNodeAt_long] at h
        cases h
  | cons f rest ih =>
    intro π fs hπ hfv hnd hsf hwf hcm hR4 hR5
    have hxv := hfv f (List.mem_cons_self f rest)
    have hnone : fs.node ((dest ++ π) ++ [f.1]) = none :=
      hR5 f.1 [] (by rw [List.map_cons]; exact List.mem_cons_self _ _)
    have hnd2 : listNodupB (rest.map (·.1)) = true ∧ f.1 ∉ rest.map (·.1) := by
      rw [List.map_cons, listNodupB_cons, Bool.and_eq_true] at hnd
      refine ⟨hnd.2, ?_⟩
      intro hmem
      have h2 : (rest.map (·.1)).contains f.1 = true := List.elem_eq_true_of_mem hmem
      rw [h2] at hnd
      have h3 := hnd.1
      cases h3
    have hk1 : ((dest ++ π) ++ [f.1] : Key) ≠ [] := by simp
    have hsf1 : (fs.set ((dest ++ π) ++ [f.1]) (FNode.file f.2.1)).symFree :=
      symFree_set _ _ _ hsf rfl
    have hwf1 : (fs.set ((dest ++ π) ++ [f.1]) (FNode.file f.2.1)).wfFs := by
      apply wf_set _ _ _ hwf hk1
      · intro y hy hyn hy0
        rcases prefix_snoc_cases hy with hc | hc
        · exact hR4 y hc hy0
        · exact absurd hc hyn
      · intro hd
        rw [hnone] at hd
        cases hd
    have hcm1 : (fs.set ((dest ++ π) ++ [f.1]) (FNode.file f.2.1)).chmodFail = [] := by
      rw [set_chmodFail]
      exact hcm
    have hR4' : ∀ y, y <+: dest ++ π → y ≠ [] →
        (fs.set ((dest ++ π) ++ [f.1]) (FNode.file f.2.1)).node y = some FNode.dir := by
      intro y hy hy0
      rw [node_set_other _ _ _ y (by
        intro he
        have h2 := hy.length_le
        rw [he] at h2
        simp at h2)]
      exact hR4 y hy hy0
    have hR5' : ∀ x qrest, x ∈ rest.map (·.1) →
        (fs.set ((dest ++ π) ++ [f.1]) (FNode.file f.2.1)).node
          ((dest ++ π) ++ x :: qrest) = none := by
      intro x qrest hx
      rw [node_set_other _ _ _ _ (by
        intro he
        have h2 := List.append_cancel_left he
        injection h2 with h3 h4
        apply hnd2.2
        rw [← h3]
        exact hx)]
      exact hR5 x qrest (by rw [List.map_cons]; exact List.mem_cons_of_mem _ hx)
    obtain ⟨fs2, hl2, hsf2, hwf2, hcm2, hC4, hC5⟩ :=
      ih π (fs.set ((dest ++ π) ++ [f.1]) (FNode.file f.2.1))
        hπ (fun g hg => hfv g (List.mem_cons_of_mem f hg)) hnd2.1 hsf1 hwf1 hcm1 hR4' hR5'
    have hstep := zip_pack_file_step dest pfx omode hpd hvp hnbp hdp π hπ f.1 hxv
      f.2.1 f.2.2 fs hsf hwf hcm hR4 hnone
    refine ⟨fs2, ?_, hsf2, hwf2, hcm2, ?_, ?_⟩
    · rw [List.map_cons, shiftItems_cons, List.map_cons, zipLoop_cons]
      dsimp only
      rw [hstep]
      exact hl2
    · intro q nd h
      cases q with
      | nil =>
        rw [fileListNodeAt_nil_path] at h
        cases h
      | cons a r =>
        cases r with
        | cons b rr =>
          rw [fileListNodeAt_long] at h
          cases h
        | nil =>
          rw [fileListNodeAt_single] at h
          by_cases hfa : f.1 = a
          · rw [List.find?_cons_of_pos rest (by rw [beq_iff_eq]; exact hfa)] at h
            dsimp only at h
            injection h with h2
            rw [hC5 ((dest ++ π) ++ [a]) (by
              intro q hq0 hqn he
              cases q with
              | nil => exact hq0 rfl
              | cons a2 r2 =>
                cases r2 with
                | cons b2 rr2 =>
                  rw [fileListNodeAt_long] at hqn
                  exact hqn rfl
                | nil =>
                  have h3 := List.append_cancel_left he
                  injection h3 with h4 _
                  rw [fileListNodeAt_single] at hqn
                  cases hfind : (rest.find? (fun g => g.1 == a2)) with
                  | none => rw [hfind] at hqn; exact hqn rfl
                  | some g =>
                    have h5 : g.1 = a2 := by
                      have h6 := List.find?_some hfind
                      rw [beq_iff_eq] at h6
                      exact h6
                    apply hnd2.2
                    rw [← hfa] at h4
                    rw [List.mem_map]
                    exact ⟨g, List.mem_of_find?_eq_some hfind, by rw [h5, ← h4]⟩)]
            rw [← hfa, node_set_self _ _ _ hk1, ← h2]
          · rw [List.find?_cons_of_neg rest (by rw [beq_iff_eq]; exact hfa)] at h
            exact hC4 [a] nd (by rw [fileListNodeAt_single]; exact h)
    · intro k hguard
      rw [hC5 k (by
        intro q hq0 hqn he
        apply hguard q hq0 ?_ he
        cases q with
        | nil => exact absurd rfl hq0
        | cons a r =>
          cases r with
          | cons b rr =>
            rw [fileListNodeAt_long] at hqn
            exact absurd rfl hqn
          | nil =>
            rw [fileListNodeAt_single] at hqn ⊢
            by_cases hfa : f.1 = a
            · rw [List.find?_cons_of_pos rest (by rw [beq_iff_eq]; exact hfa)]
              simp
            · rw [List.find?_cons_of_neg rest (by rw [beq_iff_eq]; exact hfa)]
              exact hqn)]
      apply node_set_other
      apply hguard [f.1] (by simp)
      rw [fileListNodeAt_single, List.find?_cons_of_pos rest (by rw [beq_iff_eq])]
      simp

theorem wfTreeB_eq (files : List (Seg × List Nat × Nat)) (dirs : List (Seg × FTree)) :
    wfTreeB (.node files dirs) =
      (files.all (fun f => validSegB f.1) && dirs.all (fun d => validSegB d.1) &&
        listNodupB (files.map (·.1) ++ dirs.map (·.1)) && wfDirListB dirs) := rfl

theorem wfDirListB_cons (n : Seg) (sub : FTree) (rest : List (Seg × FTree)) :
    wfDirListB ((n, sub) :: rest) = (wfTreeB sub && wfDirListB rest) := rfl

theorem treeNoBackslashB_eq (files : List (Seg × List Nat × Nat)) (dirs : List (Seg × FTree)) :
    treeNoBackslashB (.node files dirs) =
      (files.all (fun f => segNoBackslash f.1) && dirs.all (fun d => segNoBackslash d.1) &&
        dirListNoBackslashB dirs) := rfl

theorem dirListNoBackslashB_cons (n : Seg) (sub : FTree) (rest : List (Seg × FTree)) :
    dirListNoBackslashB ((n, sub) :: rest) =
      (treeNoBackslashB sub && dirListNoBackslashB rest) := rfl

theorem contains_false (l : List Seg) (a : Seg) : l.contains a = false ↔ a ∉ l := by
  constructor
  · intro h hmem
    have h2 : l.contains a = true := List.elem_eq_true_of_mem hmem
    rw [h] at h2
    cases h2
  · intro h
    cases hc : l.contains a with
    | false => rfl
    | true => exact absurd (List.mem_of_elem_eq_true hc) h

theorem listNodupB_append : ∀ (l1 l2 : List Seg), listNodupB (l1 ++ l2) = true →
    listNodupB l1 = true ∧ listNodupB l2 = true ∧ ∀ x ∈ l1, x ∉ l2 := by
  intro l1
  induction l1 with
  | nil =>
    intro l2 h
    exact ⟨rfl, h, fun x hx => absurd hx (List.not_mem_nil x)⟩
  | cons a l1 ih =>
    intro l2 h
    rw [List.cons_append, listNodupB_cons, Bool.and_eq_true] at h
    have hna : a ∉ l1 ++ l2 := by
      have h2 := h.1
      rw [Bool.not_eq_true'] at h2
      exact (contains_false _ a).mp h2
    obtain ⟨h1, h2, h3⟩ := ih l2 h.2
    refine ⟨?_, h2, ?_⟩
    · rw [listNodupB_cons, Bool.and_eq_true]
      refine ⟨?_, h1⟩
      rw [Bool.not_eq_true']
      exact (contains_false _ a).mpr (fun hm => hna (List.mem_append.mpr (Or.inl hm)))
    · intro x hx
      rcases List.mem_cons.mp hx with hx | hx
      · rw [hx]
        intro hm
        exact hna (List.mem_append.mpr (Or.inr hm))
      · exact h3 x hx

theorem fileListNodeAt_shape (files : List (Seg × List Nat × Nat)) (q : List Seg)
    (h : fileListNodeAt files q ≠ none) : ∃ x, q = [x] ∧ x ∈ files.map (·.1) := by
  cases q with
  | nil => exact absurd (fileListNodeAt_nil_path files) h
  | cons a r =>
    cases r with
    | cons b rr => exact absurd (fileListNodeAt_long files a b rr) h
    | nil =>
      refine ⟨a, rfl, ?_⟩
      rw [fileListNodeAt_single] at h
      cases hf : files.find? (fun f => f.1 == a) with
      | none => rw [hf] at h; exact absurd rfl h
      | some g =>
        have h5 : g.1 = a := by
          have h6 := List.find?_some hf
          rw [beq_iff_eq] at h6
          exact h6
        rw [List.mem_map]
        exact ⟨g, List.mem_of_find?_eq_some hf, h5⟩

theorem dirListNodeAt_shape (ds : List (Seg × FTree)) (q : List Seg)
    (h : dirListNodeAt ds q ≠ none) : ∃ x r, q = x :: r ∧ x ∈ ds.map (·.1) := by
  cases q with
  | nil => exact absurd (dirListNodeAt_nil_path ds) h
  | cons a r =>
    refine ⟨a, r, rfl, ?_⟩
    have hfind : ∃ g, ds.find? (fun d => d.1 == a) = some g := by
      cases hf : ds.find? (fun d => d.1 == a) with
      | some g => exact ⟨g, rfl⟩
      | none =>
        exfalso
        apply h
        cases r with
        | nil => rw [dirListNodeAt_single, hf]
        | cons b rr => rw [dirListNodeAt_long, hf]
    obtain ⟨g, hg⟩ := hfind
    have h5 : g.1 = a := by
      have h6 := List.find?_some hg
      rw [beq_iff_eq] at h6
      exact h6
    rw [List.mem_map]
    exact ⟨g, List.mem_of_find?_eq_some hg, h5⟩

mutual

theorem zipTreeLoop (dest : Key) (pfx : Seg) (omode : Option Nat)
    (hpd : plainKey dest) (hvp : validSegB pfx = true) (hnbp : segNoBackslash pfx = true)
    (hdp : segDriveB pfx = false) :
    ∀ (t : FTree) (π : List Seg) (fs : Fs),
    wfTreeB t = true → treeNoBackslashB t = true →
    (∀ s ∈ π, validSegB s = true ∧ segNoBackslash s = true) →
    fs.symFree → fs.wfFs → fs.chmodFail = [] →
    (∀ y, y <+: dest ++ π → y ≠ [] → fs.node y = some FNode.dir) →
    (∀ q, q ≠ [] → fs.node ((dest ++ π) ++ q) = none) →
    ∃ fs2, zipLoop dest (flatMapper dest (some pfx)) ⟨fs, []⟩
        ((shiftItems π (walkTree t)).map (packZipItem pfx omode)) = (⟨fs2, []⟩, none) ∧
      fs2.symFree ∧ fs2.wfFs ∧ fs2.chmodFail = [] ∧
      (∀ q nd, treeNodeAt t q = some nd → fs2.node ((dest ++ π) ++ q) = some nd) ∧
      (∀ k, (∀ q, q ≠ [] → treeNodeAt t q ≠ none → k ≠ (dest ++ π) ++ q) →
        fs2.node k = fs.node k) := by
  intro t
  cases t with
  | node files dirs =>
    intro π fs hwt hnbt hπ hsf hwf hcm hR4 hR5
    rw [wfTreeB_eq] at hwt
    rw [treeNoBackslashB_eq] at hnbt
    rw [Bool.and_eq_true, Bool.and_eq_true, Bool.and_eq_true] at hwt
    rw [Bool.and_eq_true, Bool.and_eq_true] at hnbt
    obtain ⟨⟨⟨hfall, hdall⟩, hnodup⟩, hwdl⟩ := hwt
    obtain ⟨⟨hfnb, hdnb⟩, hdlnb⟩ := hnbt
    obtain ⟨hndf, hndd, hdisj⟩ := listNodupB_append _ _ hnodup
    have hfv : ∀ f ∈ files, validSegB f.1 = true ∧ segNoBackslash f.1 = true := by
      intro f hf
      exact ⟨List.all_eq_true.mp hfall f hf, List.all_eq_true.mp hfnb f hf⟩
    have hdv : ∀ d ∈ dirs, validSegB d.1 = true ∧ segNoBackslash d.1 = true := by
      intro d hd
      exact ⟨List.all_eq_true.mp hdall d hd, List.all_eq_true.mp hdnb d hd⟩
    obtain ⟨fs1, hl1, hsf1, hwf1, hcm1, hC4f, hC5f⟩ :=
      zipFilesLoop dest pfx omode hpd hvp hnbp hdp files π fs hπ hfv hndf hsf hwf hcm hR4
        (fun x qrest hx => hR5 (x :: qrest) (by simp))
    have hR4' : ∀ y, y <+: dest ++ π → y ≠ [] → fs1.node y = some FNode.dir := by
      intro y hy hy0
      rw [hC5f y (by
        intro q hq0 _ he
        have h2 := hy.length_le
        rw [he, List.length_append] at h2
        have h3 : 0 < q.length := List.length_pos.mpr hq0
        omega)]
      exact hR4 y hy hy0
    have hR5' : ∀ x qrest, x ∈ dirs.map (·.1) →
        fs1.node ((dest ++ π) ++ x :: qrest) = none := by
      intro x qrest hx
      rw [hC5f _ (by
        intro q hq0 hqn he
        obtain ⟨x', hq, hx'⟩ := fileListNodeAt_shape files q hqn
        have h2 := List.append_cancel_left he
        rw [hq] at h2
        injection h2 with h3 _
        exact hdisj x' hx' (h3 ▸ hx))]
      exact hR5 (x :: qrest) (by simp)
    obtain ⟨fs2, hl2, hsf2, hwf2, hcm2, hC4d, hC5d⟩ :=
      zipDirListLoop dest pfx omode hpd hvp hnbp hdp dirs π fs1 hdv hwdl hdlnb hndd hπ
        hsf1 hwf1 hcm1 hR4' hR5'
    refine ⟨fs2, ?_, hsf2, hwf2, hcm2, ?_, ?_⟩
    · rw [walkTree_eq, shiftItems_append, List.map_append, zipLoop_append, hl1]
      exact hl2
    · intro q nd h
      rw [treeNodeAt_decomp] at h
      cases hfq : fileListNodeAt files q with
      | some nd0 =>
        rw [hfq] at h
        dsimp only at h
        injection h with h2
        rw [hC5d _ (by
          intro q2 hq02 hqn2 he
          obtain ⟨x, hqx, hx⟩ := fileListNodeAt_shape files q (by rw [hfq]; simp)
          obtain ⟨x2, r2, hq2, hx2⟩ := dirListNodeAt_shape dirs q2 hqn2
          have h3 := List.append_cancel_left he
          rw [hqx, hq2] at h3
          injection h3 with h4 _
          exact hdisj x hx (h4 ▸ hx2))]
        rw [← h2]
        exact hC4f q nd0 hfq
      | none =>
        rw [hfq] at h
        dsimp only at h
        exact hC4d q nd h
    · intro k hguard
      rw [hC5d k (by
        intro q hq0 hqn he
        apply hguard q hq0 ?_ he
        rw [treeNodeAt_decomp]
        cases hfq : fileListNodeAt files q with
        | some nd0 => simp
        | none => dsimp only; exact hqn)]
      rw [hC5f k (by
        intro q hq0 hqn he
        apply hguard q hq0 ?_ he
        rw [treeNodeAt_decomp]
        cases hfq : fileListNodeAt files q with
        | some nd0 => dsimp only; simp
        | none => exact absurd hfq hqn)]

theorem zipDirListLoop (dest : Key) (pfx : Seg) (omode : Option Nat)
    (hpd : plainKey dest) (hvp : validSegB pfx = true) (hnbp : segNoBackslash pfx = true)
    (hdp : segDriveB pfx = false) :
    ∀ (ds : List (Seg × FTree)) (π : List Seg) (fs : Fs),
    (∀ d ∈ ds, validSegB d.1 = true ∧ segNoBackslash d.1 = true) →
    wfDirListB ds = true → dirListNoBackslashB ds = true →
    listNodupB (ds.map (·.1)) = true →
    (∀ s ∈ π, validSegB s = true ∧ segNoBackslash s = true) →
    fs.symFree → fs.wfFs → fs.chmodFail = [] →
    (∀ y, y <+: dest ++ π → y ≠ [] → fs.node y = some FNode.dir) →
    (∀ x qrest, x ∈ ds.map (·.1) → fs.node ((dest ++ π) ++ x :: qrest) = none) →
    ∃ fs2, zipLoop dest (flatMapper dest (some pfx)) ⟨fs, []⟩
        ((shiftItems π (walkDirList ds)).map (packZipItem pfx omode)) = (⟨fs2, []⟩, none) ∧
      fs2.symFree ∧ fs2.wfFs ∧ fs2.chmodFail = [] ∧
      (∀ q nd, dirListNodeAt ds q = some nd → fs2.node ((dest ++ π) ++ q) = some nd) ∧
      (∀ k, (∀ q, q ≠ [] → dirListNodeAt ds q ≠ none → k ≠ (dest ++ π) ++ q) →
        fs2.node k = fs.node k) := by
  intro ds
  cases ds with
  | nil =>
    intro π fs _ _ _ _ _ hsf hwf hcm _ _
    refine ⟨fs, by rw [walkDirList_nil]; rfl, hsf, hwf, hcm, ?_, fun k _ => rfl⟩
    intro q nd h
    exfalso
    cases q with
    | nil =>
      rw [dirListNodeAt_nil_path] at h
      cases h
    | cons a r =>
      cases r with
      | nil =>
        rw [dirListNodeAt_single] at h
        dsimp only [List.find?] at h
        cases h
      | cons b rr =>
        rw [dirListNodeAt_long] at h
        dsimp only [List.find?] at h
        cases h
  | cons d rest =>
    cases d with
    | mk n sub =>
      intro π fs hdv hwdl hdlnb hnd hπ hsf hwf hcm hR4 hR5
      rw [wfDirListB_cons, Bool.and_eq_true] at hwdl
      rw [dirListNoBackslashB_cons, Bool.and_eq_true] at hdlnb
      have hnv := hdv (n, sub) (List.mem_cons_self _ _)
      have hnd2 : listNodupB (rest.map (·.1)) = true ∧ n ∉ rest.map (·.1) := by
        rw [List.map_cons, listNodupB_cons, Bool.and_eq_true] at hnd
        refine ⟨hnd.2, ?_⟩
        have h2 := hnd.1
        rw [Bool.not_eq_true'] at h2
        exact (contains_false _ n).mp h2
      have hnone : fs.node ((dest ++ π) ++ [n]) = none :=
        hR5 n [] (by rw [List.map_cons]; exact List.mem_cons_self _ _)
      have hstep := zip_pack_dir_step dest pfx omode hpd hvp hnbp hdp π hπ n hnv fs
        hsf hwf hcm hR4 hnone
      have hk1 : ((dest ++ π) ++ [n] : Key) ≠ [] := by simp
      have hsf1 : (fs.set ((dest ++ π) ++ [n]) FNode.dir).symFree := symFree_set _ _ _ hsf rfl
      have hwf1 : (fs.set ((dest ++ π) ++ [n]) FNode.dir).wfFs := by
        apply wf_set _ _ _ hwf hk1
        · intro y hy hyn hy0
          rcases prefix_snoc_cases hy with hc | hc
          · exact hR4 y hc hy0
          · exact absurd hc hyn
        · intro _
          rfl
      have hcm1 : (fs.set ((dest ++ π) ++ [n]) FNode.dir).chmodFail = [] := by
        rw [set_chmodFail]
        exact hcm
      have hA1 : dest ++ (π ++ [n]) = (dest ++ π) ++ [n] := (List.append_assoc dest π [n]).symm
      have hπ2 : ∀ s ∈ π ++ [n], validSegB s = true ∧ segNoBackslash s = true := by
        intro s hs
        rcases List.mem_append.mp hs with hs | hs
        · exact hπ s hs
        · rw [List.mem_singleton.mp hs]
          exact hnv
      have hR4s : ∀ y, y <+: dest ++ (π ++ [n]) → y ≠ [] →
          (fs.set ((dest ++ π) ++ [n]) FNode.dir).node y = some FNode.dir := by
        intro y hy hy0
        rw [hA1] at hy
        rcases prefix_snoc_cases hy with hc | hc
        · rw [node_set_other _ _ _ y (by
            intro he
            have h2 := hc.length_le
            rw [he] at h2
            simp at h2)]
          exact hR4 y hc hy0
        · rw [hc]
          exact node_set_self _ _ _ hk1
      have hR5s : ∀ q, q ≠ [] →
          (fs.set ((dest ++ π) ++ [n]) FNode.dir).node
            ((dest ++ (π ++ [n])) ++ q) = none := by
        intro q hq0
        have hA2 : (dest ++ (π ++ [n])) ++ q = (dest ++ π) ++ (n :: q) := by
          rw [hA1, List.append_assoc, List.singleton_append]
        rw [hA2, node_set_other _ _ _ _ (by
          intro he
          have h2 := List.append_cancel_left he
          injection h2 with _ h3
          exact hq0 h3)]
        exact hR5 n q (by rw [List.map_cons]; exact List.mem_cons_self _ _)
      obtain ⟨fs2, hl2, hsf2, hwf2, hcm2, hC4s, hC5s⟩ :=
        zipTreeLoop dest pfx omode hpd hvp hnbp hdp sub (π ++ [n])
          (fs.set ((dest ++ π) ++ [n]) FNode.dir) hwdl.1 hdlnb.1 hπ2 hsf1 hwf1 hcm1 hR4s hR5s
      have hR4r : ∀ y, y <+: dest ++ π → y ≠ [] → fs2.node y = some FNode.dir := by
        intro y hy hy0
        rw [hC5s y (by
          intro q hq0 _ he
          have h2 := hy.length_le
          rw [he] at h2
          simp only [List.length_append, List.length_singleton] at h2
          have h3 : 0 < q.length := List.length_pos.mpr hq0
          omega)]
        rw [node_set_other _ _ _ y (by
          intro he
          have h2 := hy.length_le
          rw [he] at h2
          simp at h2)]
        exact hR4 y hy hy0
      have hR5r : ∀ x qrest, x ∈ rest.map (·.1) →
          fs2.node ((dest ++ π) ++ x :: qrest) = none := by
        intro x qrest hx
        have hxn : x ≠ n := by
          intro he
          exact hnd2.2 (he ▸ hx)
        rw [hC5s _ (by
          intro q hq0 _ he
          have h3 : (dest ++ π) ++ x :: qrest = (dest ++ π) ++ n :: q := by
            rw [he, hA1, List.append_assoc, List.singleton_append]
          have h2 := List.append_cancel_left h3
          injection h2 with h4 _
          exact hxn h4)]
        rw [node_set_other _ _ _ _ (by
          intro he
          have h2 := List.append_cancel_left he
          injection h2 with h4 _
          exact hxn h4)]
        exact hR5 x qrest (by rw [List.map_cons]; exact List.mem_cons_of_mem _ hx)
      obtain ⟨fs3, hl3, hsf3, hwf3, hcm3, hC4r, hC5r⟩ :=
        zipDirListLoop dest pfx omode hpd hvp hnbp hdp rest π fs2
          (fun d2 hd2 => hdv d2 (List.mem_cons_of_mem _ hd2)) hwdl.2 hdlnb.2 hnd2.1 hπ
          hsf2 hwf2 hcm2 hR4r hR5r
      refine ⟨fs3, ?_, hsf3, hwf3, hcm3, ?_, ?_⟩
      · rw [walkDirList_cons, shiftItems_cons, List.map_cons, zipLoop_cons]
        dsimp only
        rw [hstep]
        dsimp only
        rw [shiftItems_append, shiftItems_shift, List.map_append, zipLoop_append, hl2]
        exact hl3
      · intro q nd h
        cases q with
        | nil =>
          rw [dirListNodeAt_nil_path] at h
          cases h
        | cons a r =>
          by_cases han : a = n
          · subst han
            cases r with
            | nil =>
              rw [dirListNodeAt_single,
                List.find?_cons_of_pos rest (by rw [beq_iff_eq])] at h
              dsimp only at h
              injection h with h2
              rw [hC5r _ (by
                intro q2 hq02 hqn2 he
                obtain ⟨x2, r2, hq2, hx2⟩ := dirListNodeAt_shape rest q2 hqn2
                have h3 := List.append_cancel_left he
                rw [hq2] at h3
                injection h3 with h4 _
                exact hnd2.2 (h4 ▸ hx2))]
              rw [hC5s _ (by
                intro q2 hq02 _ he
                have h2l := congrArg List.length he
                simp only [List.length_append, List.length_singleton] at h2l
                have h3 : 0 < q2.length := List.length_pos.mpr hq02
                omega)]
              rw [node_set_self _ _ _ hk1, ← h2]
            | cons b rr =>
              rw [dirListNodeAt_long,
                List.find?_cons_of_pos rest (by rw [beq_iff_eq])] at h
              dsimp only at h
              have h4 := hC4s (b :: rr) nd h
              have hA3 : (dest ++ (π ++ [a])) ++ (b :: rr) = (dest ++ π) ++ (a :: b :: rr) := by
                rw [(List.append_assoc dest π [a]).symm, List.append_assoc,
                  List.singleton_append]
              rw [← hA3]
              rw [hC5r _ (by
                intro q2 hq02 hqn2 he
                obtain ⟨x2, r2, hq2, hx2⟩ := dirListNodeAt_shape rest q2 hqn2
                rw [hA3] at he
                have h3 := List.append_cancel_left he
                rw [hq2] at h3
                injection h3 with h5 _
                exact hnd2.2 (h5 ▸ hx2))]
              exact h4
          · have hfind : ((n, sub) :: rest).find? (fun d2 => d2.1 == a) =
                rest.find? (fun d2 => d2.1 == a) :=
              List.find?_cons_of_neg rest (by rw [beq_iff_eq]; exact fun hh => han hh.symm)
            cases r with
            | nil =>
              rw [dirListNodeAt_single, hfind] at h
              exact hC4r [a] nd (by rw [dirListNodeAt_single]; exact h)
            | cons b rr =>
              rw [dirListNodeAt_long, hfind] at h
              exact hC4r (a :: b :: rr) nd (by rw [dirListNodeAt_long]; exact h)
      · intro k hguard
        rw [hC5r k (by
          intro q hq0 hqn he
          obtain ⟨x2, r2, hq2, hx2⟩ := dirListNodeAt_shape rest q hqn
          apply hguard q hq0 ?_ he
          have hxn : x2 ≠ n := fun hh => hnd2.2 (hh ▸ hx2)
          have hfind : ((n, sub) :: rest).find? (fun d2 => d2.1 == x2) =
              rest.find? (fun d2 => d2.1 == x2) :=
            List.find?_cons_of_neg rest (by rw [beq_iff_eq]; exact fun hh => hxn hh.symm)
          rw [hq2] at hqn ⊢
          cases r2 with
          | nil =>
            rw [dirListNodeAt_single, hfind]
            rw [dirListNodeAt_single] at hqn
            exact hqn
          | cons b rr =>
            rw [dirListNodeAt_long, hfind]
            rw [dirListNodeAt_long] at hqn
            exact hqn)]
        rw [hC5s k (by
          intro q hq0 hqn he
          apply hguard (n :: q) (by simp) ?_ (by
            rw [he, hA1, List.append_assoc, List.singleton_append])
          cases q with
          | nil => exact absurd rfl hq0
          | cons b rr =>
            rw [dirListNodeAt_long, List.find?_cons_of_pos rest (by rw [beq_iff_eq])]
            dsimp only
            exact hqn)]
        apply node_set_other
        apply hguard [n] (by simp)
        rw [dirListNodeAt_single, List.find?_cons_of_pos rest (by rw [beq_iff_eq])]
        simp

end

mutual

theorem walkTree_items (t : FTree) :
    wfTreeB t = true → treeNoBackslashB t = true →
    ∀ p ∈ walkTree t, p.1 ≠ [] ∧ ∀ s ∈ p.1, validSegB s = true ∧ segNoBackslash s = true := by
  cases t with
  | node files dirs =>
    intro hwt hnbt p hp
    rw [wfTreeB_eq, Bool.and_eq_true, Bool.and_eq_true, Bool.and_eq_true] at hwt
    rw [treeNoBackslashB_eq, Bool.and_eq_true, Bool.and_eq_true] at hnbt
    obtain ⟨⟨⟨hfall, hdall⟩, _⟩, hwdl⟩ := hwt
    obtain ⟨⟨hfnb, hdnb⟩, hdlnb⟩ := hnbt
    rw [walkTree_eq] at hp
    rcases List.mem_append.mp hp with hp | hp
    · rcases List.mem_map.mp hp with ⟨f, hf, hfe⟩
      rw [← hfe]
      refine ⟨by simp, ?_⟩
      intro s hs
      rw [List.mem_singleton.mp hs]
      exact ⟨List.all_eq_true.mp hfall f hf, List.all_eq_true.mp hfnb f hf⟩
    · exact walkDirList_items dirs
        (fun d hd => ⟨List.all_eq_true.mp hdall d hd, List.all_eq_true.mp hdnb d hd⟩)
        hwdl hdlnb p hp

theorem walkDirList_items (ds : List (Seg × FTree)) :
    (∀ d ∈ ds, validSegB d.1 = true ∧ segNoBackslash d.1 = true) →
    wfDirListB ds = true → dirListNoBackslashB ds = true →
    ∀ p ∈ walkDirList ds, p.1 ≠ [] ∧
      ∀ s ∈ p.1, validSegB s = true ∧ segNoBackslash s = true := by
  cases ds with
  | nil =>
    intro _ _ _ p hp
    rw [walkDirList_nil] at hp
    cases hp
  | cons d rest =>
    cases d with
    | mk n sub =>
      intro hdv hwdl hdlnb p hp
      rw [wfDirListB_cons, Bool.and_eq_true] at hwdl
      rw [dirListNoBackslashB_cons, Bool.and_eq_true] at hdlnb
      have hnv := hdv (n, sub) (List.mem_cons_self _ _)
      rw [walkDirList_cons] at hp
      rcases List.mem_cons.mp hp with hp | hp
      · rw [hp]
        refine ⟨by simp, ?_⟩
        intro s hs
        rw [List.mem_singleton.mp hs]
        exact hnv
      · rcases List.mem_append.mp hp with hp | hp
        · rcases List.mem_map.mp hp with ⟨p2, hp2, hpe⟩
          have h2 := walkTree_items sub hwdl.1 hdlnb.1 p2 hp2
          rw [← hpe]
          refine ⟨by simp, ?_⟩
          intro s hs
          rcases List.mem_cons.mp hs with hs | hs
          · rw [hs]
            exact hnv
          · exact h2.2 s hs
        · exact walkDirList_items rest (fun d2 hd2 => hdv d2 (List.mem_cons_of_mem _ hd2))
            hwdl.2 hdlnb.2 p hp

end

theorem scan_step_pack (pfx : Seg) (p : List Seg) (hp : p ≠ [])
    (hv : ∀ s ∈ pfx :: p, s ≠ [] ∧ s ≠ dotSeg ∧ s ≠ dotdotSeg ∧ '/' ∉ s ∧
      ∀ c ∈ s, c ≠ '\\') :
    scan_common_top_dir (joinSlash (pfx :: p)) ⟨some pfx, true, true⟩ =
        ⟨some pfx, true, true⟩ ∧
      scan_common_top_dir (joinSlash (pfx :: p)) initTopScan = ⟨some pfx, true, true⟩ := by
  have hnb : ∀ c ∈ joinSlash (pfx :: p), c ≠ '\\' := by
    intro c hc
    rcases mem_joinSlash _ c hc with hc | ⟨s, hs, hcs⟩
    · rw [hc]
      decide
    · exact (hv s hs).2.2.2.2 c hcs
  have hnorm : normalize_entry_path (joinSlash (pfx :: p)) = joinSlash (pfx :: p) :=
    normalize_id _ hnb
  have hsplit : splitSlash (joinSlash (pfx :: p)) = pfx :: p :=
    splitSlash_join _ (by simp) (fun s hs => (hv s hs).2.2.2.1)
  have hfirst : first_segment (joinSlash (pfx :: p)) = some pfx := by
    unfold first_segment
    rw [hsplit]
    rfl
  have hpfx0 : pfx ≠ [] := (hv pfx (List.mem_cons_self _ _)).1
  have hslash : (joinSlash (pfx :: p)).contains '/' = true := by
    cases p with
    | nil => exact absurd rfl hp
    | cons q0 qr => exact join_contains_slash_cons pfx q0 qr
  constructor
  · unfold scan_common_top_dir
    rw [if_neg (by simp), hnorm, hfirst]
    dsimp only
    rw [if_neg hpfx0, hslash, if_pos rfl]
    unfold scanCand
    dsimp only
    rw [if_pos rfl]
  · unfold scan_common_top_dir initTopScan
    rw [if_neg (by simp), hnorm, hfirst]
    dsimp only
    rw [if_neg hpfx0, hslash, if_pos rfl]
    unfold scanCand
    dsimp only

theorem scanFold_pack (pfx : Seg) :
    ∀ (raws : List RStr),
    (∀ r ∈ raws, ∃ p, p ≠ [] ∧ parse_entry_rel_path r = some (pfx :: p)) →
    scanFold ⟨some pfx, true, true⟩ raws = ⟨some pfx, true, true⟩ := by
  intro raws
  induction raws with
  | nil => intro _; rfl
  | cons r rest ih =>
    intro h
    rw [scanFold_cons]
    obtain ⟨p, hp, hparse⟩ := h r (List.mem_cons_self _ _)
    rw [hparse]
    dsimp only
    have hv := (parse_valid r (pfx :: p) hparse).2
    rw [(scan_step_pack pfx p hp (fun s hs => by
      have h2 := hv s hs
      exact ⟨h2.1, h2.2.1, h2.2.2.1, h2.2.2.2.1, h2.2.2.2.2⟩)).1]
    exact ih (fun r2 hr2 => h r2 (List.mem_cons_of_mem _ hr2))

theorem detect_pack (pfx : Seg) (r0 : RStr) (rest : List RStr)
    (h : ∀ r ∈ r0 :: rest, ∃ p, p ≠ [] ∧ parse_entry_rel_path r = some (pfx :: p)) :
    detect_common_top_dir (r0 :: rest) = some pfx := by
  unfold detect_common_top_dir
  rw [scanFold_cons]
  obtain ⟨p, hp, hparse⟩ := h r0 (List.mem_cons_self _ _)
  rw [hparse]
  dsimp only
  have hv := (parse_valid r0 (pfx :: p) hparse).2
  rw [(scan_step_pack pfx p hp (fun s hs => by
    have h2 := hv s hs
    exact ⟨h2.1, h2.2.1, h2.2.2.1, h2.2.2.2.1, h2.2.2.2.2⟩)).2]
  rw [scanFold_pack pfx rest (fun r2 hr2 => h r2 (List.mem_cons_of_mem _ hr2))]
  rfl

theorem walkTree_nil_shape (t : FTree) (h : walkTree t = []) :
    ∀ p, treeFile t p = none := by
  cases t with
  | node files dirs =>
    rw [walkTree_eq] at h
    rcases List.append_eq_nil.mp h with ⟨h1, h2⟩
    have hf : files = [] := List.map_eq_nil.mp h1
    have hd : dirs = [] := by
      cases hdc : dirs with
      | nil => rfl
      | cons d r =>
        rw [hdc] at h2
        cases d with
        | mk n sub =>
          rw [walkDirList_cons] at h2
          cases h2
    subst hf
    subst hd
    intro p
    cases p with
    | nil => rfl
    | cons a r =>
      cases r with
      | nil => rfl
      | cons b rr => rfl

theorem packed_raw_parses (pfx : Seg) (omode : Option Nat) (t : FTree)
    (hvp : validSegB pfx = true) (hnbp : segNoBackslash pfx = true)
    (hdp : segDriveB pfx = false)
    (hwt : wfTreeB t = true) (hnbt : treeNoBackslashB t = true) :
    ∀ e ∈ (walkTree t).map (packZipItem pfx omode),
      ∃ p, p ≠ [] ∧ parse_entry_rel_path e.raw = some (pfx :: p) := by
  intro e he
  rcases List.mem_map.mp he with ⟨w, hw, hwe⟩
  obtain ⟨q, it⟩ := w
  have hitems := walkTree_items t hwt hnbt (q, it) hw
  have hvall : ∀ s ∈ pfx :: q, s ≠ [] ∧ s ≠ dotSeg ∧ s ≠ dotdotSeg ∧ '/' ∉ s ∧
      '\\' ∉ s := by
    intro s hs
    rcases List.mem_cons.mp hs with hs | hs
    · rw [hs]
      exact validSeg_props pfx hvp hnbp
    · exact validSeg_props s (hitems.2 s hs).1 (hitems.2 s hs).2
  refine ⟨q, hitems.1, ?_⟩
  rw [← hwe]
  cases it with
  | pdir =>
    rw [packZipItem_dir]
    exact parse_join_slash pfx q hvall hdp
  | pfile c fm =>
    rw [packZipItem_file]
    exact parse_join pfx q hvall hdp

/-- The zip round trip over the abstract destination. -/
theorem zip_pack_roundtrip (dest : Key) (pfx : Seg) (omode : Option Nat) (t : FTree)
    (hpd : plainKey dest) (hvp : validSegB pfx = true) (hnbp : segNoBackslash pfx = true)
    (hdp : segDriveB pfx = false) (hwt : wfTreeB t = true) (hnbt : treeNoBackslashB t = true)
    (fs0 : Fs) (hsf : fs0.symFree) (hwf : fs0.wfFs) (hcm : fs0.chmodFail = [])
    (hanc : ∀ l, l <+: dest → l ≠ [] → ∀ c, fs0.node l ≠ some (FNode.file c))
    (hempty : ∀ q, q ≠ [] → fs0.node (dest ++ q) = none) :
    ∃ fs1, extract_zip_flat fs0 dest (append_dir_tree_to_zip pfx omode t) = (fs1, none) ∧
      ∀ p, fileAt fs1 (dest ++ p) = treeFile t p := by
  have hcdaok : (create_dir_all fs0 dest).2 = none := by
    apply cdaAux_ok_of dest fs0 [] hsf
    intro l hl hl0 c
    rw [List.nil_append]
    exact hanc l hl hl0 c
  have hsfB : ((create_dir_all fs0 dest).1).symFree := cdaAux_symFree dest fs0 [] hsf
  have hwfB : ((create_dir_all fs0 dest).1).wfFs :=
    cdaAux_wf dest fs0 [] hsf hwf (fun y hy hy0 => absurd (List.prefix_nil.mp hy) hy0)
  have hcmB : ((create_dir_all fs0 dest).1).chmodFail = [] := by
    rw [create_dir_all_chmodFail]
    exact hcm
  have hR4B : ∀ y, y <+: dest → y ≠ [] →
      ((create_dir_all fs0 dest).1).node y = some FNode.dir := by
    intro y hy hy0
    have h2 : ((create_dir_all fs0 dest).1).node ([] ++ y) = some FNode.dir :=
      cdaAux_post_dirs dest fs0 [] hsf hcdaok y hy hy0
    rw [List.nil_append] at h2
    exact h2
  have hR5B : ∀ q, q ≠ [] → ((create_dir_all fs0 dest).1).node (dest ++ q) = none := by
    intro q hq0
    have hfr : ((create_dir_all fs0 dest).1).node (dest ++ q) = fs0.node (dest ++ q) := by
      unfold create_dir_all
      apply cdaAux_frame
      intro l hl hl0 he
      rw [List.nil_append] at he
      have h2 := hl.length_le
      have h3 := congrArg List.length he
      rw [List.length_append] at h3
      have h4 : 0 < q.length := List.length_pos.mpr hq0
      omega
    rw [hfr]
    exact hempty q hq0
  unfold extract_zip_flat
  rw [append_zip_eq]
  cases hwalk : walkTree t with
  | nil =>
    unfold extract_zip_mapped
    cases hc : create_dir_all fs0 dest with
    | mk fsB e0 =>
      rw [hc] at hcdaok hR4B hR5B
      dsimp only at hcdaok hR4B hR5B
      subst hcdaok
      dsimp only
      rw [List.map_nil, zipLoop_nil]
      dsimp only
      refine ⟨fsB, rfl, ?_⟩
      intro p
      rw [walkTree_nil_shape t hwalk p]
      cases p with
      | nil =>
        unfold fileAt
        rw [List.append_nil]
        by_cases hd0 : dest = []
        · rw [hd0, node_nil]
        · rw [hR4B dest List.prefix_rfl hd0]
      | cons a r =>
        unfold fileAt
        rw [hR5B (a :: r) (by simp)]
  | cons w0 wrest =>
    have hparses := packed_raw_parses pfx omode t hvp hnbp hdp hwt hnbt
    rw [hwalk] at hparses
    rw [List.map_cons, List.map_cons]
    rw [detect_pack pfx _ _ (by
      intro r hr
      rcases List.mem_cons.mp hr with hr | hr
      · rw [hr]
        exact hparses _ (by rw [List.map_cons]; exact List.mem_cons_self _ _)
      · rcases List.mem_map.mp hr with ⟨e, he, hre⟩
        rw [← hre]
        exact hparses e (by rw [List.map_cons]; exact List.mem_cons_of_mem _ he))]
    unfold extract_zip_mapped
    cases hc : create_dir_all fs0 dest with
    | mk fsB e0 =>
      rw [hc] at hcdaok hsfB hwfB hcmB hR4B hR5B
      dsimp only at hcdaok hsfB hwfB hcmB hR4B hR5B
      subst hcdaok
      dsimp only
      obtain ⟨fs2, hloop, hsf2, hwf2, hcm2, hC4, hC5⟩ :=
        zipTreeLoop dest pfx omode hpd hvp hnbp hdp t [] fsB hwt hnbt
          (fun s hs => absurd hs (List.not_mem_nil s))
          hsfB hwfB hcmB
          (by intro y hy hy0; rw [List.append_nil] at hy; exact hR4B y hy hy0)
          (by intro q hq0; rw [List.append_nil]; exact hR5B q hq0)
      rw [shiftItems_nil_pos, hwalk, List.map_cons] at hloop
      rw [hloop]
      dsimp only
      refine ⟨fs2, rfl, ?_⟩
      intro p
      cases p with
      | nil =>
        unfold fileAt
        rw [List.append_nil]
        rw [hC5 dest (by
          intro q hq0 _ he
          have h2 := congrArg List.length he
          simp only [List.append_nil, List.length_append] at h2
          have h3 : 0 < q.length := List.length_pos.mpr hq0
          omega)]
        by_cases hd0 : dest = []
        · rw [hd0, node_nil]
          cases t
          rfl
        · rw [hR4B dest List.prefix_rfl hd0]
          cases t
          rfl
      | cons a r =>
        cases htn : treeNodeAt t (a :: r) with
        | some nd =>
          have h4 := hC4 (a :: r) nd htn
          rw [List.append_nil] at h4
          unfold fileAt
          rw [h4]
          cases nd with
          | file c =>
            rw [(treeFile_treeNodeAt (a :: r) t c).mpr htn]
          | dir =>
            cases htf : treeFile t (a :: r) with
            | none => rfl
            | some c =>
              have h5 := (treeFile_treeNodeAt (a :: r) t c).mp htf
              rw [htn] at h5
              injection h5 with h6
              cases h6
          | symlink tg => exact absurd h4 (symFree_node fs2 hsf2 _ tg)
        | none =>
          unfold fileAt
          rw [hC5 (dest ++ (a :: r)) (by
            intro q hq0 hqn he
            rw [List.append_nil] at he
            have h2 := List.append_cancel_left he
            rw [← h2] at hqn
            exact hqn htn)]
          rw [hR5B (a :: r) (by simp)]
          cases htf : treeFile t (a :: r) with
          | none => rfl
          | some c =>
            have h5 := (treeFile_treeNodeAt (a :: r) t c).mp htf
            rw [htn] at h5
            cases h5

theorem packTarItem_file (pfx : Seg) (q : List Seg) (c : List Nat) (fm : Nat) :
    packTarItem pfx (q, .pfile c fm) =
      ⟨joinSlash (pfx :: q), .file, c, some fm, c.length, none⟩ := rfl

theorem packTarItem_dir (pfx : Seg) (q : List Seg) :
    packTarItem pfx (q, .pdir) =
      ⟨joinSlash (pfx :: q), .dir, [], some 493, 0, none⟩ := rfl

theorem tarLoop_append (dest : Key) (m : Mapper) :
    ∀ (l1 l2 : List TEntry) (st : TarState),
    tarLoop dest m st (l1 ++ l2) =
      match tarLoop dest m st l1 with
      | (st1, none) => tarLoop dest m st1 l2
      | (st1, some e) => (st1, some e) := by
  intro l1
  induction l1 with
  | nil =>
    intro l2 st
    rw [List.nil_append, tarLoop_nil]
  | cons e rest ih =>
    intro l2 st
    rw [List.cons_append, tarLoop_cons, tarLoop_cons]
    cases hz : tar_process_entry dest m st e with
    | mk st1 er =>
      cases er with
      | none =>
        dsimp only
        exact ih l2 st1
      | some e2 => rfl

theorem tar_pack_file_step (dest : Key) (pfx : Seg)
    (hpd : plainKey dest) (hvp : validSegB pfx = true) (hnbp : segNoBackslash pfx = true)
    (hdp : segDriveB pfx = false)
    (π : List Seg) (hπ : ∀ s ∈ π, validSegB s = true ∧ segNoBackslash s = true)
    (x : Seg) (hx : validSegB x = true ∧ segNoBackslash x = true)
    (c : List Nat) (fm : Nat) (fs : Fs) (ex : List Key)
    (hsf : fs.symFree) (hwf : fs.wfFs) (hcm : fs.chmodFail = [])
    (hR4 : ∀ y, y <+: dest ++ π → y ≠ [] → fs.node y = some FNode.dir)
    (hnone : fs.node ((dest ++ π) ++ [x]) = none) :
    tar_process_entry dest (flatMapper dest (some pfx)) ⟨fs, ex, []⟩
      (packTarItem pfx (π ++ [x], .pfile c fm)) =
      (⟨fs.set ((dest ++ π) ++ [x]) (FNode.file c), ex ++ [(dest ++ π) ++ [x]], []⟩,
        none) := by
  have hvall := pack_segs_valid pfx hvp hnbp π hπ x hx
  have hrel : π ++ [x] ≠ [] := by simp
  have hanc : ∀ y, y <+: dest ++ (π ++ [x]) → y ≠ [] → y ≠ dest ++ (π ++ [x]) →
      fs.node y = some FNode.dir := by
    intro y hy hy0 hyn
    rw [← List.append_assoc] at hy
    rcases prefix_snoc_cases hy with hc | hc
    · exact hR4 y hc hy0
    · exact absurd (by rw [hc, List.append_assoc]) hyn
  rw [packTarItem_file]
  unfold tar_process_entry
  dsimp only
  rw [if_neg (by rw [parse_join pfx (π ++ [x]) hvall hdp]; simp)]
  rw [pack_mapper dest pfx hdp (π ++ [x]) hrel hvall]
  dsimp only
  rw [pack_resolve dest hpd (π ++ [x]) hrel fs hsf hwf
    (valid_plain _ (fun s hs => hvall s (List.mem_cons_of_mem pfx hs))) hanc]
  dsimp only
  have hwe := write_entry_file_ok fs ((dest ++ π) ++ [x]) c (some fm) c.length hsf (by simp)
    (by
      rw [List.dropLast_concat]
      intro l hl hl0 c0 hfc
      rw [hR4 l hl hl0] at hfc
      cases hfc)
    (by rw [hnone]; simp)
    rfl
    (Or.inr (by rw [hcm]; exact List.not_mem_nil _))
  rw [List.dropLast_concat] at hwe
  have hcda : create_dir_all fs (dest ++ π) = (fs, none) := by
    unfold create_dir_all
    apply cdaAux_id
    intro l hl hl0
    rw [List.nil_append]
    exact hR4 l hl hl0
  rw [hcda] at hwe
  rw [← List.append_assoc]
  rw [hwe]

theorem tar_pack_dir_step (dest : Key) (pfx : Seg)
    (hpd : plainKey dest) (hvp : validSegB pfx = true) (hnbp : segNoBackslash pfx = true)
    (hdp : segDriveB pfx = false)
    (π : List Seg) (hπ : ∀ s ∈ π, validSegB s = true ∧ segNoBackslash s = true)
    (x : Seg) (hx : validSegB x = true ∧ segNoBackslash x = true) (fs : Fs) (ex : List Key)
    (hsf : fs.symFree) (hwf : fs.wfFs) (hcm : fs.chmodFail = [])
    (hR4 : ∀ y, y <+: dest ++ π → y ≠ [] → fs.node y = some FNode.dir)
    (hnone : fs.node ((dest ++ π) ++ [x]) = none) :
    tar_process_entry dest (flatMapper dest (some pfx)) ⟨fs, ex, []⟩
      (packTarItem pfx (π ++ [x], .pdir)) =
      (⟨fs.set ((dest ++ π) ++ [x]) FNode.dir, ex, []⟩, none) := by
  have hvall := pack_segs_valid pfx hvp hnbp π hπ x hx
  have hrel : π ++ [x] ≠ [] := by simp
  have hanc : ∀ y, y <+: dest ++ (π ++ [x]) → y ≠ [] → y ≠ dest ++ (π ++ [x]) →
      fs.node y = some FNode.dir := by
    intro y hy hy0 hyn
    rw [← List.append_assoc] at hy
    rcases prefix_snoc_cases hy with hc | hc
    · exact hR4 y hc hy0
    · exact absurd (by rw [hc, List.append_assoc]) hyn
  rw [packTarItem_dir]
  unfold tar_process_entry
  dsimp only
  rw [if_neg (by rw [parse_join pfx (π ++ [x]) hvall hdp]; simp)]
  rw [pack_mapper dest pfx hdp (π ++ [x]) hrel hvall]
  dsimp only
  rw [pack_resolve dest hpd (π ++ [x]) hrel fs hsf hwf
    (valid_plain _ (fun s hs => hvall s (List.mem_cons_of_mem pfx hs))) hanc]
  dsimp only
  rw [← List.append_assoc]
  rw [show write_entry fs ((dest ++ π) ++ [x]) true [] (some 493) none =
      create_dir_all fs ((dest ++ π) ++ [x]) from
    write_entry_dir_eq fs ((dest ++ π) ++ [x]) [] (some 493) none]
  rw [cda_last_new fs (dest ++ π) x hR4 hnone]

theorem tarFilesLoop (dest : Key) (pfx : Seg)
    (hpd : plainKey dest) (hvp : validSegB pfx = true) (hnbp : segNoBackslash pfx = true)
    (hdp : segDriveB pfx = false) :
    ∀ (files : List (Seg × List Nat × Nat)) (π : List Seg) (fs : Fs) (ex : List Key),
    (∀ s ∈ π, validSegB s = true ∧ segNoBackslash s = true) →
    (∀ f ∈ files, validSegB f.1 = true ∧ segNoBackslash f.1 = true) →
    listNodupB (files.map (·.1)) = true →
    fs.symFree → fs.wfFs → fs.chmodFail = [] →
    (∀ y, y <+: dest ++ π → y ≠ [] → fs.node y = some FNode.dir) →
    (∀ x qrest, x ∈ files.map (·.1) → fs.node ((dest ++ π) ++ x :: qrest) = none) →
    ∃ fs2 ex2, tarLoop dest (flatMapper dest (some pfx)) ⟨fs, ex, []⟩
        ((shiftItems π (files.map (fun f => ([f.1], PItem.pfile f.2.1 f.2.2)))).map
          (packTarItem pfx)) = (⟨fs2, ex2, []⟩, none) ∧
      fs2.symFree ∧ fs2.wfFs ∧ fs2.chmodFail = [] ∧
      (∀ q nd, fileListNodeAt files q = some nd → fs2.node ((dest ++ π) ++ q) = some nd) ∧
      (∀ k, (∀ q, q ≠ [] → fileListNodeAt files q ≠ none → k ≠ (dest ++ π) ++ q) →
        fs2.node k = fs.node k) := by
  intro files
  induction files with
  | nil =>
    intro π fs ex _ _ _ hsf hwf hcm _ _
    refine ⟨fs, ex, by rw [List.map_nil]; rfl, hsf, hwf, hcm, ?_, fun k _ => rfl⟩
    intro q nd h
    exfalso
    cases q with
    | nil =>
      rw [fileListNodeAt_nil_path] at h
      cases h
    | cons a r =>
      cases r with
      | nil =>
        rw [fileListNodeAt_single] at h
        dsimp only [List.find?] at h
        cases h
      | cons b rr =>
        rw [fileListNodeAt_long] at h
        cases h
  | cons f rest ih =>
    intro π fs ex hπ hfv hnd hsf hwf hcm hR4 hR5
    have hxv := hfv f (List.mem_cons_self f rest)
    have hnone : fs.node ((dest ++ π) ++ [f.1]) = none :=
      hR5 f.1 [] (by rw [List.map_cons]; exact List.mem_cons_self _ _)
    have hnd2 : listNodupB (rest.map (·.1)) = true ∧ f.1 ∉ rest.map (·.1) := by
      rw [List.map_cons, listNodupB_cons, Bool.and_eq_true] at hnd
      refine ⟨hnd.2, ?_⟩
      intro hmem
      have h2 : (rest.map (·.1)).contains f.1 = true := List.elem_eq_true_of_mem hmem
      rw [h2] at hnd
      have h3 := hnd.1
      cases h3
    have hk1 : ((dest ++ π) ++ [f.1] : Key) ≠ [] := by simp
    have hsf1 : (fs.set ((dest ++ π) ++ [f.1]) (FNode.file f.2.1)).symFree :=
      symFree_set _ _ _ hsf rfl
    have hwf1 : (fs.set ((dest ++ π) ++ [f.1]) (FNode.file f.2.1)).wfFs := by
      apply wf_set _ _ _ hwf hk1
      · intro y hy hyn hy0
        rcases prefix_snoc_cases hy with hc | hc
        · exact hR4 y hc hy0
        · exact absurd hc hyn
      · intro hd
        rw [hnone] at hd
        cases hd
    have hcm1 : (fs.set ((dest ++ π) ++ [f.1]) (FNode.file f.2.1)).chmodFail = [] := by
      rw [set_chmodFail]
      exact hcm
    have hR4f : ∀ y, y <+: dest ++ π → y ≠ [] →
        (fs.set ((dest ++ π) ++ [f.1]) (FNode.file f.2.1)).node y = some FNode.dir := by
      intro y hy hy0
      rw [node_set_other _ _ _ y (by
        intro he
        have h2 := hy.length_le
        rw [he] at h2
        simp at h2)]
      exact hR4 y hy hy0
    have hR5f : ∀ x qrest, x ∈ rest.map (·.1) →
        (fs.set ((dest ++ π) ++ [f.1]) (FNode.file f.2.1)).node
          ((dest ++ π) ++ x :: qrest) = none := by
      intro x qrest hx
      rw [node_set_other _ _ _ _ (by
        intro he
        have h2 := List.append_cancel_left he
        injection h2 with h3 h4
        apply hnd2.2
        rw [← h3]
        exact hx)]
      exact hR5 x qrest (by rw [List.map_cons]; exact List.mem_cons_of_mem _ hx)
    obtain ⟨fs2, ex2, hl2, hsf2, hwf2, hcm2, hC4, hC5⟩ :=
      ih π (fs.set ((dest ++ π) ++ [f.1]) (FNode.file f.2.1)) (ex ++ [(dest ++ π) ++ [f.1]])
        hπ (fun g hg => hfv g (List.mem_cons_of_mem f hg)) hnd2.1 hsf1 hwf1 hcm1 hR4f hR5f
    have hstep := tar_pack_file_step dest pfx hpd hvp hnbp hdp π hπ f.1 hxv
      f.2.1 f.2.2 fs ex hsf hwf hcm hR4 hnone
    refine ⟨fs2, ex2, ?_, hsf2, hwf2, hcm2, ?_, ?_⟩
    · rw [List.map_cons, shiftItems_cons, List.map_cons, tarLoop_cons]
      dsimp only
      rw [hstep]
      exact hl2
    · intro q nd h
      cases q with
      | nil =>
        rw [fileListNodeAt_nil_path] at h
        cases h
      | cons a r =>
        cases r with
        | cons b rr =>
          rw [fileListNodeAt_long] at h
          cases h
        | nil =>
          rw [fileListNodeAt_single] at h
          by_cases hfa : f.1 = a
          · rw [List.find?_cons_of_pos rest (by rw [beq_iff_eq]; exact hfa)] at h
            dsimp only at h
            injection h with h2
            rw [hC5 ((dest ++ π) ++ [a]) (by
              intro q hq0 hqn he
              cases q with
              | nil => exact hq0 rfl
              | cons a2 r2 =>
                cases r2 with
                | cons b2 rr2 =>
                  rw [fileListNodeAt_long] at hqn
                  exact hqn rfl
                | nil =>
                  have h3 := List.append_cancel_left he
                  injection h3 with h4 _
                  rw [fileListNodeAt_single] at hqn
                  cases hfind : (rest.find? (fun g => g.1 == a2)) with
                  | none => rw [hfind] at hqn; exact hqn rfl
                  | some g =>
                    have h5 : g.1 = a2 := by
                      have h6 := List.find?_some hfind
                      rw [beq_iff_eq] at h6
                      exact h6
                    apply hnd2.2
                    rw [← hfa] at h4
                    rw [List.mem_map]
                    exact ⟨g, List.mem_of_find?_eq_some hfind, by rw [h5, ← h4]⟩)]
            rw [← hfa, node_set_self _ _ _ hk1, ← h2]
          · rw [List.find?_cons_of_neg rest (by rw [beq_iff_eq]; exact hfa)] at h
            exact hC4 [a] nd (by rw [fileListNodeAt_single]; exact h)
    · intro k hguard
      rw [hC5 k (by
        intro q hq0 hqn he
        apply hguard q hq0 ?_ he
        cases q with
        | nil => exact absurd rfl hq0
        | cons a r =>
          cases r with
          | cons b rr =>
            rw [fileListNodeAt_long] at hqn
            exact absurd rfl hqn
          | nil =>
            rw [fileListNodeAt_single] at hqn ⊢
            by_cases hfa : f.1 = a
            · rw [List.find?_cons_of_pos rest (by rw [beq_iff_eq]; exact hfa)]
              simp
            · rw [List.find?_cons_of_neg rest (by rw [beq_iff_eq]; exact hfa)]
              exact hqn)]
      apply node_set_other
      apply hguard [f.1] (by simp)
      rw [fileListNodeAt_single, List.find?_cons_of_pos rest (by rw [beq_iff_eq])]
      simp

mutual

theorem tarTreeLoop (dest : Key) (pfx : Seg)
    (hpd : plainKey dest) (hvp : validSegB pfx = true) (hnbp : segNoBackslash pfx = true)
    (hdp : segDriveB pfx = false) :
    ∀ (t : FTree) (π : List Seg) (fs : Fs) (ex : List Key),
    wfTreeB t = true → treeNoBackslashB t = true →
    (∀ s ∈ π, validSegB s = true ∧ segNoBackslash s = true) →
    fs.symFree → fs.wfFs → fs.chmodFail = [] →
    (∀ y, y <+: dest ++ π → y ≠ [] → fs.node y = some FNode.dir) →
    (∀ q, q ≠ [] → fs.node ((dest ++ π) ++ q) = none) →
    ∃ fs2 ex2, tarLoop dest (flatMapper dest (some pfx)) ⟨fs, ex, []⟩
        ((shiftItems π (walkTree t)).map (packTarItem pfx)) = (⟨fs2, ex2, []⟩, none) ∧
      fs2.symFree ∧ fs2.wfFs ∧ fs2.chmodFail = [] ∧
      (∀ q nd, treeNodeAt t q = some nd → fs2.node ((dest ++ π) ++ q) = some nd) ∧
      (∀ k, (∀ q, q ≠ [] → treeNodeAt t q ≠ none → k ≠ (dest ++ π) ++ q) →
        fs2.node k = fs.node k) := by
  intro t
  cases t with
  | node files dirs =>
    intro π fs ex hwt hnbt hπ hsf hwf hcm hR4 hR5
    rw [wfTreeB_eq] at hwt
    rw [treeNoBackslashB_eq] at hnbt
    rw [Bool.and_eq_true, Bool.and_eq_true, Bool.and_eq_true] at hwt
    rw [Bool.and_eq_true, Bool.and_eq_true] at hnbt
    obtain ⟨⟨⟨hfall, hdall⟩, hnodup⟩, hwdl⟩ := hwt
    obtain ⟨⟨hfnb, hdnb⟩, hdlnb⟩ := hnbt
    obtain ⟨hndf, hndd, hdisj⟩ := listNodupB_append _ _ hnodup
    have hfv : ∀ f ∈ files, validSegB f.1 = true ∧ segNoBackslash f.1 = true := by
      intro f hf
      exact ⟨List.all_eq_true.mp hfall f hf, List.all_eq_true.mp hfnb f hf⟩
    have hdv : ∀ d ∈ dirs, validSegB d.1 = true ∧ segNoBackslash d.1 = true := by
      intro d hd
      exact ⟨List.all_eq_true.mp hdall d hd, List.all_eq_true.mp hdnb d hd⟩
    obtain ⟨fs1, ex1, hl1, hsf1, hwf1, hcm1, hC4f, hC5f⟩ :=
      tarFilesLoop dest pfx hpd hvp hnbp hdp files π fs ex hπ hfv hndf hsf hwf hcm hR4
        (fun x qrest hx => hR5 (x :: qrest) (by simp))
    have hR4A : ∀ y, y <+: dest ++ π → y ≠ [] → fs1.node y = some FNode.dir := by
      intro y hy hy0
      rw [hC5f y (by
        intro q hq0 _ he
        have h2 := hy.length_le
        rw [he, List.length_append] at h2
        have h3 : 0 < q.length := List.length_pos.mpr hq0
        omega)]
      exact hR4 y hy hy0
    have hR5A : ∀ x qrest, x ∈ dirs.map (·.1) →
        fs1.node ((dest ++ π) ++ x :: qrest) = none := by
      intro x qrest hx
      rw [hC5f _ (by
        intro q hq0 hqn he
        obtain ⟨x2, hq, hx2⟩ := fileListNodeAt_shape files q hqn
        have h2 := List.append_cancel_left he
        rw [hq] at h2
        injection h2 with h3 _
        exact hdisj x2 hx2 (h3 ▸ hx))]
      exact hR5 (x :: qrest) (by simp)
    obtain ⟨fs2, ex2, hl2, hsf2, hwf2, hcm2, hC4d, hC5d⟩ :=
      tarDirListLoop dest pfx hpd hvp hnbp hdp dirs π fs1 ex1 hdv hwdl hdlnb hndd hπ
        hsf1 hwf1 hcm1 hR4A hR5A
    refine ⟨fs2, ex2, ?_, hsf2, hwf2, hcm2, ?_, ?_⟩
    · rw [walkTree_eq, shiftItems_append, List.map_append, tarLoop_append, hl1]
      exact hl2
    · intro q nd h
      rw [treeNodeAt_decomp] at h
      cases hfq : fileListNodeAt files q with
      | some nd0 =>
        rw [hfq] at h
        dsimp only at h
        injection h with h2
        rw [hC5d _ (by
          intro q2 hq02 hqn2 he
          obtain ⟨x, hqx, hx⟩ := fileListNodeAt_shape files q (by rw [hfq]; simp)
          obtain ⟨x2, r2, hq2, hx2⟩ := dirListNodeAt_shape dirs q2 hqn2
          have h3 := List.append_cancel_left he
          rw [hqx, hq2] at h3
          injection h3 with h4 _
          exact hdisj x hx (h4 ▸ hx2))]
        rw [← h2]
        exact hC4f q nd0 hfq
      | none =>
        rw [hfq] at h
        dsimp only at h
        exact hC4d q nd h
    · intro k hguard
      rw [hC5d k (by
        intro q hq0 hqn he
        apply hguard q hq0 ?_ he
        rw [treeNodeAt_decomp]
        cases hfq : fileListNodeAt files q with
        | some nd0 => simp
        | none => dsimp only; exact hqn)]
      rw [hC5f k (by
        intro q hq0 hqn he
        apply hguard q hq0 ?_ he
        rw [treeNodeAt_decomp]
        cases hfq : fileListNodeAt files q with
        | some nd0 => dsimp only; simp
        | none => exact absurd hfq hqn)]

theorem tarDirListLoop (dest : Key) (pfx : Seg)
    (hpd : plainKey dest) (hvp : validSegB pfx = true) (hnbp : segNoBackslash pfx = true)
    (hdp : segDriveB pfx = false) :
    ∀ (ds : List (Seg × FTree)) (π : List Seg) (fs : Fs) (ex : List Key),
    (∀ d ∈ ds, validSegB d.1 = true ∧ segNoBackslash d.1 = true) →
    wfDirListB ds = true → dirListNoBackslashB ds = true →
    listNodupB (ds.map (·.1)) = true →
    (∀ s ∈ π, validSegB s = true ∧ segNoBackslash s = true) →
    fs.symFree → fs.wfFs → fs.chmodFail = [] →
    (∀ y, y <+: dest ++ π → y ≠ [] → fs.node y = some FNode.dir) →
    (∀ x qrest, x ∈ ds.map (·.1) → fs.node ((dest ++ π) ++ x :: qrest) = none) →
    ∃ fs2 ex2, tarLoop dest (flatMapper dest (some pfx)) ⟨fs, ex, []⟩
        ((shiftItems π (walkDirList ds)).map (packTarItem pfx)) = (⟨fs2, ex2, []⟩, none) ∧
      fs2.symFree ∧ fs2.wfFs ∧ fs2.chmodFail = [] ∧
      (∀ q nd, dirListNodeAt ds q = some nd → fs2.node ((dest ++ π) ++ q) = some nd) ∧
      (∀ k, (∀ q, q ≠ [] → dirListNodeAt ds q ≠ none → k ≠ (dest ++ π) ++ q) →
        fs2.node k = fs.node k) := by
  intro ds
  cases ds with
  | nil =>
    intro π fs ex _ _ _ _ _ hsf hwf hcm _ _
    refine ⟨fs, ex, by rw [walkDirList_nil]; rfl, hsf, hwf, hcm, ?_, fun k _ => rfl⟩
    intro q nd h
    exfalso
    cases q with
    | nil =>
      rw [dirListNodeAt_nil_path] at h
      cases h
    | cons a r =>
      cases r with
      | nil =>
        rw [dirListNodeAt_single] at h
        dsimp only [List.find?] at h
        cases h
      | cons b rr =>
        rw [dirListNodeAt_long] at h
        dsimp only [List.find?] at h
        cases h
  | cons d rest =>
    cases d with
    | mk n sub =>
      intro π fs ex hdv hwdl hdlnb hnd hπ hsf hwf hcm hR4 hR5
      rw [wfDirListB_cons, Bool.and_eq_true] at hwdl
      rw [dirListNoBackslashB_cons, Bool.and_eq_true] at hdlnb
      have hnv := hdv (n, sub) (List.mem_cons_self _ _)
      have hnd2 : listNodupB (rest.map (·.1)) = true ∧ n ∉ rest.map (·.1) := by
        rw [List.map_cons, listNodupB_cons, Bool.and_eq_true] at hnd
        refine ⟨hnd.2, ?_⟩
        have h2 := hnd.1
        rw [Bool.not_eq_true'] at h2
        exact (contains_false _ n).mp h2
      have hnone : fs.node ((dest ++ π) ++ [n]) = none :=
        hR5 n [] (by rw [List.map_cons]; exact List.mem_cons_self _ _)
      have hstep := tar_pack_dir_step dest pfx hpd hvp hnbp hdp π hπ n hnv fs ex
        hsf hwf hcm hR4 hnone
      have hk1 : ((dest ++ π) ++ [n] : Key) ≠ [] := by simp
      have hsf1 : (fs.set ((dest ++ π) ++ [n]) FNode.dir).symFree := symFree_set _ _ _ hsf rfl
      have hwf1 : (fs.set ((dest ++ π) ++ [n]) FNode.dir).wfFs := by
        apply wf_set _ _ _ hwf hk1
        · intro y hy hyn hy0
          rcases prefix_snoc_cases hy with hc | hc
          · exact hR4 y hc hy0
          · exact absurd hc hyn
        · intro _
          rfl
      have hcm1 : (fs.set ((dest ++ π) ++ [n]) FNode.dir).chmodFail = [] := by
        rw [set_chmodFail]
        exact hcm
      have hA1 : dest ++ (π ++ [n]) = (dest ++ π) ++ [n] := (List.append_assoc dest π [n]).symm
      have hπ2 : ∀ s ∈ π ++ [n], validSegB s = true ∧ segNoBackslash s = true := by
        intro s hs
        rcases List.mem_append.mp hs with hs | hs
        · exact hπ s hs
        · rw [List.mem_singleton.mp hs]
          exact hnv
      have hR4s : ∀ y, y <+: dest ++ (π ++ [n]) → y ≠ [] →
          (fs.set ((dest ++ π) ++ [n]) FNode.dir).node y = some FNode.dir := by
        intro y hy hy0
        rw [hA1] at hy
        rcases prefix_snoc_cases hy with hc | hc
        · rw [node_set_other _ _ _ y (by
            intro he
            have h2 := hc.length_le
            rw [he] at h2
            simp at h2)]
          exact hR4 y hc hy0
        · rw [hc]
          exact node_set_self _ _ _ hk1
      have hR5s : ∀ q, q ≠ [] →
          (fs.set ((dest ++ π) ++ [n]) FNode.dir).node
            ((dest ++ (π ++ [n])) ++ q) = none := by
        intro q hq0
        have hA2 : (dest ++ (π ++ [n])) ++ q = (dest ++ π) ++ (n :: q) := by
          rw [hA1, List.append_assoc, List.singleton_append]
        rw [hA2, node_set_other _ _ _ _ (by
          intro he
          have h2 := List.append_cancel_left he
          injection h2 with _ h3
          exact hq0 h3)]
        exact hR5 n q (by rw [List.map_cons]; exact List.mem_cons_self _ _)
      obtain ⟨fs2, ex2, hl2, hsf2, hwf2, hcm2, hC4s, hC5s⟩ :=
        tarTreeLoop dest pfx hpd hvp hnbp hdp sub (π ++ [n])
          (fs.set ((dest ++ π) ++ [n]) FNode.dir) ex hwdl.1 hdlnb.1 hπ2 hsf1 hwf1 hcm1
          hR4s hR5s
      have hR4r : ∀ y, y <+: dest ++ π → y ≠ [] → fs2.node y = some FNode.dir := by
        intro y hy hy0
        rw [hC5s y (by
          intro q hq0 _ he
          have h2 := hy.length_le
          rw [he] at h2
          simp only [List.length_append, List.length_singleton] at h2
          have h3 : 0 < q.length := List.length_pos.mpr hq0
          omega)]
        rw [node_set_other _ _ _ y (by
          intro he
          have h2 := hy.length_le
          rw [he] at h2
          simp at h2)]
        exact hR4 y hy hy0
      have hR5r : ∀ x qrest, x ∈ rest.map (·.1) →
          fs2.node ((dest ++ π) ++ x :: qrest) = none := by
        intro x qrest hx
        have hxn : x ≠ n := by
          intro he
          exact hnd2.2 (he ▸ hx)
        rw [hC5s _ (by
          intro q hq0 _ he
          have h3 : (dest ++ π) ++ x :: qrest = (dest ++ π) ++ n :: q := by
            rw [he, hA1, List.append_assoc, List.singleton_append]
          have h2 := List.append_cancel_left h3
          injection h2 with h4 _
          exact hxn h4)]
        rw [node_set_other _ _ _ _ (by
          intro he
          have h2 := List.append_cancel_left he
          injection h2 with h4 _
          exact hxn h4)]
        exact hR5 x qrest (by rw [List.map_cons]; exact List.mem_cons_of_mem _ hx)
      obtain ⟨fs3, ex3, hl3, hsf3, hwf3, hcm3, hC4r, hC5r⟩ :=
        tarDirListLoop dest pfx hpd hvp hnbp hdp rest π fs2 ex2
          (fun d2 hd2 => hdv d2 (List.mem_cons_of_mem _ hd2)) hwdl.2 hdlnb.2 hnd2.1 hπ
          hsf2 hwf2 hcm2 hR4r hR5r
      refine ⟨fs3, ex3, ?_, hsf3, hwf3, hcm3, ?_, ?_⟩
      · rw [walkDirList_cons, shiftItems_cons, List.map_cons, tarLoop_cons]
        dsimp only
        rw [hstep]
        dsimp only
        rw [shiftItems_append, shiftItems_shift, List.map_append, tarLoop_append, hl2]
        exact hl3
      · intro q nd h
        cases q with
        | nil =>
          rw [dirListNodeAt_nil_path] at h
          cases h
        | cons a r =>
          by_cases han : a = n
          · subst han
            cases r with
            | nil =>
              rw [dirListNodeAt_single,
                List.find?_cons_of_pos rest (by rw [beq_iff_eq])] at h
              dsimp only at h
              injection h with h2
              rw [hC5r _ (by
                intro q2 hq02 hqn2 he
                obtain ⟨x2, r2, hq2, hx2⟩ := dirListNodeAt_shape rest q2 hqn2
                have h3 := List.append_cancel_left he
                rw [hq2] at h3
                injection h3 with h4 _
                exact hnd2.2 (h4 ▸ hx2))]
              rw [hC5s _ (by
                intro q2 hq02 _ he
                have h2l := congrArg List.length he
                simp only [List.length_append, List.length_singleton] at h2l
                have h3 : 0 < q2.length := List.length_pos.mpr hq02
                omega)]
              rw [node_set_self _ _ _ hk1, ← h2]
            | cons b rr =>
              rw [dirListNodeAt_long,
                List.find?_cons_of_pos rest (by rw [beq_iff_eq])] at h
              dsimp only at h
              have h4 := hC4s (b :: rr) nd h
              have hA3 : (dest ++ (π ++ [a])) ++ (b :: rr) = (dest ++ π) ++ (a :: b :: rr) := by
                rw [(List.append_assoc dest π [a]).symm, List.append_assoc,
                  List.singleton_append]
              rw [← hA3]
              rw [hC5r _ (by
                intro q2 hq02 hqn2 he
                obtain ⟨x2, r2, hq2, hx2⟩ := dirListNodeAt_shape rest q2 hqn2
                rw [hA3] at he
                have h3 := List.append_cancel_left he
                rw [hq2] at h3
                injection h3 with h5 _
                exact hnd2.2 (h5 ▸ hx2))]
              exact h4
          · have hfind : ((n, sub) :: rest).find? (fun d2 => d2.1 == a) =
                rest.find? (fun d2 => d2.1 == a) :=
              List.find?_cons_of_neg rest (by rw [beq_iff_eq]; exact fun hh => han hh.symm)
            cases r with
            | nil =>
              rw [dirListNodeAt_single, hfind] at h
              exact hC4r [a] nd (by rw [dirListNodeAt_single]; exact h)
            | cons b rr =>
              rw [dirListNodeAt_long, hfind] at h
              exact hC4r (a :: b :: rr) nd (by rw [dirListNodeAt_long]; exact h)
      · intro k hguard
        rw [hC5r k (by
          intro q hq0 hqn he
          obtain ⟨x2, r2, hq2, hx2⟩ := dirListNodeAt_shape rest q hqn
          apply hguard q hq0 ?_ he
          have hxn : x2 ≠ n := fun hh => hnd2.2 (hh ▸ hx2)
          have hfind : ((n, sub) :: rest).find? (fun d2 => d2.1 == x2) =
              rest.find? (fun d2 => d2.1 == x2) :=
            List.find?_cons_of_neg rest (by rw [beq_iff_eq]; exact fun hh => hxn hh.symm)
          rw [hq2] at hqn ⊢
          cases r2 with
          | nil =>
            rw [dirListNodeAt_single, hfind]
            rw [dirListNodeAt_single] at hqn
            exact hqn
          | cons b rr =>
            rw [dirListNodeAt_long, hfind]
            rw [dirListNodeAt_long] at hqn
            exact hqn)]
        rw [hC5s k (by
          intro q hq0 hqn he
          apply hguard (n :: q) (by simp) ?_ (by
            rw [he, hA1, List.append_assoc, List.singleton_append])
          cases q with
          | nil => exact absurd rfl hq0
          | cons b rr =>
            rw [dirListNodeAt_long, List.find?_cons_of_pos rest (by rw [beq_iff_eq])]
            dsimp only
            exact hqn)]
        apply node_set_other
        apply hguard [n] (by simp)
        rw [dirListNodeAt_single, List.find?_cons_of_pos rest (by rw [beq_iff_eq])]
        simp

end

theorem packed_tar_raw_parses (pfx : Seg) (t : FTree)
    (hvp : validSegB pfx = true) (hnbp : segNoBackslash pfx = true)
    (hdp : segDriveB pfx = false)
    (hwt : wfTreeB t = true) (hnbt : treeNoBackslashB t = true) :
    ∀ e ∈ (walkTree t).map (packTarItem pfx),
      ∃ p, p ≠ [] ∧ parse_entry_rel_path e.raw = some (pfx :: p) := by
  intro e he
  rcases List.mem_map.mp he with ⟨w, hw, hwe⟩
  obtain ⟨q, it⟩ := w
  have hitems := walkTree_items t hwt hnbt (q, it) hw
  have hvall : ∀ s ∈ pfx :: q, s ≠ [] ∧ s ≠ dotSeg ∧ s ≠ dotdotSeg ∧ '/' ∉ s ∧
      '\\' ∉ s := by
    intro s hs
    rcases List.mem_cons.mp hs with hs | hs
    · rw [hs]
      exact validSeg_props pfx hvp hnbp
    · exact validSeg_props s (hitems.2 s hs).1 (hitems.2 s hs).2
  refine ⟨q, hitems.1, ?_⟩
  rw [← hwe]
  cases it with
  | pdir =>
    rw [packTarItem_dir]
    exact parse_join pfx q hvall hdp
  | pfile c fm =>
    rw [packTarItem_file]
    exact parse_join pfx q hvall hdp

/-- The tar round trip over the abstract destination. -/
theorem tar_pack_roundtrip (dest : Key) (pfx : Seg) (t : FTree)
    (hpd : plainKey dest) (hvp : validSegB pfx = true) (hnbp : segNoBackslash pfx = true)
    (hdp : segDriveB pfx = false) (hwt : wfTreeB t = true) (hnbt : treeNoBackslashB t = true)
    (fs0 : Fs) (hsf : fs0.symFree) (hwf : fs0.wfFs) (hcm : fs0.chmodFail = [])
    (hanc : ∀ l, l <+: dest → l ≠ [] → ∀ c, fs0.node l ≠ some (FNode.file c))
    (hempty : ∀ q, q ≠ [] → fs0.node (dest ++ q) = none) :
    ∃ fs1, extract_tar_gz_flat fs0 dest (append_dir_to_tar pfx t) = (fs1, none) ∧
      ∀ p, fileAt fs1 (dest ++ p) = treeFile t p := by
  have hcdaok : (create_dir_all fs0 dest).2 = none := by
    apply cdaAux_ok_of dest fs0 [] hsf
    intro l hl hl0 c
    rw [List.nil_append]
    exact hanc l hl hl0 c
  have hsfB : ((create_dir_all fs0 dest).1).symFree := cdaAux_symFree dest fs0 [] hsf
  have hwfB : ((create_dir_all fs0 dest).1).wfFs :=
    cdaAux_wf dest fs0 [] hsf hwf (fun y hy hy0 => absurd (List.prefix_nil.mp hy) hy0)
  have hcmB : ((create_dir_all fs0 dest).1).chmodFail = [] := by
    rw [create_dir_all_chmodFail]
    exact hcm
  have hR4B : ∀ y, y <+: dest → y ≠ [] →
      ((create_dir_all fs0 dest).1).node y = some FNode.dir := by
    intro y hy hy0
    have h2 : ((create_dir_all fs0 dest).1).node ([] ++ y) = some FNode.dir :=
      cdaAux_post_dirs dest fs0 [] hsf hcdaok y hy hy0
    rw [List.nil_append] at h2
    exact h2
  have hR5B : ∀ q, q ≠ [] → ((create_dir_all fs0 dest).1).node (dest ++ q) = none := by
    intro q hq0
    have hfr : ((create_dir_all fs0 dest).1).node (dest ++ q) = fs0.node (dest ++ q) := by
      unfold create_dir_all
      apply cdaAux_frame
      intro l hl hl0 he
      rw [List.nil_append] at he
      have h2 := hl.length_le
      have h3 := congrArg List.length he
      rw [List.length_append] at h3
      have h4 : 0 < q.length := List.length_pos.mpr hq0
      omega
    rw [hfr]
    exact hempty q hq0
  unfold extract_tar_gz_flat
  rw [append_tar_eq]
  cases hwalk : walkTree t with
  | nil =>
    unfold extract_tar_gz_mapped
    cases hc : create_dir_all fs0 dest with
    | mk fsB e0 =>
      rw [hc] at hcdaok hR4B hR5B
      dsimp only at hcdaok hR4B hR5B
      subst hcdaok
      dsimp only
      rw [List.map_nil, tarLoop_nil]
      dsimp only
      refine ⟨fsB, rfl, ?_⟩
      intro p
      rw [walkTree_nil_shape t hwalk p]
      cases p with
      | nil =>
        unfold fileAt
        rw [List.append_nil]
        by_cases hd0 : dest = []
        · rw [hd0, node_nil]
        · rw [hR4B dest List.prefix_rfl hd0]
      | cons a r =>
        unfold fileAt
        rw [hR5B (a :: r) (by simp)]
  | cons w0 wrest =>
    have hparses := packed_tar_raw_parses pfx t hvp hnbp hdp hwt hnbt
    rw [hwalk] at hparses
    rw [List.map_cons, List.map_cons]
    rw [detect_pack pfx _ _ (by
      intro r hr
      rcases List.mem_cons.mp hr with hr | hr
      · rw [hr]
        exact hparses _ (by rw [List.map_cons]; exact List.mem_cons_self _ _)
      · rcases List.mem_map.mp hr with ⟨e, he, hre⟩
        rw [← hre]
        exact hparses e (by rw [List.map_cons]; exact List.mem_cons_of_mem _ he))]
    unfold extract_tar_gz_mapped
    cases hc : create_dir_all fs0 dest with
    | mk fsB e0 =>
      rw [hc] at hcdaok hsfB hwfB hcmB hR4B hR5B
      dsimp only at hcdaok hsfB hwfB hcmB hR4B hR5B
      subst hcdaok
      dsimp only
      obtain ⟨fs2, ex2, hloop, hsf2, hwf2, hcm2, hC4, hC5⟩ :=
        tarTreeLoop dest pfx hpd hvp hnbp hdp t [] fsB [] hwt hnbt
          (fun s hs => absurd hs (List.not_mem_nil s))
          hsfB hwfB hcmB
          (by intro y hy hy0; rw [List.append_nil] at hy; exact hR4B y hy hy0)
          (by intro q hq0; rw [List.append_nil]; exact hR5B q hq0)
      rw [shiftItems_nil_pos, hwalk, List.map_cons] at hloop
      rw [hloop]
      dsimp only
      refine ⟨fs2, rfl, ?_⟩
      intro p
      cases p with
      | nil =>
        unfold fileAt
        rw [List.append_nil]
        rw [hC5 dest (by
          intro q hq0 _ he
          have h2 := congrArg List.length he
          simp only [List.append_nil, List.length_append] at h2
          have h3 : 0 < q.length := List.length_pos.mpr hq0
          omega)]
        by_cases hd0 : dest = []
        · rw [hd0, node_nil]
          cases t
          rfl
        · rw [hR4B dest List.prefix_rfl hd0]
          cases t
          rfl
      | cons a r =>
        cases htn : treeNodeAt t (a :: r) with
        | some nd =>
          have h4 := hC4 (a :: r) nd htn
          rw [List.append_nil] at h4
          unfold fileAt
          rw [h4]
          cases nd with
          | file c =>
            rw [(treeFile_treeNodeAt (a :: r) t c).mpr htn]
          | dir =>
            cases htf : treeFile t (a :: r) with
            | none => rfl
            | some c =>
              have h5 := (treeFile_treeNodeAt (a :: r) t c).mp htf
              rw [htn] at h5
              injection h5 with h6
              cases h6
          | symlink tg => exact absurd h4 (symFree_node fs2 hsf2 _ tg)
        | none =>
          unfold fileAt
          rw [hC5 (dest ++ (a :: r)) (by
            intro q hq0 hqn he
            rw [List.append_nil] at he
            have h2 := List.append_cancel_left he
            rw [← h2] at hqn
            exact hqn htn)]
          rw [hR5B (a :: r) (by simp)]
          cases htf : treeFile t (a :: r) with
          | none => rfl
          | some c =>
            have h5 := (treeFile_treeNodeAt (a :: r) t c).mp htf
            rw [htn] at h5
            cases h5

/-- C8 (amended): for every link-free directory tree whose names are valid
backslash-free segments, packing it under a valid non-drive backslash-free
prefix segment (append_dir_tree_to_zip / append_dir_to_tar) and
flatten-extracting the archive into a fresh empty destination of a
symlink-free well-formed filesystem with no pending chmod failures
succeeds and reproduces exactly the same relative file paths with
byte-identical contents (permissions best-effort): at every relative path
below the destination the extracted file content equals the tree's file
content, for both the zip and the tar format. -/
theorem c8_pack_extract_roundtrip (dest : Key) (pfx : Seg) (omode : Option Nat)
    (t : FTree) (hpd : plainKey dest) (hvp : validSegB pfx = true)
    (hnbp : segNoBackslash pfx = true) (hdp : segDriveB pfx = false)
    (hwt : wfTreeB t = true) (hnbt : treeNoBackslashB t = true)
    (fs0 : Fs) (hsf : fs0.symFree) (hwf : fs0.wfFs) (hcm : fs0.chmodFail = [])
    (hanc : ∀ l, l <+: dest → l ≠ [] → ∀ c, fs0.node l ≠ some (FNode.file c))
    (hempty : ∀ q, q ≠ [] → fs0.node (dest ++ q) = none) :
    (∃ fs1, extract_zip_flat fs0 dest (append_dir_tree_to_zip pfx omode t) =
        (fs1, none) ∧ ∀ p, fileAt fs1 (dest ++ p) = treeFile t p) ∧
    (∃ fs1, extract_tar_gz_flat fs0 dest (append_dir_to_tar pfx t) =
        (fs1, none) ∧ ∀ p, fileAt fs1 (dest ++ p) = treeFile t p) :=
  ⟨zip_pack_roundtrip dest pfx omode t hpd hvp hnbp hdp hwt hnbt fs0 hsf hwf hcm
      hanc hempty,
    tar_pack_roundtrip dest pfx t hpd hvp hnbp hdp hwt hnbt fs0 hsf hwf hcm
      hanc hempty⟩

theorem c8_witness :
    plainKey destKey ∧ validSegB (str "p") = true ∧ wfTreeB c8Tree = true ∧
    treeNoBackslashB c8Tree = true ∧ fsDestOnly.symFree ∧ fsDestOnly.wfFs ∧
    ((∃ fs1, extract_zip_flat fsDestOnly destKey
        (append_dir_tree_to_zip (str "p") (some 420) c8Tree) = (fs1, none) ∧
        ∀ p, fileAt fs1 (destKey ++ p) = treeFile c8Tree p) ∧
     (∃ fs1, extract_tar_gz_flat fsDestOnly destKey
        (append_dir_to_tar (str "p") c8Tree) = (fs1, none) ∧
        ∀ p, fileAt fs1 (destKey ++ p) = treeFile c8Tree p)) :=
  ⟨by decide, by decide, by decide, by decide, by decide, by decide,
    c8_pack_extract_roundtrip destKey (str "p") (some 420) c8Tree
      (by decide) (by decide) (by decide) (by decide) (by decide) (by decide)
      fsDestOnly (by decide) (by decide) (by decide)
      (by
        intro l hl hl0 c he
        rcases prefix_snoc_cases (show l <+: [] ++ [str "dest"] from hl) with hc | hc
        · exact hl0 (List.prefix_nil.mp hc)
        · rw [List.nil_append] at hc
          subst hc
          have h2 : some FNode.dir = some (FNode.file c) := by
            rw [← he]
            decide
          injection h2 with h3
          cases h3)
      (by
        intro q hq0
        cases q with
        | nil => exact absurd rfl hq0
        | cons a r =>
          show fsDestOnly.node (str "dest" :: a :: r) = none
          unfold Fs.node
          rw [if_neg (by simp)]
          show (if ([str "dest"] : Key) = str "dest" :: a :: r then some FNode.dir
            else lookupKey [] (str "dest" :: a :: r)) = none
          rw [if_neg (by simp)]
          rfl)⟩

end Launcher
